import Mathlib

/-!
# UrhoEmbeddedDiagnostic: Base64 codec and DevServer dispatcher

A shallow embedding of `Source/Urho3D/Math/Base64.h` and of the request
dispatcher, registries and deferred command queue of
`Source/Urho3D/Network/DevServer.cpp`, followed by theorems about them.

Conventions.
* A `Urho3D::String` used as a byte buffer is a `List Nat` whose elements are
  byte values (`< 256`); its length is an `unsigned` (32 bit).
* `int` is 32 bit, `size_t` is 64 bit.  Conversions between them are written
  out with `toInt`, `toUnsigned`, `toSize`.
* A computation whose behaviour C++ leaves undefined (signed overflow, an
  access outside a buffer) yields `none`.
-/

namespace Base64

/-! ## Machine integers -/

/-- Conversion of an integer value to the 32-bit `int` type (two's complement). -/
def toInt (v : Int) : Int := (v + 2147483648) % 4294967296 - 2147483648

/-- Conversion of an integer value to the 32-bit `unsigned` type. -/
def toUnsigned (v : Int) : Nat := (v % 4294967296).toNat

/-- Reduction of a natural number to the 64-bit `size_t` type. -/
def toSize (v : Nat) : Nat := v % 18446744073709551616

/-- The value is representable in `int`. -/
def inIntRange (v : Int) : Bool := decide (-2147483648 ≤ v) && decide (v ≤ 2147483647)

/-! ## Buffers -/

/-- The engine's `String::Resize(newLength)`: the first `newLength` characters
are kept; characters added by growing are taken to be `0` here (the engine
leaves them unspecified, and every successful run below overwrites them). -/
def Resize (s : List Nat) (newLength : Nat) : List Nat :=
  s.take newLength ++ List.replicate (newLength - s.length) 0

/-- The assignment `(*out)[pos] = v`; undefined when `pos` is not below the length. -/
def storeAt (out : List Nat) (pos v : Nat) : Option (List Nat) :=
  if pos < out.length then some (out.set pos v) else none

/-- The loop `for each v in vs: (*out)[pos++] = v`. -/
def storeSeq (out : List Nat) (pos : Nat) : List Nat → Option (List Nat × Nat)
  | [] => some (out, pos)
  | v :: vs =>
    match storeAt out pos v with
    | none => none
    | some out1 => storeSeq out1 (pos + 1) vs

/-! ## Tables and bit shuffling -/

/-- The array `kBase64Alphabet`: the 64 symbols `A-Z a-z 0-9 + /` and the
terminating NUL of the string literal. -/
def kBase64Alphabet : List Nat :=
  [65, 66, 67, 68, 69, 70, 71, 72, 73, 74, 75, 76, 77, 78, 79, 80, 81, 82, 83, 84, 85, 86, 87, 88, 89, 90,
   97, 98, 99, 100, 101, 102, 103, 104, 105, 106, 107, 108, 109, 110, 111, 112, 113, 114, 115, 116, 117,
   118, 119, 120, 121, 122,
   48, 49, 50, 51, 52, 53, 54, 55, 56, 57, 43, 47, 0]

/-- The read `kBase64Alphabet[v]`. -/
def alphabetAt (v : Nat) : Nat := kBase64Alphabet.getD v 0

/-- The character `'='`. -/
def padChar : Nat := 61

/-- The function `a3_to_a4`: three bytes to four 6-bit values (stored as `unsigned char`). -/
def a3_to_a4 (a3 : List Nat) : List Nat :=
  [ ((a3.getD 0 0 &&& 0xfc) >>> 2) % 256,
    (((a3.getD 0 0 &&& 0x03) <<< 4) + ((a3.getD 1 0 &&& 0xf0) >>> 4)) % 256,
    (((a3.getD 1 0 &&& 0x0f) <<< 2) + ((a3.getD 2 0 &&& 0xc0) >>> 6)) % 256,
    (a3.getD 2 0 &&& 0x3f) % 256 ]

/-- The function `a4_to_a3`: four values to three bytes (stored as `unsigned char`). -/
def a4_to_a3 (a4 : List Nat) : List Nat :=
  [ ((a4.getD 0 0 <<< 2) + ((a4.getD 1 0 &&& 0x30) >>> 4)) % 256,
    (((a4.getD 1 0 &&& 0xf) <<< 4) + ((a4.getD 2 0 &&& 0x3c) >>> 2)) % 256,
    (((a4.getD 2 0 &&& 0x3) <<< 6) + a4.getD 3 0) % 256 ]

/-- The function `b64_lookup` on an `unsigned char`; every byte outside the
alphabet gives the sentinel 255. -/
def b64_lookup (c : Nat) : Nat :=
  if 65 ≤ c ∧ c ≤ 90 then (c - 65) % 256
  else if 97 ≤ c ∧ c ≤ 122 then (c - 71) % 256
  else if 48 ≤ c ∧ c ≤ 57 then (c + 4) % 256
  else if c = 43 then 62
  else if c = 47 then 63
  else 255

/-! ## Lengths -/

/-- The function `EncodedLength(size_t length)`, returning `int`:
`(length + 2 - ((length + 2) % 3)) / 3 * 4` in `size_t` arithmetic. -/
def EncodedLength (length : Nat) : Int :=
  toInt ((toSize (toSize (toSize (toSize (length + 2) - toSize (length + 2) % 3) / 3) * 4) : Nat) : Int)

/-- The overload `EncodedLength(const String&)`. -/
def EncodedLengthStr (inp : List Nat) : Int := EncodedLength inp.length

/-- The count made by the loop of `DecodedLength(const String&)`: the number
of `'='` at the end of the string. -/
def trailingPads (inp : List Nat) : Nat :=
  (inp.reverse.takeWhile (fun c => c == padChar)).length

/-- The function `DecodedLength(const String&)`: `((6 * n) / 8) - numEq` in `int`
arithmetic, undefined when `6 * n` overflows. -/
def DecodedLengthStr (inp : List Nat) : Option Int :=
  let n : Int := toInt inp.length
  let numEq : Int := if 0 ≤ n then trailingPads inp else 0
  if inIntRange (6 * n) then some (Int.tdiv (6 * n) 8 - numEq) else none

/-! ## Encode (String overload) -/

/-- Local variables of `Encode` that live across loop iterations. -/
structure EncState where
  i : Nat
  a3 : List Nat
  enc_len : Nat
  out : List Nat

/-- The loop `while (input_len--)` of `Encode`, run over the remaining input. -/
def encodeLoop : List Nat → EncState → Option EncState
  | [], s => some s
  | c :: rest, s =>
    let a3 := s.a3.set s.i (c % 256)
    let i := s.i + 1
    if i = 3 then
      match storeSeq s.out s.enc_len ((a3_to_a4 a3).map alphabetAt) with
      | none => none
      | some (out1, len1) => encodeLoop rest { i := 0, a3 := a3, enc_len := len1, out := out1 }
    else encodeLoop rest { i := i, a3 := a3, enc_len := s.enc_len, out := s.out }

/-- The block `if (i) { ... }` after the loop of `Encode` and the final comparison. -/
def encodeTail (s : EncState) : Option (Bool × List Nat) :=
  if s.i ≠ 0 then
    let a3 := s.a3.take s.i ++ List.replicate (3 - s.i) 0
    let a4 := a3_to_a4 a3
    match storeSeq s.out s.enc_len ((a4.take (s.i + 1)).map alphabetAt) with
    | none => none
    | some (out1, len1) =>
      match storeSeq out1 len1 (List.replicate (3 - s.i) padChar) with
      | none => none
      | some (out2, len2) => some (len2 == out2.length, out2)
  else some (s.enc_len == s.out.length, s.out)

/-- The function `Encode(const String& in, String* out)`; `out0` is the content
of `*out` before the call.  The result is the returned flag and the content of
`*out` afterwards.  With a length of 2^31 or more `int input_len` is negative
and the loop runs past the end of the input. -/
def Encode (inp out0 : List Nat) : Option (Bool × List Nat) :=
  if 2147483648 ≤ inp.length then none
  else
    let out := Resize out0 (toUnsigned (EncodedLengthStr inp))
    (encodeLoop inp { i := 0, a3 := [0, 0, 0], enc_len := 0, out := out }).bind encodeTail

/-! ## Decode (String overload) -/

/-- Local variables of `Decode` that live across loop iterations. -/
structure DecState where
  i : Nat
  a4 : List Nat
  dec_len : Nat
  out : List Nat

/-- The loop `while (input_len--)` of `Decode`, run over the remaining input;
it stops at the first `'='`. -/
def decodeLoop : List Nat → DecState → Option DecState
  | [], s => some s
  | c :: rest, s =>
    if c = padChar then some s
    else
      let a4 := s.a4.set s.i (c % 256)
      let i := s.i + 1
      if i = 4 then
        let a4l := a4.map b64_lookup
        match storeSeq s.out s.dec_len (a4_to_a3 a4l) with
        | none => none
        | some (out1, len1) => decodeLoop rest { i := 0, a4 := a4l, dec_len := len1, out := out1 }
      else decodeLoop rest { i := i, a4 := a4, dec_len := s.dec_len, out := s.out }

/-- The block `if (i) { ... }` after the loop of `Decode` and the final comparison. -/
def decodeTail (s : DecState) : Option (Bool × List Nat) :=
  if s.i ≠ 0 then
    let a4 := (s.a4.take s.i ++ List.replicate (4 - s.i) 0).map b64_lookup
    let a3 := a4_to_a3 a4
    match storeSeq s.out s.dec_len (a3.take (s.i - 1)) with
    | none => none
    | some (out1, len1) => some (len1 == out1.length, out1)
  else some (s.dec_len == s.out.length, s.out)

/-- The function `Decode(const String& in, String* out)`; `out0` is the content
of `*out` before the call.  With a length of 2^31 or more `int input_len` is
negative, and the loop ends only at a `'='`. -/
def Decode (inp out0 : List Nat) : Option (Bool × List Nat) :=
  (DecodedLengthStr inp).bind fun len =>
    if 2147483648 ≤ inp.length ∧ padChar ∉ inp then none
    else
      let out := Resize out0 (toUnsigned len)
      (decodeLoop inp { i := 0, a4 := [0, 0, 0, 0], dec_len := 0, out := out }).bind decodeTail

/-! ## The overloads on `char*` buffers

The caller's output buffer has `out_length` bytes.  The stores `*out++ = v` of
a call are kept in order in a list `written`, so that `out - out_begin` is its
length; a call that stores more than `out_length` bytes has run past the end
of the buffer. -/

/-- Conversion of an `int` to `size_t` (64 bit). -/
def intToSize (v : Int) : Nat := (v % 18446744073709551616).toNat

/-- The content of the caller's buffer after the stores `written`, for the
bytes that lie inside it. -/
def bufferAfter (out0 written : List Nat) : List Nat :=
  written.take out0.length ++ out0.drop written.length

/-- The function `DecodedLength(const char* in, size_t in_length)`.  The scan
`while (*--in_end == '=') ++numEq;` has no lower bound: on an input that is
empty or consists of `'='` only it reads before `in`, which is undefined, as
is the overflow of `int numEq`.  The arithmetic is done in `size_t` and the
result converted to `int`. -/
def DecodedLengthBuf (inp : List Nat) : Option Int :=
  if inp.all (fun c => c == padChar) then none
  else if 2147483648 ≤ trailingPads inp then none
  else some (toInt (((toSize (6 * inp.length) / 8 : Nat) : Int) - (trailingPads inp : Int)))

/-- Local variables of the buffer `Encode` that live across loop iterations. -/
structure EncBufState where
  i : Nat
  a3 : List Nat
  written : List Nat

/-- The loop `while (input_length--)` of the buffer `Encode`. -/
def encodeLoopBuf : List Nat → EncBufState → EncBufState
  | [], s => s
  | c :: rest, s =>
    let a3 := s.a3.set s.i (c % 256)
    let i := s.i + 1
    if i = 3 then
      encodeLoopBuf rest { i := 0, a3 := a3, written := s.written ++ (a3_to_a4 a3).map alphabetAt }
    else encodeLoopBuf rest { i := i, a3 := a3, written := s.written }

/-- The block `if (i) { ... }` after the loop of the buffer `Encode`: the stores made in all. -/
def encodeTailBuf (s : EncBufState) : List Nat :=
  if s.i ≠ 0 then
    let a3 := s.a3.take s.i ++ List.replicate (3 - s.i) 0
    let a4 := a3_to_a4 a3
    s.written ++ (a4.take (s.i + 1)).map alphabetAt ++ List.replicate (3 - s.i) padChar
  else s.written

/-- The function `Encode(const char* input, size_t input_length, char* out, size_t out_length)`;
`inp` holds the `input_length` bytes of the input and `out0` the `out_length`
bytes of the output buffer before the call.  The result is the returned flag
and the stores made. -/
def EncodeBuf (inp out0 : List Nat) : Bool × List Nat :=
  let encoded_length := intToSize (EncodedLength inp.length)
  if out0.length < encoded_length then (false, [])
  else
    let written := encodeTailBuf (encodeLoopBuf inp { i := 0, a3 := [0, 0, 0], written := [] })
    (written.length == encoded_length, written)

/-- Local variables of the buffer `Decode` that live across loop iterations. -/
structure DecBufState where
  i : Nat
  a4 : List Nat
  written : List Nat

/-- The loop `while (input_length--)` of the buffer `Decode`; it stops at the first `'='`. -/
def decodeLoopBuf : List Nat → DecBufState → DecBufState
  | [], s => s
  | c :: rest, s =>
    if c = padChar then s
    else
      let a4 := s.a4.set s.i (c % 256)
      let i := s.i + 1
      if i = 4 then
        let a4l := a4.map b64_lookup
        decodeLoopBuf rest { i := 0, a4 := a4l, written := s.written ++ a4_to_a3 a4l }
      else decodeLoopBuf rest { i := i, a4 := a4, written := s.written }

/-- The block `if (i) { ... }` after the loop of the buffer `Decode`: the stores made in all. -/
def decodeTailBuf (s : DecBufState) : List Nat :=
  if s.i ≠ 0 then
    let a4 := (s.a4.take s.i ++ List.replicate (4 - s.i) 0).map b64_lookup
    s.written ++ (a4_to_a3 a4).take (s.i - 1)
  else s.written

/-- The function `Decode(const char* input, size_t input_length, char* out, size_t out_length)`;
`inp` holds the `input_length` bytes of the input and `out0` the `out_length`
bytes of the output buffer before the call.  The result is the returned flag
and the stores made. -/
def DecodeBuf (inp out0 : List Nat) : Option (Bool × List Nat) :=
  (DecodedLengthBuf inp).bind fun len =>
    let decoded_length := intToSize len
    if out0.length < decoded_length then some (false, [])
    else
      let written := decodeTailBuf (decodeLoopBuf inp { i := 0, a4 := [0, 0, 0, 0], written := [] })
      some (written.length == decoded_length, written)

/-! ## Padding -/

/-- The function `StripPadding(String* in)`: the last character is removed as
long as the string is not empty and ends in `'='`. -/
def StripPadding (inp : List Nat) : List Nat :=
  (inp.reverse.dropWhile (fun c => c == padChar)).reverse

/-! ## Reference functions for the codec -/

/-- Encoding of one full group of three bytes. -/
def enc3 (x y z : Nat) : List Nat := (a3_to_a4 [x % 256, y % 256, z % 256]).map alphabetAt

/-- Group-wise description of the text produced by `Encode`. -/
def encodeSpec : List Nat → List Nat
  | x :: y :: z :: rest => enc3 x y z ++ encodeSpec rest
  | [x, y] => (enc3 x y 0).take 3 ++ [padChar]
  | [x] => (enc3 x 0 0).take 2 ++ [padChar, padChar]
  | [] => []

/-- Decoding of one full group of four characters. -/
def dec4 (c0 c1 c2 c3 : Nat) : List Nat :=
  a4_to_a3 ([c0 % 256, c1 % 256, c2 % 256, c3 % 256].map b64_lookup)

/-- Group-wise description of the bytes `Decode` writes for the characters
in front of the first `'='`. -/
def decodeSpec : List Nat → List Nat
  | c0 :: c1 :: c2 :: c3 :: rest => dec4 c0 c1 c2 c3 ++ decodeSpec rest
  | [c0, c1, c2] => (dec4 c0 c1 c2 0).take 2
  | [c0, c1] => (dec4 c0 c1 0 0).take 1
  | [_] => []
  | [] => []

/-- Number of bytes `Decode` writes for `m` characters in front of the first `'='`. -/
def decCount (m : Nat) : Nat := 3 * (m / 4) + (m % 4 - 1)

/-- The byte count `Decode` sizes its output to, for an input of a length at
which `6 * n` does not overflow. -/
def decodedRoom (inp : List Nat) : Nat :=
  toUnsigned (((6 * inp.length / 8 : Nat) : Int) - (trailingPads inp : Int))

/-- The symbols `Encode` writes in front of the padding. -/
def encBody : List Nat → List Nat
  | x :: y :: z :: rest => enc3 x y z ++ encBody rest
  | [x, y] => (enc3 x y 0).take 3
  | [x] => (enc3 x 0 0).take 2
  | [] => []

/-- The number of `'='` that `Encode` appends for `n` input bytes. -/
def padCount (n : Nat) : Nat := (3 - n % 3) % 3

/-- A character of the 64-symbol alphabet `A-Z a-z 0-9 + /`. -/
def isAlphabet (c : Nat) : Bool := (kBase64Alphabet.take 64).contains c

/-- The characters of the input in front of the first `'='`. -/
def bodyOf (inp : List Nat) : List Nat := inp.takeWhile (fun c => c != padChar)

/-- The input from the first `'='` on. -/
def restOf (inp : List Nat) : List Nat := inp.dropWhile (fun c => c != padChar)

/-- For each position of the input, whether it holds `'='`. -/
def shapeOf (inp : List Nat) : List Bool := inp.map (fun c => c == padChar)

end Base64

namespace Urho3D

/-! ## Strings of the engine -/

/-- A `Urho3D::String`, as the list of its bytes. -/
abbrev Str := List Nat

/-- The bytes of an ASCII string literal of the source. -/
def lit (s : String) : Str := s.toList.map Char.toNat

/-- The character `'/'`. -/
def slash : Nat := 47

/-- The function `tolower` of the C locale on a byte. -/
def toLowerByte (c : Nat) : Nat := if 65 ≤ c ∧ c ≤ 90 then c + 32 else c

/-- The test `a.Compare(b, false) == 0`: equality of two strings up to the case of letters. -/
def equalsNoCase (a b : Str) : Bool := a.map toLowerByte == b.map toLowerByte

/-- Worker of `Split`: `cur` is the segment read so far. -/
def splitFrom (sep : Nat) : Str → Str → List Str
  | [], cur => if cur.isEmpty then [] else [cur]
  | c :: rest, cur =>
    if c = sep then
      if cur.isEmpty then splitFrom sep rest [] else cur :: splitFrom sep rest []
    else splitFrom sep rest (cur ++ [c])

/-- The engine's `String::Split(separator)`: the non-empty segments between separators. -/
def Split (s : Str) (sep : Nat) : List Str := splitFrom sep s []

/-- The engine's `String::Replace(char, char)`: every occurrence is replaced. -/
def ReplaceChar (s : Str) (replaceThis replaceWith : Nat) : Str :=
  s.map (fun c => if c = replaceThis then replaceWith else c)

/-- Modelled from the spec: worker of `Replace` (the engine's `String::Replace`
is not among the sources).  The text is scanned from left to right; `skip`
characters of a match just replaced are still to be passed over. -/
def replaceFrom (replaceThis replaceWith : Str) : Nat → Str → Str
  | _, [] => []
  | skip + 1, _ :: rest => replaceFrom replaceThis replaceWith skip rest
  | 0, c :: rest =>
    if replaceThis.isPrefixOf (c :: rest) then
      replaceWith ++ replaceFrom replaceThis replaceWith (replaceThis.length - 1) rest
    else c :: replaceFrom replaceThis replaceWith 0 rest

/-- Modelled from the spec: the engine's `String::Replace(const String&, const String&)`,
which is not among the sources.  Every occurrence of the token is replaced, not
just the first: occurrences are matched literally from left to right, the
search resuming behind each replacement; an empty search string replaces
nothing. -/
def Replace (s replaceThis replaceWith : Str) : Str :=
  if replaceThis.isEmpty then s else replaceFrom replaceThis replaceWith 0 s

/-- Decimal digits of a number, as printed by `%u`. -/
def decimal (n : Nat) : Str := (Nat.repr n).toList.map Char.toNat

/-! ## Data members of `DevServer` -/

/-- A deferred closure `std::function<void()>`, or a command
`std::function<void(Context*)>`, seen through what matters to the queue: `id`
names it, and running it calls `AddDeferredCommand` with each closure of
`enqueues`, in this order. -/
inductive Action where
  | mk (id : Nat) (enqueues : List Action) : Action

/-- The name of an action. -/
def Action.id : Action → Nat
  | .mk n _ => n

/-- The closures an action enqueues when it runs. -/
def Action.enqueues : Action → List Action
  | .mk _ l => l

mutual
/-- Number of closures an action stands for: itself and all it may enqueue. -/
def Action.weight : Action → Nat
  | .mk _ kids => 1 + weightList kids
/-- Total weight of a list of actions. -/
def weightList : List Action → Nat
  | [] => 0
  | a :: rest => a.weight + weightList rest
end

/-- The struct `StaticItem`: a text, or an image (here its PNG bytes) when the
pointer is not null. -/
structure StaticItem where
  image_ : Option Str
  timeStamp_ : Str
  text_ : Str

/-- The struct `CommandItem`. -/
structure CommandItem where
  title_ : Str
  tip_ : Str
  url_ : Str
  command_ : Action

/-- The data members of `DevServer` used by the dispatcher, except
`handlers_`, which is passed alongside.  `simpleTexts_` lists the entries of the
hash map in iteration order.  `executed` is a ghost log: the names of the
deferred closures run so far, in order. -/
structure DevServer where
  simpleTexts_ : List (Str × StaticItem)
  log_ : List Str
  staticLinks_ : List (Str × Str)
  commands_ : List CommandItem
  deferredCommand_ : List Action
  executed : List Nat

/-- A server with nothing registered. -/
def DevServer.empty : DevServer :=
  { simpleTexts_ := [], log_ := [], staticLinks_ := [], commands_ := [],
    deferredCommand_ := [], executed := [] }

/-- The engine's `HashMap::Find`. -/
def mapFind (m : List (Str × StaticItem)) (key : Str) : Option (Str × StaticItem) :=
  m.find? (fun e => e.1 == key)

/-- The engine's `HashMap::Insert`: the value of an existing key is overwritten,
a new key is added at the end. -/
def mapInsert (m : List (Str × StaticItem)) (key : Str) (v : StaticItem) : List (Str × StaticItem) :=
  if m.any (fun e => e.1 == key) then m.map (fun e => if e.1 == key then (key, v) else e)
  else m ++ [(key, v)]

/-! ## Deferred command queue -/

/-- The function `DevServer::AddDeferredCommand`: `deferredCommand_.push_back(cmd)` under the mutex. -/
def DevServer.AddDeferredCommand (s : DevServer) (cmd : Action) : DevServer :=
  { s with deferredCommand_ := s.deferredCommand_ ++ [cmd] }

/-- The effect of the call `deferredCommand_[i]()` while the storage of the
vector stays where it is: the closure is logged as run and makes its calls of
`AddDeferredCommand`.  (The mutex of the engine is recursive: the thread that
drains may lock it again.) -/
def DevServer.runAction (s : DevServer) (a : Action) : DevServer :=
  a.enqueues.foldl DevServer.AddDeferredCommand { s with executed := s.executed ++ [a.id] }

/-- The loop `for (unsigned i = 0; i < deferredCommand_.size(); ++i) deferredCommand_[i]();`
of `OnNewFrame`, from index `i` on; the size is read again at every step.
The closure is called in place, as an element of the `std::vector`, whose
capacity is `capacity`: a `push_back` made by the running closure when the
vector is full moves the storage and destroys the closure while it runs, which
is undefined. -/
def DevServer.drainLoop (capacity : Nat) (i : Nat) (s : DevServer) : Option DevServer :=
  if h : i < s.deferredCommand_.length then
    if (s.deferredCommand_.get ⟨i, h⟩).enqueues.isEmpty ∨
        s.deferredCommand_.length + (s.deferredCommand_.get ⟨i, h⟩).enqueues.length ≤ capacity then
      DevServer.drainLoop capacity (i + 1) (s.runAction (s.deferredCommand_.get ⟨i, h⟩))
    else none
  else some s
termination_by weightList (s.deferredCommand_.drop i)
decreasing_by
  have hq : ∀ (kids : List Action) (t : DevServer),
      (kids.foldl DevServer.AddDeferredCommand t).deferredCommand_ = t.deferredCommand_ ++ kids := by
    intro kids
    induction kids with
    | nil => intro t; simp
    | cons k kids ih => intro t; simp [List.foldl, ih, DevServer.AddDeferredCommand]
  have hw : ∀ l1 l2 : List Action, weightList (l1 ++ l2) = weightList l1 + weightList l2 := by
    intro l1 l2
    induction l1 with
    | nil => simp [weightList]
    | cons a l ih => simp [weightList, ih]; omega
  have hd : s.deferredCommand_.drop i
      = s.deferredCommand_.get ⟨i, h⟩ :: s.deferredCommand_.drop (i + 1) := by
    simp
  have ha : (s.deferredCommand_.get ⟨i, h⟩).weight
      = 1 + weightList (s.deferredCommand_.get ⟨i, h⟩).enqueues := by
    cases s.deferredCommand_.get ⟨i, h⟩ with
    | mk n kids => simp [Action.weight, Action.enqueues]
  show weightList ((s.runAction (s.deferredCommand_.get ⟨i, h⟩)).deferredCommand_.drop (i + 1))
    < weightList (s.deferredCommand_.drop i)
  rw [DevServer.runAction, hq, hd, List.drop_append_of_le_length (by simp; omega), hw]
  simp only [weightList, ha]
  omega

/-- The function `DevServer::OnNewFrame`, called when the vector has the
capacity `capacity`: run the queued closures, then `deferredCommand_.clear()`. -/
def DevServer.OnNewFrame (capacity : Nat) (s : DevServer) : Option DevServer :=
  (DevServer.drainLoop capacity 0 s).map fun t => { t with deferredCommand_ := [] }

/-- An operation on the queue: `AddDeferredCommand(cmd)`, or `OnNewFrame` at a
moment when the vector has the given capacity. -/
inductive QueueOp where
  | enqueue (cmd : Action) : QueueOp
  | drain (capacity : Nat) : QueueOp

/-- One operation on the queue. -/
def DevServer.step (s : DevServer) : QueueOp → Option DevServer
  | .enqueue cmd => some (s.AddDeferredCommand cmd)
  | .drain capacity => s.OnNewFrame capacity

/-- A sequence of operations on the queue, from left to right. -/
def DevServer.run (s : DevServer) : List QueueOp → Option DevServer
  | [] => some s
  | op :: ops => (s.step op).bind fun t => t.run ops

/-! ## Registries -/

/-- The function `DevServer::Publish(const String& title, const String& content)`;
`now` is the value of `Time::GetTimeStamp()`. -/
def DevServer.Publish (s : DevServer) (now title content : Str) : DevServer :=
  let item : StaticItem := { image_ := none, timeStamp_ := now, text_ := content }
  { s with simpleTexts_ := mapInsert s.simpleTexts_ (lit "/" ++ title) item }

/-- The function `DevServer::AddStaticLink`. -/
def DevServer.AddStaticLink (s : DevServer) (title url : Str) : DevServer :=
  { s with staticLinks_ := s.staticLinks_ ++ [(title, url)] }

/-- The function `DevServer::RegisterCommand(name, tip, cmd)`. -/
def DevServer.RegisterCommand (s : DevServer) (name tip : Str) (cmd : Action) : DevServer :=
  let item : CommandItem :=
    { title_ := name, tip_ := tip, url_ := ReplaceChar (lit "/Commands/" ++ name) 32 95,
      command_ := cmd }
  { s with commands_ := s.commands_ ++ [item] }

/-! ## Handlers -/

/-- The interface `DevServerHandler`.  `EmitData` is present exactly for a
`DevServerDataHandler` (the `dynamic_cast` of the dispatcher succeeds); it
gives the MIME type and the buffer, or `none` where the C++ function returns
false.  `EmitHTML` also receives the server's `FillTemplate`.  `Handles`,
`HandlesPost`, `EmitHTML` and `EmitData` only read the server, as all handlers
of the repository do.  A callback yields the outer `none` where the C++ code
has undefined behaviour (a read of `uri[k]` past the end of the vector). -/
structure DevServerHandler where
  Handles : DevServer → List Str → Bool
  HandlesPost : DevServer → List Str → Option Bool
  EmitHTML : DevServer → (Str → List (Str × Str) → Str) → List Str → Option Str
  DoPost : DevServer → List Str → Str → Option DevServer
  EmitData : Option (DevServer → List Str → Option (Option (Str × Str)))
  WriteNavigation : DevServer → List (Str × Str) → List (Str × Str)
  WriteRawNavigation : DevServer → Str → Str

/-- The navigation entry `<li class="nav-item"><a class="nav-link" href="url">title</a></li>`. -/
def navItem (title url : Str) : Str :=
  lit "<li class=\"nav-item\">" ++
    (lit "<a class=\"nav-link\" href=\"" ++ url ++ lit "\">" ++ title ++ lit "</a>") ++
    lit "</li>"

/-- The function `DevServer::GenerateNavigation`. -/
def DevServer.GenerateNavigation (s : DevServer) (handlers : List DevServerHandler) : Str :=
  let titles := handlers.foldl (fun t h => h.WriteNavigation s t) []
  let ret := s.staticLinks_.foldl (fun r link => r ++ navItem link.1 link.2) []
  let ret := titles.foldl (fun r title => r ++ navItem title.1 title.2) ret
  handlers.foldl (fun r h => h.WriteRawNavigation s r) ret

/-- The function `DevServer::FillTemplate`; `webFile` is `GetWebFile`, the
content of the files under `web/`, and `items` lists the entries of the map in
iteration order. -/
def DevServer.FillTemplate (webFile : Str → Str) (s : DevServer) (handlers : List DevServerHandler)
    (templateFile : Str) (items : List (Str × Str)) : Str :=
  let templateData := webFile templateFile
  let templateData := Replace templateData (lit "$\x7bMENU\x7d") (s.GenerateNavigation handlers)
  items.foldl (fun t entry => Replace t entry.1 entry.2) templateData

/-- The function `DevServer::SendHTMLResponse`: the bytes written to the connection. -/
def SendHTMLResponse (html : Str) : Str :=
  lit "HTTP/1.1 200 OK\r\nContent-type: text/html\r\n\r\n" ++ html

/-- The function `DevServer::SendDataResponse`: the bytes written to the connection. -/
def SendDataResponse (mimeType data : Str) : Str :=
  lit "HTTP/1.1 200 OK\r\nContent-type: " ++ mimeType ++ lit "\r\nContent-length: " ++
    decimal data.length ++ lit "\r\n\r\n" ++ data

/-- The part of the request read by `BeginRequest`; `body` is what `mg_read` can deliver. -/
structure Request where
  request_method : Str
  uri : Str
  body : Str

/-- The loop `for (auto handler : server->handlers_)` of the GET branch of
`BeginRequest`, over the handlers still to be tried; `all` is `handlers_`.
The result is what was written to the connection, if anything, and the value
returned. -/
def DevServer.handleGet (webFile : Str → Str) (all : List DevServerHandler) (s : DevServer)
    (uriList : List Str) : List DevServerHandler → Option (Option Str × Int)
  | [] => some (none, 0)
  | handler :: rest =>
    if handler.Handles s uriList then
      match handler.EmitData with
      | some emitData =>
        match emitData s uriList with
        | none => none
        | some (some (mimeType, buffer)) => some (some (SendDataResponse mimeType buffer), 1)
        | some none => DevServer.handleGet webFile all s uriList rest
      | none =>
        match handler.EmitHTML s (DevServer.FillTemplate webFile s all) uriList with
        | none => none
        | some htmlData => some (some (SendHTMLResponse htmlData), 1)
    else DevServer.handleGet webFile all s uriList rest

/-- The loop `for (auto handler : server->handlers_)` of the other branch of `BeginRequest`. -/
def DevServer.handlePost (s : DevServer) (uriList : List Str) (buffText : Str) :
    List DevServerHandler → Option (DevServer × Option Str × Int)
  | [] => some (s, none, 0)
  | handler :: rest =>
    match handler.HandlesPost s uriList with
    | none => none
    | some true =>
      match handler.DoPost s uriList buffText with
      | none => none
      | some s1 => some (s1, some (SendHTMLResponse (lit "Success")), 1)
    | some false => DevServer.handlePost s uriList buffText rest

/-- The function `DevServer::BeginRequest`: the server afterwards, what was
written to the connection, if anything, and the value returned. -/
def DevServer.BeginRequest (webFile : Str → Str) (handlers : List DevServerHandler) (s : DevServer)
    (req : Request) : Option (DevServer × Option Str × Int) :=
  let uriList := Split req.uri slash
  if req.request_method = lit "GET" then
    if req.uri.isEmpty ∨ req.uri = lit "/" then
      let data := DevServer.FillTemplate webFile s handlers (lit "template_page.html")
        [(lit "$\x7bTITLE\x7d", lit "DebugServer is Live"),
         (lit "$\x7bBODY\x7d", lit "<h3>Use the navigation above!</h3>")]
      some (s, some (SendDataResponse (lit "text/html") data), 1)
    else
      (DevServer.handleGet webFile handlers s uriList handlers).map (fun r => (s, r.1, r.2))
  else
    DevServer.handlePost s uriList (req.body.take 32768) handlers

/-! ## Built-in handlers -/

/-- The function `DevServer::SimpleHandler::Handles`. -/
def DevServer.SimpleHandler.Handles (server : DevServer) (uri : List Str) : Bool :=
  match uri with
  | [] => false
  | uri0 :: _ => (mapFind server.simpleTexts_ uri0).isSome

/-- The loop of `DevServer::CommandHandler::HandlesPost` over the commands
still to be tried; reading `uri[1]` is undefined when there is no such element. -/
def DevServer.CommandHandler.handlesPostLoop (uri : List Str) : List CommandItem → Option Bool
  | [] => some false
  | com :: rest =>
    match uri.get? 1 with
    | none => none
    | some uri1 =>
      if equalsNoCase com.url_ uri1 then some true
      else DevServer.CommandHandler.handlesPostLoop uri rest

/-- The function `DevServer::CommandHandler::HandlesPost`. -/
def DevServer.CommandHandler.HandlesPost (server : DevServer) (uri : List Str) : Option Bool :=
  DevServer.CommandHandler.handlesPostLoop uri server.commands_

/-- The loop of `DevServer::CommandHandler::DoPost` over the commands still to be tried. -/
def DevServer.CommandHandler.doPostLoop (server : DevServer) (uri : List Str) :
    List CommandItem → Option DevServer
  | [] => some server
  | com :: rest =>
    match uri.get? 0 with
    | none => none
    | some uri0 =>
      if equalsNoCase com.url_ uri0 then some (server.AddDeferredCommand com.command_)
      else DevServer.CommandHandler.doPostLoop server uri rest

/-- The function `DevServer::CommandHandler::DoPost`. -/
def DevServer.CommandHandler.DoPost (server : DevServer) (uri : List Str) (_postData : Str) :
    Option DevServer :=
  DevServer.CommandHandler.doPostLoop server uri server.commands_

/-! ## The log -/

/-- The function `DevServer::LogHandler::Handles`. -/
def DevServer.LogHandler.Handles (_server : DevServer) (uri : List Str) : Bool :=
  match uri with
  | [] => false
  | uri0 :: _ => equalsNoCase uri0 (lit "Log")

/-- The loop `for (int i = ...; i >= 0; --i) ret += logCopy[i];` of
`LogHandler::EmitHTML` with `count` iterations to go, that is, at `i = count - 1`. -/
def DevServer.LogHandler.concatLoop (logCopy : List Str) : Nat → Str → Str
  | 0, ret => ret
  | i + 1, ret => DevServer.LogHandler.concatLoop logCopy i (ret ++ logCopy.getD i [])

/-- The function `DevServer::LogHandler::EmitHTML`.  The index starts at
`logCopy.Size() - 1`, an `unsigned`, converted to `int`. -/
def DevServer.LogHandler.EmitHTML (server : DevServer) (fillTemplate : Str → List (Str × Str) → Str)
    (_uri : List Str) : Option Str :=
  let logCopy := server.log_
  let i : Int := Base64.toInt ((logCopy.length : Int) - 1)
  let ret := DevServer.LogHandler.concatLoop logCopy (i + 1).toNat []
  some (fillTemplate (lit "template_page.html")
    [(lit "$\x7bTITLE\x7d", lit "Urho3D Log"), (lit "$\x7bBODY\x7d", ret)])

/-! ## The scene inspector (`DevInspector.cpp`) -/

/-- An entry of `GetAttributes()`: the name and the type of an attribute. -/
structure AttributeInfo where
  name_ : Str
  type_ : Nat

/-- A `Node` or a `Component` of a scene, as far as `DoPost` reads it. -/
structure SceneObject where
  id : Nat
  attributes : List AttributeInfo

/-- A registered scene, as far as `DoPost` reads it: `GetNode(id)` and
`GetComponent(id)` look the ID up in `nodes` and `components`. -/
structure Scene where
  name : Str
  nodes : List SceneObject
  components : List SceneObject

/-- The closure `[=]() { sharedNode->Remove(); }` (or `comp->Remove()`) for the
object with this ID; it enqueues nothing. -/
def removeClosure (component : Bool) (id : Nat) : Action :=
  Action.mk (4 * id + (if component then 1 else 0)) []

/-- The closure `[=]() { node->SetAttribute(attrName, var); }` (or the one of a
component) for the object with this ID, where `var` was read from `data` with
the type of the attribute; it enqueues nothing. -/
def setAttributeClosure (component : Bool) (id : Nat) (_attrName : Str) (_type : Nat)
    (_data : Str) : Action :=
  Action.mk (4 * id + (if component then 3 else 2)) []

/-- Whether `String::Trimmed()` removes the character: a blank or a tab. -/
def isBlankChar (c : Nat) : Bool := c == 32 || c == 9

/-- The engine's `String::Trimmed()`, which is not among the sources: blanks and
tabs are removed at both ends. -/
def Trimmed (s : Str) : Str :=
  ((s.dropWhile isBlankChar).reverse.dropWhile isBlankChar).reverse

/-- The function `SceneContent::Handles`. -/
def SceneContent.Handles (_server : DevServer) (uri : List Str) : Bool :=
  decide (1 < uri.length) && equalsNoCase (uri.getD 0 []) (lit "Scenes")

/-- The function `SceneContent::HandlesPost`. -/
def SceneContent.HandlesPost (server : DevServer) (uri : List Str) : Option Bool :=
  some (SceneContent.Handles server uri)

/-- The loop `for (auto attr : *attrs)` of `SceneContent::DoPost`: the first
attribute with the name has its closure enqueued. -/
def SceneContent.attrLoop (server : DevServer) (component : Bool) (id : Nat)
    (attrName data : Str) : List AttributeInfo → DevServer
  | [] => server
  | attr :: rest =>
    if attr.name_ = attrName then
      server.AddDeferredCommand (setAttributeClosure component id attrName attr.type_ data)
    else SceneContent.attrLoop server component id attrName data rest

/-- The body of `if (auto n = scene->GetNode(nodeID))` of `SceneContent::DoPost`,
and the one for a component. -/
def SceneContent.postObject (server : DevServer) (component : Bool) (obj : SceneObject)
    (attrName data : Str) : DevServer :=
  if equalsNoCase attrName (lit "delete") then
    server.AddDeferredCommand (removeClosure component obj.id)
  else SceneContent.attrLoop server component obj.id attrName data obj.attributes

/-- The loop `for (auto scene : sceneList)` of `SceneContent::DoPost`. -/
def SceneContent.sceneLoop (server : DevServer) (term nodeName attrName data : Str)
    (nodeID : Nat) : List Scene → DevServer
  | [] => server
  | scene :: rest =>
    let name := if (Trimmed scene.name).isEmpty then lit "Unnamed scene" else scene.name
    let name := Replace name (lit " ") (lit "_")
    if equalsNoCase name term then
      if nodeName = lit "Node" then
        match scene.nodes.find? (fun n => n.id == nodeID) with
        | some n => SceneContent.postObject server false n attrName data
        | none => server
      else if nodeName = lit "Component" then
        match scene.components.find? (fun c => c.id == nodeID) with
        | some c => SceneContent.postObject server true c attrName data
        | none => server
      else server
    else SceneContent.sceneLoop server term nodeName attrName data nodeID rest

/-- The function `SceneContent::DoPost`; `scenes_` is the member of the server
that lists the registered scenes and `fromString` is the engine's
`FromString<unsigned>`.  Reading `uri[4]` is undefined when the vector has
four elements. -/
def SceneContent.DoPost (fromString : Str → Nat) (scenes_ : List Scene) (server : DevServer)
    (uri : List Str) (data : Str) : Option DevServer :=
  if uri.length < 4 then some server
  else
    match uri.get? 4 with
    | none => none
    | some uri4 =>
      let nodeName := uri.getD 2 []
      let nodeIDStr := uri.getD 3 []
      let attrName := ReplaceChar uri4 95 32
      let nodeID := fromString nodeIDStr
      some (SceneContent.sceneLoop server (uri.getD 1 []) nodeName attrName data nodeID scenes_)

/-! ## Rendering of the built-in pages -/

/-- The function `DevServer::SimpleHandler::EmitHTML`.  The iterator `found` is
dereferenced without a test: when the key is not in the map it is `End()` and
the read is undefined.  For an image the PNG bytes are encoded with the buffer
overload of `Base64::Encode` into `new char[b64Size]`. -/
def DevServer.SimpleHandler.EmitHTML (server : DevServer)
    (fillTemplate : Str → List (Str × Str) → Str) (uri : List Str) : Option Str :=
  match uri.get? 0 with
  | none => none
  | some uri0 =>
    match mapFind server.simpleTexts_ uri0 with
    | none => none
    | some found =>
      let ret := lit "<h2>" ++ found.2.timeStamp_ ++ lit "</h2>\r\n"
      let ret :=
        match found.2.image_ with
        | some png =>
          let b64Size := Base64.EncodedLength png.length
          let data := List.replicate (Base64.intToSize b64Size) 0
          let enc := Base64.EncodeBuf png data
          let ret := ret ++ lit "<image src=\"data:image/png;base64, "
          let ret :=
            if enc.1 then ret ++ (Base64.bufferAfter data enc.2).take (Base64.toUnsigned b64Size)
            else ret
          ret ++ lit "\" />"
        | none => ret ++ lit "<pre>\r\n" ++ found.2.text_ ++ lit "\r\n</pre>"
      some (fillTemplate (lit "template_page.html")
        [(lit "$\x7bTITLE\x7d", found.1.drop 1), (lit "$\x7bBODY\x7d", ret)])

/-- The engine's resource cache as `ResourceCacheProvider::EmitData` reads it:
for a name, the PNG bytes written for the image cached under it, and the saved
text of the XML file cached under it, if there is one. -/
structure ResourceCache where
  image : Str → Option Str
  xmlFile : Str → Option Str

/-- The function `ResourceCacheProvider::Handles`. -/
def ResourceCacheProvider.Handles (_server : DevServer) (uri : List Str) : Bool :=
  decide (0 < uri.length) && equalsNoCase (uri.getD 0 []) (lit "ResourceCache")

/-- The function `ResourceCacheProvider::EmitData`; `cache` is the subsystem,
if there is one.  The first statement reads `uri[1]`. -/
def ResourceCacheProvider.EmitData (cache : Option ResourceCache) (_server : DevServer)
    (uri : List Str) : Option (Option (Str × Str)) :=
  match uri.get? 1 with
  | none => none
  | some trimmed =>
    match cache with
    | some cache =>
      match cache.image trimmed with
      | some png => some (some (lit "image/png", png))
      | none =>
        match cache.xmlFile trimmed with
        | some xml => some (some (lit "application/xml", xml))
        | none => some none
    | none => some none

/-- The handler `ResourceCacheProvider`, a `DevServerDataHandler`. -/
def ResourceCacheProvider.handler (cache : Option ResourceCache) : DevServerHandler :=
  { Handles := ResourceCacheProvider.Handles,
    HandlesPost := fun _ _ => some false,
    EmitHTML := fun _ _ _ => some [],
    DoPost := fun s _ _ => some s,
    EmitData := some (ResourceCacheProvider.EmitData cache),
    WriteNavigation := fun _ titleAndURI => titleAndURI,
    WriteRawNavigation := fun _ data => data }

/-- The loop `for (auto scene : sceneList)` of `SceneContent::EmitHTML`: the
value of `body` behind it.  `nodeBody scene node uri name` is the text written
for a node (by `SerializableToHTML` and for its components) and
`treeBody scene sceneURL` the text appended by `Print`; both read the scene
graph only, and no element of `uri` by index. -/
def SceneContent.emitLoop (fromString : Str → Nat)
    (nodeBody : Scene → SceneObject → List Str → Str → Str) (treeBody : Scene → Str → Str)
    (uri : List Str) : List Scene → Option Str
  | [] => some []
  | scene :: rest =>
    let name := if (Trimmed scene.name).isEmpty then lit "Unnamed scene" else scene.name
    match uri.get? 1 with
    | none => none
    | some term =>
      let name := Replace name (lit " ") (lit "_")
      if equalsNoCase name term then
        if 2 < uri.length then
          match uri.get? 3 with
          | none => none
          | some uri3 =>
            match scene.nodes.find? (fun n => n.id == fromString uri3) with
            | some node => some (nodeBody scene node uri name)
            | none => some []
        else some (lit "<ul>" ++ treeBody scene (name ++ lit "/Node") ++ lit "</ul>")
      else SceneContent.emitLoop fromString nodeBody treeBody uri rest

/-- The function `SceneContent::EmitHTML`; `scenes_` is the member of the server
that lists the registered scenes. -/
def SceneContent.EmitHTML (fromString : Str → Nat) (scenes_ : List Scene)
    (nodeBody : Scene → SceneObject → List Str → Str → Str) (treeBody : Scene → Str → Str)
    (_server : DevServer) (fillTemplate : Str → List (Str × Str) → Str) (uri : List Str) :
    Option Str :=
  (SceneContent.emitLoop fromString nodeBody treeBody uri scenes_).map fun body =>
    let body := if body.isEmpty then lit "<div class=\"well\">No contents for scene</div>" else body
    fillTemplate (lit "template_object.html")
      [(lit "$\x7bTITLE\x7d", lit "Scene Content"), (lit "$\x7bBODY\x7d", body)]

/-- The handler `SceneContent`. -/
def SceneContent.handler (fromString : Str → Nat) (scenes_ : List Scene)
    (nodeBody : Scene → SceneObject → List Str → Str → Str) (treeBody : Scene → Str → Str) :
    DevServerHandler :=
  { Handles := SceneContent.Handles,
    HandlesPost := SceneContent.HandlesPost,
    EmitHTML := SceneContent.EmitHTML fromString scenes_ nodeBody treeBody,
    DoPost := SceneContent.DoPost fromString scenes_,
    EmitData := none,
    WriteNavigation := fun _ titleAndURI => titleAndURI,
    WriteRawNavigation := fun _ data => data }

end Urho3D

namespace Urho3D

/-! ## Reference functions for the queue and the registries -/

/-- Whether an operation is a drain. -/
def QueueOp.isDrain : QueueOp → Bool
  | .drain _ => true
  | .enqueue _ => false

/-- The closures passed to `AddDeferredCommand` in a sequence of operations, in order. -/
def enqueuedActions : List QueueOp → List Action
  | [] => []
  | .enqueue cmd :: ops => cmd :: enqueuedActions ops
  | .drain _ :: ops => enqueuedActions ops

/-- The operations up to and including the last drain of a sequence. -/
def uptoLastDrain : List QueueOp → List QueueOp
  | [] => []
  | op :: ops =>
    if ops.any QueueOp.isDrain then op :: uptoLastDrain ops
    else if op.isDrain then [op] else []

/-- The operations behind the last drain of a sequence. -/
def afterLastDrain : List QueueOp → List QueueOp
  | [] => []
  | op :: ops =>
    if ops.any QueueOp.isDrain then afterLastDrain ops
    else if op.isDrain then ops else op :: ops

/-- A sample sequence of operations: closures 1 and 2 are enqueued, a drain,
closure 3 is enqueued, a drain, closure 4 is enqueued; the vector has the
capacity 2 at both drains. -/
def sampleOps : List QueueOp :=
  [QueueOp.enqueue (Action.mk 1 []), QueueOp.enqueue (Action.mk 2 []), QueueOp.drain 2,
   QueueOp.enqueue (Action.mk 3 []), QueueOp.drain 2, QueueOp.enqueue (Action.mk 4 [])]

/-- The server after the calls `Publish(title, content)` of a list, each with
its time stamp, on a server with nothing registered. -/
def publishAll (items : List (Str × Str × Str)) : DevServer :=
  items.foldl (fun s item => s.Publish item.1 item.2.1 item.2.2) DevServer.empty

/-- The server after the calls `RegisterCommand(name, tip, cmd)` of a list, on a
server with nothing registered. -/
def registerAll (regs : List (Str × Str × Action)) : DevServer :=
  regs.foldl (fun s reg => s.RegisterCommand reg.1 reg.2.1 reg.2.2) DevServer.empty

/-- A sample HTML handler: it handles the paths whose first segment is
`name` and renders `page`; everything else is the default of `DevServerHandler`. -/
def sampleHtmlHandler (name page : Str) : DevServerHandler :=
  { Handles := fun _ uri => uri.head? == some name,
    HandlesPost := fun _ _ => some false,
    EmitHTML := fun _ _ _ => some page,
    DoPost := fun s _ _ => some s,
    EmitData := none,
    WriteNavigation := fun _ titleAndURI => titleAndURI,
    WriteRawNavigation := fun _ data => data }

/-- A sample `DevServerDataHandler`: it handles the paths whose first segment
is `name`, and its `EmitData` returns false. -/
def sampleFailingDataHandler (name : Str) : DevServerHandler :=
  { Handles := fun _ uri => uri.head? == some name,
    HandlesPost := fun _ _ => some false,
    EmitHTML := fun _ _ _ => some [],
    DoPost := fun s _ _ => some s,
    EmitData := some (fun _ _ => some none),
    WriteNavigation := fun _ titleAndURI => titleAndURI,
    WriteRawNavigation := fun _ data => data }

/-- A sample request `GET /x`. -/
def sampleGet : Request := { request_method := lit "GET", uri := lit "/x", body := [] }

/-- A file system without files under `web/`. -/
def noWebFiles : Str → Str := fun _ => []

/-! ## Reference functions for templates -/

/-- The token occurs somewhere in the text. -/
def occursIn (tok : Str) : Str → Bool
  | [] => tok.isPrefixOf []
  | c :: rest => tok.isPrefixOf (c :: rest) || occursIn tok rest

/-- The strings of a list, one after the other. -/
def concatAll : List Str → Str
  | [] => []
  | x :: rest => x ++ concatAll rest

/-- The text ends in a non-empty beginning of the token, so that text written
behind it can complete an occurrence that begins in it. -/
def endsInBeginningOf (tok : Str) : Str → Bool
  | [] => false
  | c :: rest => (c :: rest).isPrefixOf tok || endsInBeginningOf tok rest

/-- No occurrence of the token begins in the text, whatever is written behind
it: the token does not occur in the text, and the text does not end in a
non-empty beginning of the token. -/
def inertFor (tok s : Str) : Bool := !occursIn tok s && !endsInBeginningOf tok s

/-- A piece of a template fits a list of tokens: for each token of the list,
the piece is that token or no occurrence of the token begins in it. -/
def fitsTokens (toks : List Str) (p : Str) : Bool :=
  toks.all (fun t => p == t || inertFor t p)

/-- A piece after all substitutions of a list: a piece that is the token of an
entry becomes the value of the first such entry. -/
def substPiece (items : List (Str × Str)) (p : Str) : Str :=
  match items.find? (fun e => e.1 == p) with
  | some e => e.2
  | none => p

/-- A sample handler for POST requests: it accepts every path and keeps the
posted data by appending it to the log. -/
def samplePostRecorder : DevServerHandler :=
  { Handles := fun _ _ => false,
    HandlesPost := fun _ _ => some true,
    EmitHTML := fun _ _ _ => some [],
    DoPost := fun s _ postData => some { s with log_ := s.log_ ++ [postData] },
    EmitData := none,
    WriteNavigation := fun _ titleAndURI => titleAndURI,
    WriteRawNavigation := fun _ data => data }

/-- A sample HTML handler that handles every path, the empty one included, and renders `page`. -/
def sampleCatchAll (page : Str) : DevServerHandler :=
  { Handles := fun _ _ => true,
    HandlesPost := fun _ _ => some false,
    EmitHTML := fun _ _ _ => some page,
    DoPost := fun s _ _ => some s,
    EmitData := none,
    WriteNavigation := fun _ titleAndURI => titleAndURI,
    WriteRawNavigation := fun _ data => data }

/-! ## Reference functions for the log and for POST requests -/

/-- The POST side of a handler is that of a built-in handler: the defaults of
`DevServerHandler` (as for `SceneLister`, `LogHandler`, `ResourceListProvider`,
`ResourceCacheProvider` and `SimpleHandler`), the functions of `SceneContent`,
or those of `CommandHandler`. -/
def postSideBuiltin (fromString : Str → Nat) (scenes_ : List Scene) (h : DevServerHandler) : Prop :=
  (h.HandlesPost = fun _ _ => some false) ∨
  (h.HandlesPost = SceneContent.HandlesPost ∧ h.DoPost = SceneContent.DoPost fromString scenes_) ∨
  (h.HandlesPost = DevServer.CommandHandler.HandlesPost ∧
    h.DoPost = DevServer.CommandHandler.DoPost)

/-- A handler with the POST side of `SceneContent`; the GET side is not used here. -/
def sampleScenePost (fromString : Str → Nat) (scenes_ : List Scene) : DevServerHandler :=
  { Handles := SceneContent.Handles,
    HandlesPost := SceneContent.HandlesPost,
    EmitHTML := fun _ _ _ => some [],
    DoPost := SceneContent.DoPost fromString scenes_,
    EmitData := none,
    WriteNavigation := fun _ titleAndURI => titleAndURI,
    WriteRawNavigation := fun _ data => data }

/-- A handler with the POST side of `CommandHandler`; the GET side is not used here. -/
def sampleCommandPost : DevServerHandler :=
  { Handles := fun _ _ => false,
    HandlesPost := DevServer.CommandHandler.HandlesPost,
    EmitHTML := fun _ _ _ => some [],
    DoPost := DevServer.CommandHandler.DoPost,
    EmitData := none,
    WriteNavigation := fun _ titleAndURI => titleAndURI,
    WriteRawNavigation := fun _ data => data }

/-- A sample scene `Main` with the node 5, which has the attributes `Name` and `Position`. -/
def sampleScene : Scene :=
  { name := lit "Main",
    nodes := [{ id := 5, attributes := [{ name_ := lit "Name", type_ := 10 },
      { name_ := lit "Position", type_ := 7 }] }],
    components := [] }

/-! ## Reference functions for the path segments -/

/-- The name under which the pages of a scene are addressed: its name, or
`Unnamed scene` when that is blank, with `_` for every blank. -/
def sceneUrlName (scene : Scene) : Str :=
  Replace (if (Trimmed scene.name).isEmpty then lit "Unnamed scene" else scene.name)
    (lit " ") (lit "_")

end Urho3D

/-! # Theorems -/

namespace Base64

/-! ## Buffer lemmas -/

theorem storeSeq_append (vs w f : List Nat) (h : vs.length ≤ f.length) :
    storeSeq (w ++ f) w.length vs = some (w ++ vs ++ f.drop vs.length, w.length + vs.length) := by
  induction vs generalizing w f with
  | nil => simp [storeSeq]
  | cons v vs ih =>
    cases f with
    | nil => simp at h
    | cons c f =>
      have hlen : vs.length ≤ f.length := by simpa using h
      have e : storeAt (w ++ c :: f) w.length v = some ((w ++ [v]) ++ f) := by
        simp [storeAt]
      rw [storeSeq, e]
      have := ih (w ++ [v]) f hlen
      simp only [List.length_append, List.length_singleton] at this
      simp only [this]
      simp
      omega

theorem enc3_length (x y z : Nat) : (enc3 x y z).length = 4 := by
  simp [enc3, a3_to_a4]

theorem encodeSpec_length (b : List Nat) : (encodeSpec b).length = (b.length + 2) / 3 * 4 := by
  induction b using encodeSpec.induct with
  | case1 x y z rest ih =>
    simp only [encodeSpec, List.length_append, enc3_length, ih, List.length_cons]
    omega
  | case2 x y => simp [encodeSpec, enc3_length, padChar]
  | case3 x => simp [encodeSpec, enc3_length, padChar]
  | case4 => simp [encodeSpec]

/-! ## The run of `Encode` -/

theorem encodeLoop_three (x y z : Nat) (rest : List Nat) (p q r : Nat) (w f : List Nat)
    (h : 4 ≤ f.length) :
    encodeLoop (x :: y :: z :: rest) { i := 0, a3 := [p, q, r], enc_len := w.length, out := w ++ f } =
      encodeLoop rest { i := 0, a3 := [x % 256, y % 256, z % 256],
                        enc_len := (w ++ enc3 x y z).length, out := (w ++ enc3 x y z) ++ f.drop 4 } := by
  have hs := storeSeq_append (enc3 x y z) w f (by rw [enc3_length]; exact h)
  rw [enc3_length] at hs
  simp only [encodeLoop, List.set_cons_zero, List.set_cons_succ, Nat.zero_add, Nat.reduceAdd,
    Nat.reduceEqDiff, Nat.succ_ne_self, if_false, if_true, reduceIte]
  simp only [enc3] at hs ⊢
  rw [hs]
  simp [a3_to_a4]

theorem a3_to_a4_length (a3 : List Nat) : (a3_to_a4 a3).length = 4 := rfl

theorem a4_to_a3_length (a4 : List Nat) : (a4_to_a3 a4).length = 3 := rfl

theorem encodeTail_short (i : Nat) (a3 w f : List Nat) (hi : 0 < i) (hi3 : i < 3)
    (hf : f.length = 4) :
    encodeTail { i := i, a3 := a3, enc_len := w.length, out := w ++ f } =
      some (true, w ++ ((a3_to_a4 (a3.take i ++ List.replicate (3 - i) 0)).take (i + 1)).map alphabetAt
        ++ List.replicate (3 - i) padChar) := by
  have hne : i ≠ 0 := by omega
  have hl : (((a3_to_a4 (a3.take i ++ List.replicate (3 - i) 0)).take (i + 1)).map alphabetAt).length
      = i + 1 := by
    simp [a3_to_a4_length]; omega
  have h1 := storeSeq_append
    (((a3_to_a4 (a3.take i ++ List.replicate (3 - i) 0)).take (i + 1)).map alphabetAt) w f
    (by rw [hl]; omega)
  have h2 := storeSeq_append (List.replicate (3 - i) padChar)
    (w ++ ((a3_to_a4 (a3.take i ++ List.replicate (3 - i) 0)).take (i + 1)).map alphabetAt)
    (f.drop (i + 1)) (by simp; omega)
  rw [hl] at h1
  rw [List.length_append, hl] at h2
  simp only [encodeTail, hne, ne_eq, not_false_eq_true, if_true, h1, h2]
  have hd : List.drop (List.replicate (3 - i) padChar).length (List.drop (i + 1) f) = [] := by
    simp; omega
  rw [hd]
  simp [a3_to_a4_length]
  omega

theorem encode_run (b : List Nat) : ∀ (p q r : Nat) (w f : List Nat),
    f.length = (encodeSpec b).length →
    (encodeLoop b { i := 0, a3 := [p, q, r], enc_len := w.length, out := w ++ f }).bind encodeTail
      = some (true, w ++ encodeSpec b) := by
  induction b using encodeSpec.induct with
  | case1 x y z rest ih =>
    intro p q r w f hf
    rw [encodeSpec, List.length_append, enc3_length] at hf
    rw [encodeLoop_three x y z rest p q r w f (by omega)]
    rw [ih (x % 256) (y % 256) (z % 256) (w ++ enc3 x y z) (f.drop 4) (by simp; omega)]
    simp [encodeSpec]
  | case2 x y =>
    intro p q r w f hf
    have hf4 : f.length = 4 := by simpa [encodeSpec, enc3_length, padChar] using hf
    simp only [encodeLoop, List.set_cons_zero, List.set_cons_succ, Nat.zero_add, Nat.reduceAdd,
      Nat.reduceEqDiff, if_false, reduceIte, Option.bind]
    rw [encodeTail_short 2 _ w f (by omega) (by omega) hf4]
    simp [encodeSpec, enc3, a3_to_a4, padChar]
  | case3 x =>
    intro p q r w f hf
    have hf4 : f.length = 4 := by simpa [encodeSpec, enc3_length, padChar] using hf
    simp only [encodeLoop, List.set_cons_zero, List.set_cons_succ, Nat.zero_add, Nat.reduceAdd,
      Nat.reduceEqDiff, if_false, reduceIte, Option.bind]
    rw [encodeTail_short 1 _ w f (by omega) (by omega) hf4]
    simp [encodeSpec, enc3, a3_to_a4, padChar]
  | case4 =>
    intro p q r w f hf
    simp [encodeSpec] at hf
    simp [encodeLoop, encodeTail, encodeSpec, hf]

/-! ## Integer conversions in range -/

theorem toSize_of_lt {v : Nat} (h : v < 18446744073709551616) : toSize v = v :=
  Nat.mod_eq_of_lt h

theorem toInt_of_lt {v : Int} (h0 : 0 ≤ v) (h : v < 2147483648) : toInt v = v := by
  unfold toInt; omega

theorem toUnsigned_toInt (v : Nat) (h : v < 4294967296) : toUnsigned (toInt (v : Int)) = v := by
  unfold toUnsigned toInt; omega

theorem sizeExpr_small (n : Nat) (h : n < 6000000000) :
    toSize (toSize (toSize (toSize (n + 2) - toSize (n + 2) % 3) / 3) * 4) = (n + 2) / 3 * 4 := by
  rw [toSize_of_lt (by omega : n + 2 < 18446744073709551616)]
  rw [toSize_of_lt (by omega : n + 2 - (n + 2) % 3 < 18446744073709551616)]
  rw [toSize_of_lt (by omega : (n + 2 - (n + 2) % 3) / 3 < 18446744073709551616)]
  rw [toSize_of_lt (by omega : (n + 2 - (n + 2) % 3) / 3 * 4 < 18446744073709551616)]
  omega

theorem EncodedLength_small (n : Nat) (h : n ≤ 1610612733) :
    EncodedLength n = (((n + 2) / 3 * 4 : Nat) : Int) := by
  unfold EncodedLength
  rw [sizeExpr_small n (by omega)]
  apply toInt_of_lt <;> omega

theorem toUnsigned_EncodedLength (n : Nat) (h : n < 2147483648) :
    toUnsigned (EncodedLength n) = (n + 2) / 3 * 4 := by
  unfold EncodedLength
  rw [sizeExpr_small n (by omega)]
  exact toUnsigned_toInt _ (by omega)

theorem Resize_length (s : List Nat) (k : Nat) : (Resize s k).length = k := by
  simp [Resize]; omega

theorem ceil_third (n : Nat) : ⌈(n : ℚ) / 3⌉ = (((n + 2) / 3 : Nat) : Int) := by
  rw [Int.ceil_eq_iff]
  have h1 : (n : ℚ) ≤ 3 * ((n + 2) / 3 : Nat) := by
    exact_mod_cast (by omega : n ≤ 3 * ((n + 2) / 3))
  have h2 : (3 : ℚ) * ((n + 2) / 3 : Nat) ≤ n + 2 := by
    exact_mod_cast (by omega : 3 * ((n + 2) / 3) ≤ n + 2)
  simp only [Int.cast_natCast]
  constructor
  · linarith
  · linarith

/-- On a string shorter than 2^31 `Encode` succeeds and produces `encodeSpec`. -/
theorem Encode_eq_spec (b out0 : List Nat) (h : b.length < 2147483648) :
    Encode b out0 = some (true, encodeSpec b) := by
  have hl : (Resize out0 (toUnsigned (EncodedLengthStr b))).length = (encodeSpec b).length := by
    rw [Resize_length, EncodedLengthStr, toUnsigned_EncodedLength _ h, encodeSpec_length]
  unfold Encode
  rw [if_neg (Nat.not_le.mpr h)]
  have hrun := encode_run b 0 0 0 [] _ hl
  rw [List.nil_append] at hrun
  exact hrun

/-! ## Byte arithmetic -/

theorem alphabet_facts : ∀ v, v < 64 →
    alphabetAt v ≠ 61 ∧ alphabetAt v < 256 ∧ b64_lookup (alphabetAt v) = v := by
  decide

set_option maxRecDepth 100000 in
theorem byte_bits : ∀ x, x < 256 →
    (x &&& 0xfc) >>> 2 = x / 4 ∧ (x &&& 0x03) <<< 4 = (x % 4) * 16 ∧ (x &&& 0xf0) >>> 4 = x / 16 ∧
    (x &&& 0x0f) <<< 2 = (x % 16) * 4 ∧ (x &&& 0xc0) >>> 6 = x / 64 ∧ x &&& 0x3f = x % 64 ∧
    x <<< 2 = x * 4 ∧ (x &&& 0x30) >>> 4 = (x / 16) % 4 ∧ (x &&& 0xf) <<< 4 = (x % 16) * 16 ∧
    (x &&& 0x3c) >>> 2 = (x / 4) % 16 ∧ (x &&& 0x3) <<< 6 = (x % 4) * 64 := by
  decide

theorem a3_to_a4_bytes (x y z : Nat) (hx : x < 256) (hy : y < 256) (hz : z < 256) :
    a3_to_a4 [x, y, z] = [x / 4, (x % 4) * 16 + y / 16, (y % 16) * 4 + z / 64, z % 64] := by
  obtain ⟨x1, x2, -, -, -, -, -⟩ := byte_bits x hx
  obtain ⟨-, -, y3, y4, -, -, -⟩ := byte_bits y hy
  obtain ⟨-, -, -, -, z5, z6, -⟩ := byte_bits z hz
  simp only [a3_to_a4, List.getD_cons_zero, List.getD_cons_succ, x1, x2, y3, y4, z5, z6]
  congr 1
  · omega
  congr 1
  · omega
  congr 1
  · omega
  congr 1
  omega

theorem a4_to_a3_values (p q r t : Nat) (hp : p < 256) (hq : q < 256) (hr : r < 256) :
    a4_to_a3 [p, q, r, t] =
      [(p * 4 + (q / 16) % 4) % 256, ((q % 16) * 16 + (r / 4) % 16) % 256, ((r % 4) * 64 + t) % 256] := by
  obtain ⟨-, -, -, -, -, -, p7, -⟩ := byte_bits p hp
  obtain ⟨-, -, -, -, -, -, -, q8, q9, -⟩ := byte_bits q hq
  obtain ⟨-, -, -, -, -, -, -, -, -, r10, r11⟩ := byte_bits r hr
  simp only [a4_to_a3, List.getD_cons_zero, List.getD_cons_succ, p7, q8, q9, r10, r11]

/-! ## The run of `Decode` -/

theorem dec4_length (c0 c1 c2 c3 : Nat) : (dec4 c0 c1 c2 c3).length = 3 := rfl

theorem decodeSpec_length (body : List Nat) : (decodeSpec body).length = decCount body.length := by
  induction body using decodeSpec.induct with
  | case1 c0 c1 c2 c3 rest ih =>
    simp only [decodeSpec, List.length_append, dec4_length, ih, List.length_cons, decCount]
    omega
  | case2 c0 c1 c2 => simp [decodeSpec, dec4_length, decCount]
  | case3 c0 c1 => simp [decodeSpec, dec4_length, decCount]
  | case4 c0 => simp [decodeSpec, decCount]
  | case5 => simp [decodeSpec, decCount]

theorem storeSeq_append_none (vs w f : List Nat) (h : f.length < vs.length) :
    storeSeq (w ++ f) w.length vs = none := by
  induction vs generalizing w f with
  | nil => simp at h
  | cons v vs ih =>
    cases f with
    | nil => simp [storeSeq, storeAt]
    | cons c f =>
      have hlen : f.length < vs.length := by simpa using h
      have e : storeAt (w ++ c :: f) w.length v = some ((w ++ [v]) ++ f) := by
        simp [storeAt]
      rw [storeSeq, e]
      have := ih (w ++ [v]) f hlen
      simp only [List.length_append, List.length_singleton] at this
      simp only [this]

/-- What the loop of `Decode` does once the characters in front of the first
`'='` are used up. -/
theorem decodeLoop_stop (tl : List Nat) (s : DecState)
    (h : tl = [] ∨ ∃ tl1, tl = padChar :: tl1) : decodeLoop tl s = some s := by
  rcases h with h | ⟨tl1, h⟩ <;> subst h <;> simp [decodeLoop]

theorem decodeLoop_four (c0 c1 c2 c3 : Nat) (rest : List Nat) (p q r t : Nat) (w f : List Nat)
    (h0 : c0 ≠ padChar) (h1 : c1 ≠ padChar) (h2 : c2 ≠ padChar) (h3 : c3 ≠ padChar)
    (h : 3 ≤ f.length) :
    decodeLoop (c0 :: c1 :: c2 :: c3 :: rest)
        { i := 0, a4 := [p, q, r, t], dec_len := w.length, out := w ++ f } =
      decodeLoop rest { i := 0, a4 := [c0 % 256, c1 % 256, c2 % 256, c3 % 256].map b64_lookup,
                        dec_len := (w ++ dec4 c0 c1 c2 c3).length,
                        out := (w ++ dec4 c0 c1 c2 c3) ++ f.drop 3 } := by
  have hs := storeSeq_append (dec4 c0 c1 c2 c3) w f (by rw [dec4_length]; exact h)
  rw [dec4_length] at hs
  simp only [decodeLoop, h0, h1, h2, h3, if_false, List.set_cons_zero, List.set_cons_succ,
    Nat.zero_add, Nat.reduceAdd, Nat.reduceEqDiff, if_true, reduceIte]
  simp only [dec4] at hs ⊢
  rw [hs]
  simp [a4_to_a3_length]

theorem decodeLoop_four_none (c0 c1 c2 c3 : Nat) (rest : List Nat) (p q r t : Nat) (w f : List Nat)
    (h0 : c0 ≠ padChar) (h1 : c1 ≠ padChar) (h2 : c2 ≠ padChar) (h3 : c3 ≠ padChar)
    (h : f.length < 3) :
    decodeLoop (c0 :: c1 :: c2 :: c3 :: rest)
        { i := 0, a4 := [p, q, r, t], dec_len := w.length, out := w ++ f } = none := by
  have hs := storeSeq_append_none (dec4 c0 c1 c2 c3) w f (by rw [dec4_length]; exact h)
  simp only [decodeLoop, h0, h1, h2, h3, if_false, List.set_cons_zero, List.set_cons_succ,
    Nat.zero_add, Nat.reduceAdd, Nat.reduceEqDiff, if_true, reduceIte]
  simp only [dec4] at hs
  rw [hs]

theorem decodeTail_short (i : Nat) (a4 w f : List Nat) (hi : 0 < i) (hi4 : i < 4) :
    decodeTail { i := i, a4 := a4, dec_len := w.length, out := w ++ f } =
      if i - 1 ≤ f.length then
        some (decide (f.length = i - 1),
          w ++ (a4_to_a3 ((a4.take i ++ List.replicate (4 - i) 0).map b64_lookup)).take (i - 1)
            ++ f.drop (i - 1))
      else none := by
  have hne : i ≠ 0 := by omega
  have hl : ((a4_to_a3 ((a4.take i ++ List.replicate (4 - i) 0).map b64_lookup)).take (i - 1)).length
      = i - 1 := by
    simp [a4_to_a3_length]; omega
  by_cases hc : i - 1 ≤ f.length
  · have h1 := storeSeq_append
      ((a4_to_a3 ((a4.take i ++ List.replicate (4 - i) 0).map b64_lookup)).take (i - 1)) w f
      (by rw [hl]; exact hc)
    rw [hl] at h1
    simp only [decodeTail, hne, ne_eq, not_false_eq_true, if_true, h1, hc]
    simp only [List.length_append, hl, List.length_drop, Option.some.injEq, Prod.mk.injEq, and_true]
    by_cases he : f.length = i - 1
    · simp [he]
    · simp [he]; omega
  · have h1 := storeSeq_append_none
      ((a4_to_a3 ((a4.take i ++ List.replicate (4 - i) 0).map b64_lookup)).take (i - 1)) w f
      (by rw [hl]; omega)
    simp only [decodeTail, hne, ne_eq, not_false_eq_true, if_true, h1, hc, if_false]

/-- The run of the loop and tail of `Decode` on `body ++ tl`, where `body` has
no `'='` and `tl` is empty or starts with `'='`: with room for the bytes the
result is the decoded bytes and the flag says whether the room was exact;
without room a write falls outside the buffer. -/
theorem decode_run (body : List Nat) : ∀ (tl : List Nat) (p q r t : Nat) (w f : List Nat),
    (∀ c ∈ body, c ≠ padChar) → (tl = [] ∨ ∃ tl1, tl = padChar :: tl1) →
    (decodeLoop (body ++ tl)
        { i := 0, a4 := [p, q, r, t], dec_len := w.length, out := w ++ f }).bind decodeTail =
      if decCount body.length ≤ f.length then
        some (decide (f.length = decCount body.length),
          w ++ decodeSpec body ++ f.drop (decCount body.length))
      else none := by
  induction body using decodeSpec.induct with
  | case1 c0 c1 c2 c3 rest ih =>
    intro tl p q r t w f hb htl
    have h0 : c0 ≠ padChar := hb c0 (by simp)
    have h1 : c1 ≠ padChar := hb c1 (by simp)
    have h2 : c2 ≠ padChar := hb c2 (by simp)
    have h3 : c3 ≠ padChar := hb c3 (by simp)
    have hrest : ∀ c ∈ rest, c ≠ padChar := fun c hc => hb c (by simp [hc])
    have hcount : decCount (c0 :: c1 :: c2 :: c3 :: rest).length = 3 + decCount rest.length := by
      simp only [decCount, List.length_cons]; omega
    rw [hcount]
    simp only [List.cons_append]
    by_cases hf : 3 ≤ f.length
    · rw [decodeLoop_four c0 c1 c2 c3 _ p q r t w f h0 h1 h2 h3 hf]
      simp only [List.map_cons, List.map_nil]
      rw [ih tl _ _ _ _ (w ++ dec4 c0 c1 c2 c3) (f.drop 3) hrest htl]
      simp only [List.length_drop, decodeSpec, List.drop_drop, List.append_assoc]
      by_cases hc : decCount rest.length ≤ f.length - 3
      · rw [if_pos hc, if_pos (by omega)]
        have e1 : (f.length - 3 = decCount rest.length) ↔ (f.length = 3 + decCount rest.length) := by
          omega
        simp only [e1, Nat.add_comm]
      · rw [if_neg hc, if_neg (by omega)]
    · rw [decodeLoop_four_none c0 c1 c2 c3 _ p q r t w f h0 h1 h2 h3 (by omega)]
      rw [if_neg (by omega)]
      rfl
  | case2 c0 c1 c2 =>
    intro tl p q r t w f hb htl
    have h0 : c0 ≠ padChar := hb c0 (by simp)
    have h1 : c1 ≠ padChar := hb c1 (by simp)
    have h2 : c2 ≠ padChar := hb c2 (by simp)
    rw [show [c0, c1, c2] ++ tl = c0 :: c1 :: c2 :: tl from rfl]
    simp only [decodeLoop, h0, h1, h2, if_false,
      List.set_cons_zero, List.set_cons_succ, Nat.zero_add, Nat.reduceAdd, Nat.reduceEqDiff,
      reduceIte]
    rw [decodeLoop_stop tl _ htl]
    simp only [Option.bind]
    rw [decodeTail_short 3 _ w f (by omega) (by omega)]
    simp [decodeSpec, dec4, decCount, b64_lookup]
  | case3 c0 c1 =>
    intro tl p q r t w f hb htl
    have h0 : c0 ≠ padChar := hb c0 (by simp)
    have h1 : c1 ≠ padChar := hb c1 (by simp)
    rw [show [c0, c1] ++ tl = c0 :: c1 :: tl from rfl]
    simp only [decodeLoop, h0, h1, if_false,
      List.set_cons_zero, List.set_cons_succ, Nat.zero_add, Nat.reduceAdd, Nat.reduceEqDiff,
      reduceIte]
    rw [decodeLoop_stop tl _ htl]
    simp only [Option.bind]
    rw [decodeTail_short 2 _ w f (by omega) (by omega)]
    simp [decodeSpec, dec4, decCount, b64_lookup]
  | case4 c0 =>
    intro tl p q r t w f hb htl
    have h0 : c0 ≠ padChar := hb c0 (by simp)
    rw [show [c0] ++ tl = c0 :: tl from rfl]
    simp only [decodeLoop, h0, if_false,
      List.set_cons_zero, Nat.zero_add, Nat.reduceEqDiff, reduceIte]
    rw [decodeLoop_stop tl _ htl]
    simp only [Option.bind]
    rw [decodeTail_short 1 _ w f (by omega) (by omega)]
    simp [decodeSpec, decCount]
  | case5 =>
    intro tl p q r t w f hb htl
    simp only [List.nil_append]
    rw [decodeLoop_stop tl _ htl]
    simp only [Option.bind, decodeTail]
    cases f with
    | nil => simp [decodeSpec, decCount]
    | cons c f => simp [decodeSpec, decCount]

theorem DecodedLengthStr_small (inp : List Nat) (h : inp.length ≤ 357913941) :
    DecodedLengthStr inp = some (((6 * inp.length / 8 : Nat) : Int) - (trailingPads inp : Int)) := by
  have hn : toInt (inp.length : Int) = (inp.length : Int) := toInt_of_lt (by omega) (by omega)
  have hr : inIntRange (6 * (inp.length : Int)) = true := by
    unfold inIntRange
    rw [Bool.and_eq_true]
    constructor
    · exact decide_eq_true (by omega)
    · exact decide_eq_true (by omega)
  have hd : Int.tdiv (6 * (inp.length : Int)) 8 = ((6 * inp.length / 8 : Nat) : Int) := by
    rw [Int.tdiv_eq_ediv (by omega) (by omega)]
    omega
  unfold DecodedLengthStr
  simp only [hn]
  rw [if_pos hr, if_pos (by omega), hd]

/-- Complete description of `Decode` on `body ++ tl`, where `body` has no `'='`
and `tl` is empty or starts with `'='`. -/
theorem Decode_split (body tl out0 : List Nat) (hb : ∀ c ∈ body, c ≠ padChar)
    (htl : tl = [] ∨ ∃ tl1, tl = padChar :: tl1) (hlen : (body ++ tl).length ≤ 357913941) :
    Decode (body ++ tl) out0 =
      if decCount body.length ≤ decodedRoom (body ++ tl) then
        some (decide (decodedRoom (body ++ tl) = decCount body.length),
          decodeSpec body ++ (Resize out0 (decodedRoom (body ++ tl))).drop (decCount body.length))
      else none := by
  have hg : ¬ (2147483648 ≤ (body ++ tl).length ∧ padChar ∉ body ++ tl) := by
    intro hh
    have := hh.1
    omega
  have hrun := decode_run body tl 0 0 0 0 [] (Resize out0 (decodedRoom (body ++ tl))) hb htl
  rw [Resize_length, List.nil_append, List.nil_append] at hrun
  unfold Decode
  rw [DecodedLengthStr_small _ hlen, Option.some_bind, if_neg hg]
  exact hrun

/-! ## Shape of the encoded text -/

theorem encodeSpec_eq_body (b : List Nat) :
    encodeSpec b = encBody b ++ List.replicate (padCount b.length) padChar := by
  induction b using encodeSpec.induct with
  | case1 x y z rest ih =>
    have hp : padCount (x :: y :: z :: rest).length = padCount rest.length := by
      simp only [padCount, List.length_cons]; omega
    rw [hp, encodeSpec, encBody, ih, List.append_assoc]
  | case2 x y => simp [encodeSpec, encBody, padCount, List.replicate]
  | case3 x => simp [encodeSpec, encBody, padCount, List.replicate]
  | case4 => simp [encodeSpec, encBody, padCount]

theorem alphabet_isAlphabet : ∀ v, v < 64 → isAlphabet (alphabetAt v) = true := by
  decide

theorem enc3_values (x y z : Nat) :
    enc3 x y z = [alphabetAt ((x % 256) / 4), alphabetAt (((x % 256) % 4) * 16 + (y % 256) / 16),
      alphabetAt (((y % 256) % 16) * 4 + (z % 256) / 64), alphabetAt ((z % 256) % 64)] := by
  unfold enc3
  rw [a3_to_a4_bytes _ _ _ (Nat.mod_lt _ (by norm_num)) (Nat.mod_lt _ (by norm_num))
    (Nat.mod_lt _ (by norm_num))]
  rfl

theorem enc3_mem (x y z c : Nat) (h : c ∈ enc3 x y z) :
    isAlphabet c = true ∧ c ≠ padChar := by
  rw [enc3_values] at h
  simp only [List.mem_cons, List.mem_singleton, List.not_mem_nil, or_false] at h
  have key : ∀ v, v < 64 → isAlphabet (alphabetAt v) = true ∧ alphabetAt v ≠ padChar :=
    fun v hv => ⟨alphabet_isAlphabet v hv, (alphabet_facts v hv).1⟩
  rcases h with h | h | h | h <;> subst h <;> apply key <;> omega

theorem encBody_mem (b : List Nat) : ∀ c ∈ encBody b, isAlphabet c = true ∧ c ≠ padChar := by
  induction b using encBody.induct with
  | case1 x y z rest ih =>
    intro c hc
    rw [encBody, List.mem_append] at hc
    rcases hc with hc | hc
    · exact enc3_mem x y z c hc
    · exact ih c hc
  | case2 x y =>
    intro c hc
    exact enc3_mem x y 0 c (List.mem_of_mem_take hc)
  | case3 x =>
    intro c hc
    exact enc3_mem x 0 0 c (List.mem_of_mem_take hc)
  | case4 => intro c hc; simp [encBody] at hc

theorem encBody_length (b : List Nat) :
    (encBody b).length = 4 * (b.length / 3) + (if b.length % 3 = 0 then 0 else b.length % 3 + 1) := by
  induction b using encBody.induct with
  | case1 x y z rest ih =>
    simp only [encBody, List.length_append, enc3_length, ih, List.length_cons]
    have e1 : (rest.length + 1 + 1 + 1) / 3 = rest.length / 3 + 1 := by omega
    have e2 : (rest.length + 1 + 1 + 1) % 3 = rest.length % 3 := by omega
    rw [e1, e2]
    omega
  | case2 x y => simp [encBody, enc3_length]
  | case3 x => simp [encBody, enc3_length]
  | case4 => simp [encBody]

/-! ## Decoding what `Encode` wrote -/

theorem b64_lookup_lt (c : Nat) : b64_lookup c < 256 := by
  unfold b64_lookup
  split_ifs <;> omega

theorem dec4_values (c0 c1 c2 c3 : Nat) :
    dec4 c0 c1 c2 c3 =
      [(b64_lookup (c0 % 256) * 4 + (b64_lookup (c1 % 256) / 16) % 4) % 256,
       ((b64_lookup (c1 % 256) % 16) * 16 + (b64_lookup (c2 % 256) / 4) % 16) % 256,
       ((b64_lookup (c2 % 256) % 4) * 64 + b64_lookup (c3 % 256)) % 256] := by
  unfold dec4
  simp only [List.map_cons, List.map_nil]
  exact a4_to_a3_values _ _ _ _ (b64_lookup_lt _) (b64_lookup_lt _) (b64_lookup_lt _)

theorem lookup_alphabet (v : Nat) (h : v < 64) : b64_lookup (alphabetAt v % 256) = v := by
  obtain ⟨-, a0, l0⟩ := alphabet_facts v h
  rw [Nat.mod_eq_of_lt a0, l0]

theorem decodeSpec_encBody (b : List Nat) : (∀ x ∈ b, x < 256) → decodeSpec (encBody b) = b := by
  induction b using encBody.induct with
  | case1 x y z rest ih =>
    intro hb
    have hx : x < 256 := hb x (by simp)
    have hy : y < 256 := hb y (by simp)
    have hz : z < 256 := hb z (by simp)
    have hrest : ∀ c ∈ rest, c < 256 := fun c hc => hb c (by simp [hc])
    rw [encBody, enc3_values, Nat.mod_eq_of_lt hx, Nat.mod_eq_of_lt hy, Nat.mod_eq_of_lt hz]
    show decodeSpec (alphabetAt (x / 4) :: alphabetAt (x % 4 * 16 + y / 16) ::
      alphabetAt (y % 16 * 4 + z / 64) :: alphabetAt (z % 64) :: encBody rest) = _
    rw [decodeSpec, ih hrest, dec4_values, lookup_alphabet _ (by omega),
      lookup_alphabet _ (by omega), lookup_alphabet _ (by omega), lookup_alphabet _ (by omega)]
    show _ :: _ :: _ :: rest = _
    congr 1
    · omega
    congr 1
    · omega
    congr 1
    omega
  | case2 x y =>
    intro hb
    have hx : x < 256 := hb x (by simp)
    have hy : y < 256 := hb y (by simp)
    rw [encBody, enc3_values, Nat.mod_eq_of_lt hx, Nat.mod_eq_of_lt hy]
    show decodeSpec [alphabetAt (x / 4), alphabetAt (x % 4 * 16 + y / 16),
      alphabetAt (y % 16 * 4 + 0 % 256 / 64)] = _
    rw [decodeSpec, dec4_values, lookup_alphabet _ (by omega),
      lookup_alphabet _ (by omega), lookup_alphabet _ (by omega)]
    show [_, _] = _
    congr 1
    · omega
    congr 1
    omega
  | case3 x =>
    intro hb
    have hx : x < 256 := hb x (by simp)
    rw [encBody, enc3_values, Nat.mod_eq_of_lt hx]
    show decodeSpec [alphabetAt (x / 4), alphabetAt (x % 4 * 16 + 0 % 256 / 16)] = _
    rw [decodeSpec, dec4_values, lookup_alphabet _ (by omega), lookup_alphabet _ (by omega)]
    show [_] = _
    congr 1
    omega
  | case4 => intro _; rfl

theorem trailingPads_body (body : List Nat) (k : Nat) (hb : ∀ c ∈ body, c ≠ padChar) :
    trailingPads (body ++ List.replicate k padChar) = k := by
  unfold trailingPads
  rw [List.reverse_append, List.reverse_replicate]
  rw [List.takeWhile_append_of_pos (by
    intro a ha
    rw [List.eq_of_mem_replicate ha]
    simp)]
  have hnil : List.takeWhile (fun c => c == padChar) body.reverse = [] := by
    rw [List.takeWhile_eq_nil_iff]
    intro hpos
    have hm : body.reverse.get ⟨0, hpos⟩ ∈ body := by
      rw [← List.mem_reverse]
      exact List.get_mem _ _ _
    have := hb _ hm
    simpa using this
  rw [hnil]
  simp

theorem decCount_encBody (b : List Nat) : decCount (encBody b).length = b.length := by
  rw [encBody_length]
  unfold decCount
  split <;> omega

theorem replicate_pad_shape (k : Nat) :
    List.replicate k padChar = [] ∨ ∃ tl1, List.replicate k padChar = padChar :: tl1 := by
  cases k with
  | zero => exact Or.inl rfl
  | succ k => exact Or.inr ⟨List.replicate k padChar, rfl⟩

theorem padCount_le (n : Nat) : padCount n ≤ 2 := by
  unfold padCount; omega

theorem decodedRoom_encodeSpec (b : List Nat) (h : b.length < 268435456) :
    decodedRoom (encodeSpec b) = b.length := by
  have hb := encBody_mem b
  unfold decodedRoom
  rw [encodeSpec_length]
  rw [encodeSpec_eq_body, trailingPads_body _ _ (fun c hc => (hb c hc).2)]
  have e1 : 6 * ((b.length + 2) / 3 * 4) / 8 = b.length + padCount b.length := by
    unfold padCount; omega
  rw [e1]
  have e2 : ((b.length + padCount b.length : Nat) : Int) - (padCount b.length : Int)
      = (b.length : Int) := by
    push_cast; omega
  rw [e2]
  unfold toUnsigned
  omega

theorem Decode_encodeSpec (b out1 : List Nat) (hb : ∀ x ∈ b, x < 256) (hlen : b.length < 268435456) :
    Decode (encodeSpec b) out1 = some (true, b) := by
  have hroom := decodedRoom_encodeSpec b hlen
  have hsplit := Decode_split (encBody b) (List.replicate (padCount b.length) padChar) out1
    (fun c hc => (encBody_mem b c hc).2) (replicate_pad_shape _)
    (by rw [← encodeSpec_eq_body, encodeSpec_length]; omega)
  rw [← encodeSpec_eq_body, hroom, decCount_encBody, decodeSpec_encBody b hb] at hsplit
  rw [hsplit, if_pos (Nat.le_refl _)]
  have hd : List.drop b.length (Resize out1 b.length) = [] := by
    apply List.drop_eq_nil_of_le
    rw [Resize_length]
  rw [hd, List.append_nil, decide_eq_true rfl]

/-- On a string of 357913942 characters or more (and fewer than 2^31) the
product `6 * n` in `DecodedLength` overflows `int`. -/
theorem DecodedLengthStr_overflow (inp : List Nat) (h : 357913942 ≤ inp.length)
    (h2 : inp.length < 2147483648) : DecodedLengthStr inp = none := by
  have hn : toInt (inp.length : Int) = (inp.length : Int) := toInt_of_lt (by omega) (by omega)
  have hr : ¬ (inIntRange (6 * (inp.length : Int)) = true) := by
    unfold inIntRange
    rw [Bool.and_eq_true]
    intro hh
    have := of_decide_eq_true hh.2
    omega
  unfold DecodedLengthStr
  simp only [hn]
  rw [if_neg hr]

/-! ## The flag returned by `Decode` -/

theorem bodyOf_append_restOf (inp : List Nat) : bodyOf inp ++ restOf inp = inp :=
  List.takeWhile_append_dropWhile _ _

theorem bodyOf_no_pad (inp : List Nat) : ∀ c ∈ bodyOf inp, c ≠ padChar := by
  intro c hc
  have := List.mem_takeWhile_imp hc
  simpa using this

theorem restOf_shape (inp : List Nat) : restOf inp = [] ∨ ∃ tl1, restOf inp = padChar :: tl1 := by
  induction inp with
  | nil => exact Or.inl rfl
  | cons c inp ih =>
    by_cases hc : c = padChar
    · right
      refine ⟨inp, ?_⟩
      subst hc
      simp [restOf, List.dropWhile]
    · have hp : (c != padChar) = true := by simpa using hc
      have e : restOf (c :: inp) = restOf inp := by
        unfold restOf
        rw [List.dropWhile_cons, if_pos hp]
      rw [e]
      exact ih

/-- The flag returned by `Decode` (or `none` when the run is undefined),
expressed through the length of the input, the number of `'='` at its end and
the number of characters in front of its first `'='`. -/
theorem Decode_flag (inp out0 : List Nat) :
    (Decode inp out0).map Prod.fst =
      (DecodedLengthStr inp).bind fun len =>
        if 2147483648 ≤ inp.length ∧ padChar ∉ inp then none
        else if decCount (bodyOf inp).length ≤ toUnsigned len then
          some (decide (toUnsigned len = decCount (bodyOf inp).length))
        else none := by
  unfold Decode
  cases hlen : DecodedLengthStr inp with
  | none => rfl
  | some len =>
    simp only [Option.some_bind]
    by_cases hg : 2147483648 ≤ inp.length ∧ padChar ∉ inp
    · rw [if_pos hg, if_pos hg]; rfl
    · rw [if_neg hg, if_neg hg]
      have hrun := decode_run (bodyOf inp) (restOf inp) 0 0 0 0 [] (Resize out0 (toUnsigned len))
        (bodyOf_no_pad inp) (restOf_shape inp)
      rw [bodyOf_append_restOf, Resize_length, List.nil_append, List.nil_append] at hrun
      rw [List.length_nil] at hrun
      show Option.map Prod.fst ((decodeLoop inp _).bind decodeTail) = _
      rw [hrun]
      by_cases hc : decCount (bodyOf inp).length ≤ toUnsigned len
      · rw [if_pos hc, if_pos hc]; rfl
      · rw [if_neg hc, if_neg hc]; rfl

theorem length_of_shape (s t : List Nat) (h : shapeOf s = shapeOf t) : s.length = t.length := by
  have := congrArg List.length h
  simpa [shapeOf] using this

theorem bodyOf_length_of_shape (s t : List Nat) (h : shapeOf s = shapeOf t) :
    (bodyOf s).length = (bodyOf t).length := by
  have key : ∀ l : List Nat, (bodyOf l).length = ((shapeOf l).takeWhile (fun b => !b)).length := by
    intro l
    unfold bodyOf shapeOf
    rw [List.takeWhile_map, List.length_map]
    rfl
  rw [key s, key t, h]

theorem trailingPads_of_shape (s t : List Nat) (h : shapeOf s = shapeOf t) :
    trailingPads s = trailingPads t := by
  have key : ∀ l : List Nat, trailingPads l = ((shapeOf l).reverse.takeWhile (fun b => b)).length := by
    intro l
    unfold trailingPads shapeOf
    rw [← List.map_reverse, List.takeWhile_map, List.length_map]
    rfl
  rw [key s, key t, h]

theorem mem_pad_of_shape (s t : List Nat) (h : shapeOf s = shapeOf t) :
    padChar ∈ s ↔ padChar ∈ t := by
  have key : ∀ l : List Nat, padChar ∈ l ↔ true ∈ shapeOf l := by
    intro l
    unfold shapeOf
    rw [List.mem_map]
    constructor
    · intro hm
      exact ⟨padChar, hm, by simp⟩
    · rintro ⟨a, ha, hEq⟩
      have : a = padChar := by simpa using hEq
      rw [← this]
      exact ha
  rw [key s, key t, h]

theorem DecodedLengthStr_of_shape (s t : List Nat) (h : shapeOf s = shapeOf t) :
    DecodedLengthStr s = DecodedLengthStr t := by
  unfold DecodedLengthStr
  rw [length_of_shape s t h, trailingPads_of_shape s t h]

/-! ## Claims on the codec -/

/-- C1 (amended): for every byte sequence `b` of fewer than 2^28 = 268435456
bytes (including the empty one and sequences containing NUL or `'='` bytes) and
whatever the output strings held before, `Encode(b, &e)` returns true and
`Decode(e, &d)` then returns true with `d` equal to `b`. -/
theorem Encode_Decode_roundtrip (b out0 out1 : List Nat) (hb : ∀ x ∈ b, x < 256)
    (hlen : b.length < 268435456) :
    ∃ e, Encode b out0 = some (true, e) ∧ Decode e out1 = some (true, b) :=
  ⟨encodeSpec b, Encode_eq_spec b out0 (by omega), Decode_encodeSpec b out1 hb hlen⟩

/-- Instance of the round trip of C1 on the bytes `M a NUL = 0xff`. -/
theorem Encode_Decode_roundtrip_witness :
    (∀ x ∈ [77, 97, 0, 61, 255], x < 256) ∧ [77, 97, 0, 61, 255].length < 268435456 ∧
      ∃ e, Encode [77, 97, 0, 61, 255] [7] = some (true, e) ∧
        Decode e [] = some (true, [77, 97, 0, 61, 255]) :=
  ⟨by decide, by decide, Encode_Decode_roundtrip [77, 97, 0, 61, 255] [7] [] (by decide) (by decide)⟩

/-- C1 as stated fails on 2^28 zero bytes: `Encode` succeeds with a text of
357913944 characters, on which `6 * n` in `DecodedLength` overflows `int`, so
`Decode` does not return true with the original bytes. -/
theorem Encode_Decode_roundtrip_overflow :
    ∃ e, Encode (List.replicate 268435456 0) [] = some (true, e) ∧ e.length = 357913944 ∧
      Decode e [] = none ∧ Decode e [] ≠ some (true, List.replicate 268435456 0) := by
  have hl : (encodeSpec (List.replicate 268435456 0)).length = 357913944 := by
    rw [encodeSpec_length, List.length_replicate]
  have hd : Decode (encodeSpec (List.replicate 268435456 0)) [] = none := by
    unfold Decode
    rw [DecodedLengthStr_overflow _ (by rw [hl]; omega) (by rw [hl]; omega)]
    rfl
  refine ⟨encodeSpec (List.replicate 268435456 0), ?_, hl, hd, ?_⟩
  · exact Encode_eq_spec _ _ (by rw [List.length_replicate]; omega)
  · rw [hd]
    exact fun h => Option.noConfusion h

/-- C2 (amended): a byte that is neither an alphabet character nor `'='` does
not make `Decode` fail.  The flag `Decode` returns (and whether its run is
defined at all) is the same for any two inputs of the same length with `'='` at
the same positions, whatever their other bytes are. -/
theorem Decode_flag_ignores_bytes (s t out0 out1 : List Nat) (h : shapeOf s = shapeOf t) :
    (Decode s out0).map Prod.fst = (Decode t out1).map Prod.fst := by
  rw [Decode_flag, Decode_flag, DecodedLengthStr_of_shape s t h, length_of_shape s t h,
    bodyOf_length_of_shape s t h]
  have hm : (padChar ∉ s) = (padChar ∉ t) := by
    rw [mem_pad_of_shape s t h]
  simp only [hm]

/-- Instance of C2 (amended): `"A*AA"` and `"AAAA"` give the same flag, true. -/
theorem Decode_flag_ignores_bytes_witness :
    shapeOf [65, 42, 65, 65] = shapeOf [65, 65, 65, 65] ∧
      (Decode [65, 42, 65, 65] []).map Prod.fst = (Decode [65, 65, 65, 65] []).map Prod.fst ∧
      (Decode [65, 65, 65, 65] []).map Prod.fst = some true :=
  ⟨by decide, Decode_flag_ignores_bytes [65, 42, 65, 65] [65, 65, 65, 65] [] [] (by decide),
    by decide⟩

/-- C2 as stated fails on `"A*AA"`: `'*'` (42) is neither in the alphabet nor
`'='`, yet `Decode` returns true, with the three bytes 3, 240, 0. -/
theorem Decode_accepts_invalid_byte :
    isAlphabet 42 = false ∧ 42 ≠ padChar ∧ 42 ∈ [65, 42, 65, 65] ∧
      Decode [65, 42, 65, 65] [] = some (true, [3, 240, 0]) := by
  decide

theorem toInt_lt (v : Int) : toInt v < 2147483648 := by
  unfold toInt; omega

/-- The bound of `EncodedLength_small` is exact: `EncodedLength(n)` equals
`ceil(n/3)*4` for no larger `n`. -/
theorem EncodedLength_exact (n : Nat) :
    EncodedLength n = ⌈(n : ℚ) / 3⌉ * 4 ↔ n ≤ 1610612733 := by
  constructor
  · intro h
    by_contra hn
    have hlt : EncodedLength n < 2147483648 := toInt_lt _
    rw [h, ceil_third] at hlt
    have : (2147483648 : Int) ≤ (((n + 2) / 3 : Nat) : Int) * 4 := by
      have h3 : 536870912 ≤ (n + 2) / 3 := by omega
      omega
    omega
  · intro h
    rw [ceil_third, EncodedLength_small n h]
    push_cast
    rfl

/-- C9 (amended): for every `n` with `0 ≤ n ≤ 1610612733`, that is whenever
`ceil(n/3)*4` fits the `int` return type, `EncodedLength(n)` equals `ceil(n/3)*4`. -/
theorem EncodedLength_eq_ceil (n : Nat) (h : n ≤ 1610612733) :
    EncodedLength n = ⌈(n : ℚ) / 3⌉ * 4 := by
  rw [ceil_third, EncodedLength_small n h]
  push_cast
  rfl

/-- Instance of C9 (amended) at `n = 7`. -/
theorem EncodedLength_eq_ceil_witness :
    7 ≤ 1610612733 ∧ EncodedLength 7 = ⌈((7 : Nat) : ℚ) / 3⌉ * 4 :=
  ⟨by decide, EncodedLength_eq_ceil 7 (by decide)⟩

/-- C9 as stated fails at `n = 1610612734`: `ceil(n/3)*4` is 2^31, which the
`int` result cannot hold; the function returns -2^31. -/
theorem EncodedLength_overflow :
    EncodedLength 1610612734 = -2147483648 ∧ ⌈((1610612734 : Nat) : ℚ) / 3⌉ * 4 = 2147483648 ∧
      EncodedLength 1610612734 ≠ ⌈((1610612734 : Nat) : ℚ) / 3⌉ * 4 := by
  rw [ceil_third]
  decide

/-- C10 (amended): for every byte sequence of length `n < 2^31`, `Encode`
returns true and its output consists of characters of the 64-symbol alphabet
(none of them `'='`) followed by exactly `k` characters `'='`, where `k = 2` if
`n mod 3 = 1`, `k = 1` if `n mod 3 = 2` and `k = 0` if `n mod 3 = 0`. -/
theorem Encode_shape (b out0 : List Nat) (hlen : b.length < 2147483648) :
    ∃ body, Encode b out0 = some (true, body ++
        List.replicate (if b.length % 3 = 1 then 2 else if b.length % 3 = 2 then 1 else 0) padChar) ∧
      ∀ c ∈ body, isAlphabet c = true ∧ c ≠ padChar := by
  refine ⟨encBody b, ?_, encBody_mem b⟩
  have hk : (if b.length % 3 = 1 then 2 else if b.length % 3 = 2 then 1 else 0)
      = padCount b.length := by
    unfold padCount
    split_ifs <;> omega
  rw [hk, ← encodeSpec_eq_body]
  exact Encode_eq_spec b out0 hlen

/-- Instance of C10 (amended) on the two bytes `M a`. -/
theorem Encode_shape_witness :
    [77, 97].length < 2147483648 ∧
      ∃ body, Encode [77, 97] [] = some (true, body ++
          List.replicate (if [77, 97].length % 3 = 1 then 2
            else if [77, 97].length % 3 = 2 then 1 else 0) padChar) ∧
        ∀ c ∈ body, isAlphabet c = true ∧ c ≠ padChar :=
  ⟨by decide, Encode_shape [77, 97] [] (by decide)⟩

/-- C10 as stated fails on 3 * 2^30 = 3221225472 bytes: `int input_len` is
negative, so the loop `while (input_len--)` does not count the input down to
zero, and `EncodedLength` yields 2^32, which the `int` result and the
`unsigned` argument of `Resize` reduce to 0; no encoded string is produced. -/
theorem Encode_shape_overflow :
    Encode (List.replicate 3221225472 0) [] = none ∧
      toUnsigned (EncodedLengthStr (List.replicate 3221225472 0)) = 0 := by
  constructor
  · unfold Encode
    rw [if_pos (by rw [List.length_replicate]; omega)]
  · unfold EncodedLengthStr EncodedLength
    rw [List.length_replicate, sizeExpr_small _ (by omega)]
    decide

/-! ## The buffer overloads -/

/-- C11 (code defect).  The buffer `Decode` can store more bytes than
`out_length`: on the five bytes `AAAA=` with an output buffer of two bytes,
whatever it holds, `DecodedLength` is `3 - 1 = 2`, the guard lets the call
through, and the first group of four symbols stores three bytes. -/
theorem DecodeBuf_writes_past_end (a b : Nat) :
    DecodedLengthBuf [65, 65, 65, 65, 61] = some 2 ∧
    DecodeBuf [65, 65, 65, 65, 61] [a, b] = some (false, [0, 0, 0]) ∧
    [a, b].length < ([0, 0, 0] : List Nat).length := by
  refine ⟨by decide, ?_, by simp⟩
  rw [DecodeBuf, show DecodedLengthBuf [65, 65, 65, 65, 61] = some 2 by decide, Option.some_bind]
  rfl

/-- Stripping removes exactly the `'='` written behind a text that has none. -/
theorem StripPadding_body (body : List Nat) (k : Nat) (hb : ∀ c ∈ body, c ≠ padChar) :
    StripPadding (body ++ List.replicate k padChar) = body := by
  unfold StripPadding
  rw [List.reverse_append, List.reverse_replicate]
  have h1 : ∀ (n : Nat) (r : List Nat),
      List.dropWhile (fun c => c == padChar) (List.replicate n padChar ++ r)
        = List.dropWhile (fun c => c == padChar) r := by
    intro n r
    induction n with
    | zero => rfl
    | succ n ih =>
      rw [List.replicate_succ, List.cons_append, List.dropWhile_cons, if_pos (beq_self_eq_true _)]
      exact ih
  rw [h1]
  have h2 : List.dropWhile (fun c => c == padChar) body.reverse = body.reverse := by
    cases hr : body.reverse with
    | nil => rfl
    | cons c r =>
      have hm : c ∈ body := by
        rw [← List.mem_reverse, hr]
        exact List.mem_cons_self _ _
      have hc : (c == padChar) = false := by
        rw [beq_eq_false_iff_ne]
        exact hb c hm
      rw [List.dropWhile_cons, hc]
      rfl
  rw [h2, List.reverse_reverse]

/-- The text of `Encode` without its padding. -/
theorem StripPadding_encodeSpec (b : List Nat) : StripPadding (encodeSpec b) = encBody b := by
  rw [encodeSpec_eq_body]
  exact StripPadding_body _ _ (fun c hc => (encBody_mem b c hc).2)

/-- The output size `Decode` computes for the unpadded text of `Encode`. -/
theorem decodedRoom_encBody (b : List Nat) (h : b.length < 268435456) :
    decodedRoom (encBody b) = b.length := by
  have hb := encBody_mem b
  have hp : trailingPads (encBody b) = 0 := by
    have := trailingPads_body (encBody b) 0 (fun c hc => (hb c hc).2)
    rw [List.replicate_zero, List.append_nil] at this
    exact this
  unfold decodedRoom
  rw [hp, encBody_length]
  have e1 : 6 * (4 * (b.length / 3) + (if b.length % 3 = 0 then 0 else b.length % 3 + 1)) / 8
      = b.length := by
    split <;> omega
  rw [e1]
  unfold toUnsigned
  omega

/-- The unpadded text of `Encode` decodes to the bytes. -/
theorem Decode_encBody (b out1 : List Nat) (hb : ∀ x ∈ b, x < 256) (hlen : b.length < 268435456) :
    Decode (encBody b) out1 = some (true, b) := by
  have hroom := decodedRoom_encBody b hlen
  have hl : (encBody b ++ []).length ≤ 357913941 := by
    rw [List.append_nil, encBody_length]
    split <;> omega
  have hsplit := Decode_split (encBody b) [] out1
    (fun c hc => (encBody_mem b c hc).2) (Or.inl rfl) hl
  rw [List.append_nil, hroom, decCount_encBody, decodeSpec_encBody b hb] at hsplit
  rw [hsplit, if_pos (Nat.le_refl _)]
  have hd : List.drop b.length (Resize out1 b.length) = [] := by
    apply List.drop_eq_nil_of_le
    rw [Resize_length]
  rw [hd, List.append_nil, decide_eq_true rfl]

/-- C23 (amended): for every byte sequence `b` of fewer than 2^28 = 268435456
bytes and whatever the output strings held before, `Encode(b, &e)` returns
true; after `StripPadding(&e)` the string `e` contains no `'='`, and
`Decode(e, &d)` returns true with `d` equal to `b`. -/
theorem Encode_StripPadding_Decode (b out0 out1 : List Nat) (hb : ∀ x ∈ b, x < 256)
    (hlen : b.length < 268435456) :
    ∃ e, Encode b out0 = some (true, e) ∧ padChar ∉ StripPadding e ∧
      Decode (StripPadding e) out1 = some (true, b) := by
  refine ⟨encodeSpec b, Encode_eq_spec b out0 (by omega), ?_, ?_⟩
  · rw [StripPadding_encodeSpec]
    exact fun hm => (encBody_mem b _ hm).2 rfl
  · rw [StripPadding_encodeSpec]
    exact Decode_encBody b out1 hb hlen

/-- Instance of C23 on the bytes `M a NUL = 0xff`, whose encoding ends in one `'='`. -/
theorem Encode_StripPadding_Decode_witness :
    (∀ x ∈ [77, 97, 0, 61, 255], x < 256) ∧ [77, 97, 0, 61, 255].length < 268435456 ∧
      ∃ e, Encode [77, 97, 0, 61, 255] [7] = some (true, e) ∧ padChar ∉ StripPadding e ∧
        Decode (StripPadding e) [] = some (true, [77, 97, 0, 61, 255]) :=
  ⟨by decide, by decide,
   Encode_StripPadding_Decode [77, 97, 0, 61, 255] [7] [] (by decide) (by decide)⟩

/-- C23 as stated fails on 2^28 zero bytes: `Encode` succeeds, the stripped
text has 357913942 characters, and on it `6 * n` in `DecodedLength` overflows
`int`, so `Decode` does not return true with the original bytes. -/
theorem Encode_StripPadding_Decode_overflow :
    ∃ e, Encode (List.replicate 268435456 0) [] = some (true, e) ∧
      (StripPadding e).length = 357913942 ∧
      Decode (StripPadding e) [] = none ∧
      Decode (StripPadding e) [] ≠ some (true, List.replicate 268435456 0) := by
  have hl : (encBody (List.replicate 268435456 0)).length = 357913942 := by
    rw [encBody_length, List.length_replicate]
    decide
  have hd : Decode (encBody (List.replicate 268435456 0)) [] = none := by
    unfold Decode
    rw [DecodedLengthStr_overflow _ (by omega) (by omega)]
    rfl
  refine ⟨encodeSpec (List.replicate 268435456 0), ?_, ?_, ?_, ?_⟩
  · exact Encode_eq_spec _ _ (by rw [List.length_replicate]; omega)
  · rw [StripPadding_encodeSpec]
    exact hl
  · rw [StripPadding_encodeSpec]
    exact hd
  · rw [StripPadding_encodeSpec, hd]
    exact fun h => Option.noConfusion h

end Base64

namespace Urho3D

/-! ## The deferred command queue -/

theorem foldl_AddDeferredCommand (kids : List Action) (t : DevServer) :
    kids.foldl DevServer.AddDeferredCommand t =
      { t with deferredCommand_ := t.deferredCommand_ ++ kids } := by
  induction kids generalizing t with
  | nil => simp
  | cons k kids ih => simp [List.foldl, ih, DevServer.AddDeferredCommand]

theorem runAction_eq (s : DevServer) (a : Action) :
    s.runAction a = { s with deferredCommand_ := s.deferredCommand_ ++ a.enqueues,
                             executed := s.executed ++ [a.id] } := by
  rw [DevServer.runAction, foldl_AddDeferredCommand]

theorem runAction_queue (s : DevServer) (a : Action) :
    (s.runAction a).deferredCommand_ = s.deferredCommand_ ++ a.enqueues := by
  rw [runAction_eq]

theorem runAction_executed (s : DevServer) (a : Action) :
    (s.runAction a).executed = s.executed ++ [a.id] := by
  rw [runAction_eq]

theorem runAction_simpleTexts (s : DevServer) (a : Action) :
    (s.runAction a).simpleTexts_ = s.simpleTexts_ := by
  rw [runAction_eq]

theorem runAction_commands (s : DevServer) (a : Action) :
    (s.runAction a).commands_ = s.commands_ := by
  rw [runAction_eq]

theorem drop_append_get {α : Type} (q ext : List α) (i : Nat) (h : i < q.length) :
    (q ++ ext).drop i = q.get ⟨i, h⟩ :: (q ++ ext).drop (i + 1) := by
  have hlt : i < (q ++ ext).length := by simp; omega
  rw [List.drop_eq_getElem_cons hlt, List.getElem_append_left h]
  rfl

/-- What the loop of `OnNewFrame` does from index `i` on when it has a result:
the queue only grows at its end, every closure from index `i` on of the final
queue is run, in queue order, and everything such a closure enqueues is in the
added part. -/
theorem drainLoop_spec (capacity i : Nat) (s : DevServer) :
    ∀ t, DevServer.drainLoop capacity i s = some t →
    ∃ ext, t.deferredCommand_ = s.deferredCommand_ ++ ext ∧
      t.executed = s.executed ++ (t.deferredCommand_.drop i).map Action.id ∧
      (∀ a ∈ t.deferredCommand_.drop i, ∀ b ∈ a.enqueues, b ∈ ext) ∧
      t.simpleTexts_ = s.simpleTexts_ ∧ t.commands_ = s.commands_ := by
  induction i, s using DevServer.drainLoop.induct capacity with
  | case1 i s h hc ih =>
    intro t ht
    rw [DevServer.drainLoop, dif_pos h, if_pos hc] at ht
    obtain ⟨ext, hq, he, hk, h1, h2⟩ := ih t ht
    rw [runAction_queue] at hq
    rw [runAction_executed] at he
    rw [runAction_simpleTexts] at h1
    rw [runAction_commands] at h2
    have hget : t.deferredCommand_.drop i
        = s.deferredCommand_.get ⟨i, h⟩ :: t.deferredCommand_.drop (i + 1) := by
      rw [hq, List.append_assoc]
      exact drop_append_get _ _ i h
    refine ⟨(s.deferredCommand_.get ⟨i, h⟩).enqueues ++ ext, ?_, ?_, ?_, h1, h2⟩
    · rw [hq, List.append_assoc]
    · rw [he, hget]
      simp
    · intro a ha b hb
      rw [hget] at ha
      rcases List.mem_cons.mp ha with ha | ha
      · subst ha
        exact List.mem_append_left _ hb
      · exact List.mem_append_right _ (hk a ha b hb)
  | case2 i s h hc =>
    intro t ht
    rw [DevServer.drainLoop, dif_pos h, if_neg hc] at ht
    exact Option.noConfusion ht
  | case3 i s h =>
    intro t ht
    rw [DevServer.drainLoop, dif_neg h] at ht
    have hts : s = t := Option.some.inj ht
    subst hts
    refine ⟨[], by simp, ?_, ?_, rfl, rfl⟩
    · rw [List.drop_eq_nil_of_le (by omega)]
      simp
    · rw [List.drop_eq_nil_of_le (by omega)]
      intro a ha
      simp at ha

/-- The loop of `OnNewFrame` on a queue of closures that enqueue nothing: it
has a result whatever the capacity is, the closures from index `i` on are run
in queue order and nothing else changes. -/
theorem drainLoop_simple (capacity i : Nat) (s : DevServer) :
    (∀ a ∈ s.deferredCommand_, a.enqueues = []) →
    DevServer.drainLoop capacity i s =
      some { s with executed := s.executed ++ (s.deferredCommand_.drop i).map Action.id } := by
  induction i, s using DevServer.drainLoop.induct capacity with
  | case1 i s h hc ih =>
    intro hs
    have hk : (s.deferredCommand_.get ⟨i, h⟩).enqueues = [] := hs _ (List.get_mem _ _ _)
    have hrun : s.runAction (s.deferredCommand_.get ⟨i, h⟩)
        = { s with executed := s.executed ++ [(s.deferredCommand_.get ⟨i, h⟩).id] } := by
      rw [runAction_eq, hk, List.append_nil]
    rw [DevServer.drainLoop, dif_pos h, if_pos hc]
    rw [hrun] at ih ⊢
    rw [ih hs]
    have hd := drop_append_get s.deferredCommand_ [] i h
    rw [List.append_nil] at hd
    simp only [hd, List.map_cons, List.append_assoc, List.singleton_append]
  | case2 i s h hc =>
    intro hs
    have hk : (s.deferredCommand_.get ⟨i, h⟩).enqueues = [] := hs _ (List.get_mem _ _ _)
    exact absurd (Or.inl (by rw [hk]; rfl)) hc
  | case3 i s h =>
    intro _
    rw [DevServer.drainLoop, dif_neg h, List.drop_eq_nil_of_le (by omega)]
    simp

theorem OnNewFrame_simple (capacity : Nat) (s : DevServer)
    (hs : ∀ a ∈ s.deferredCommand_, a.enqueues = []) :
    s.OnNewFrame capacity =
      some { s with deferredCommand_ := [],
                    executed := s.executed ++ s.deferredCommand_.map Action.id } := by
  rw [DevServer.OnNewFrame, drainLoop_simple capacity 0 s hs]
  rfl

/-- A drain of an empty queue runs nothing. -/
theorem OnNewFrame_empty (capacity : Nat) (s : DevServer) (hs : s.deferredCommand_ = []) :
    s.OnNewFrame capacity = some s := by
  rw [OnNewFrame_simple capacity s
    (by intro a ha; rw [hs] at ha; exact absurd ha (List.not_mem_nil _))]
  cases s with
  | mk t l k c q e =>
    simp only at hs
    subst hs
    simp

theorem run_append (s : DevServer) (l1 l2 : List QueueOp) :
    s.run (l1 ++ l2) = (s.run l1).bind fun t => t.run l2 := by
  induction l1 generalizing s with
  | nil => rfl
  | cons op l1 ih =>
    rw [List.cons_append, DevServer.run, DevServer.run]
    cases s.step op with
    | none => rfl
    | some t => exact ih t

/-- The state after a sequence of operations, started with any queue, when no
closure enqueues anything: the sequence has a result whatever the capacities
are. -/
theorem run_simple (ops : List QueueOp) : ∀ (s : DevServer),
    (∀ a ∈ s.deferredCommand_, a.enqueues = []) → (∀ a ∈ enqueuedActions ops, a.enqueues = []) →
    ∃ t, s.run ops = some t ∧
      t.executed =
        (if ops.any QueueOp.isDrain then
          s.executed ++ (s.deferredCommand_ ++ enqueuedActions (uptoLastDrain ops)).map Action.id
         else s.executed) ∧
      t.deferredCommand_ =
        (if ops.any QueueOp.isDrain then enqueuedActions (afterLastDrain ops)
         else s.deferredCommand_ ++ enqueuedActions ops) := by
  induction ops with
  | nil => intro s _ _; exact ⟨s, rfl, by simp [enqueuedActions]⟩
  | cons op ops ih =>
    intro s hs hops
    cases op with
    | enqueue c =>
      have hc : c.enqueues = [] := hops c (by simp [enqueuedActions])
      have hrest : ∀ a ∈ enqueuedActions ops, a.enqueues = [] :=
        fun a ha => hops a (by simp [enqueuedActions, ha])
      have hs1 : ∀ a ∈ (s.AddDeferredCommand c).deferredCommand_, a.enqueues = [] := by
        intro a ha
        simp only [DevServer.AddDeferredCommand, List.mem_append, List.mem_singleton] at ha
        rcases ha with ha | ha
        · exact hs a ha
        · rw [ha]; exact hc
      obtain ⟨t, ht, he, hq⟩ := ih (s.AddDeferredCommand c) hs1 hrest
      have hrun : s.run (QueueOp.enqueue c :: ops) = (s.AddDeferredCommand c).run ops := rfl
      refine ⟨t, by rw [hrun, ht], ?_, ?_⟩
      · rw [he]
        by_cases hd : ops.any QueueOp.isDrain = true
        · simp [hd, uptoLastDrain, enqueuedActions, DevServer.AddDeferredCommand,
            QueueOp.isDrain]
        · simp [hd, uptoLastDrain, enqueuedActions, DevServer.AddDeferredCommand,
            QueueOp.isDrain]
      · rw [hq]
        by_cases hd : ops.any QueueOp.isDrain = true
        · simp [hd, afterLastDrain, enqueuedActions, DevServer.AddDeferredCommand,
            QueueOp.isDrain]
        · simp [hd, afterLastDrain, enqueuedActions, DevServer.AddDeferredCommand,
            QueueOp.isDrain]
    | drain capacity =>
      have hrest : ∀ a ∈ enqueuedActions ops, a.enqueues = [] :=
        fun a ha => hops a (by simp [enqueuedActions, ha])
      have hstep := OnNewFrame_simple capacity s hs
      obtain ⟨t, ht, he, hq⟩ := ih
        { s with deferredCommand_ := [],
                 executed := s.executed ++ s.deferredCommand_.map Action.id }
        (by intro a ha; exact absurd ha (List.not_mem_nil _)) hrest
      have hrun : s.run (QueueOp.drain capacity :: ops)
          = (s.OnNewFrame capacity).bind fun t => t.run ops := rfl
      refine ⟨t, by rw [hrun, hstep]; exact ht, ?_, ?_⟩
      · rw [he]
        by_cases hd : ops.any QueueOp.isDrain = true
        · simp [hd, uptoLastDrain, enqueuedActions, QueueOp.isDrain]
        · simp [hd, uptoLastDrain, enqueuedActions, QueueOp.isDrain]
      · rw [hq]
        by_cases hd : ops.any QueueOp.isDrain = true
        · simp [hd, afterLastDrain, enqueuedActions, QueueOp.isDrain]
        · simp [hd, afterLastDrain, enqueuedActions, QueueOp.isDrain]

theorem enqueuedActions_append (l1 l2 : List QueueOp) :
    enqueuedActions (l1 ++ l2) = enqueuedActions l1 ++ enqueuedActions l2 := by
  induction l1 with
  | nil => rfl
  | cons op l1 ih => cases op <;> simp [enqueuedActions, ih]

theorem uptoLastDrain_of_no_drain (ops : List QueueOp) (h : ¬ (ops.any QueueOp.isDrain = true)) :
    uptoLastDrain ops = [] ∧ afterLastDrain ops = ops := by
  cases ops with
  | nil => exact ⟨rfl, rfl⟩
  | cons op ops =>
    simp only [List.any_cons, Bool.or_eq_true, not_or] at h
    simp [uptoLastDrain, afterLastDrain, h.1, h.2]

/-- The closures enqueued behind the last drain are among the closures enqueued. -/
theorem afterLastDrain_subset (l : List QueueOp) :
    ∀ x ∈ enqueuedActions (afterLastDrain l), x ∈ enqueuedActions l := by
  induction l with
  | nil => intro x hx; exact hx
  | cons op l ih =>
    intro x hx
    by_cases hd : l.any QueueOp.isDrain = true
    · have hx1 : x ∈ enqueuedActions (afterLastDrain l) := by
        simpa [afterLastDrain, hd] using hx
      have := ih x hx1
      cases op <;> simp [enqueuedActions, this]
    · cases op with
      | enqueue c => simpa [afterLastDrain, hd, QueueOp.isDrain] using hx
      | drain capacity => simpa [afterLastDrain, hd, QueueOp.isDrain, enqueuedActions] using hx

/-- C3: for every sequence of `AddDeferredCommand` (enqueue) and `OnNewFrame`
(drain) operations on a server whose queue is empty at the start and whose
closures do not themselves enqueue, whatever the capacity of the vector is at
the drains: the sequence has a result; at every moment the closures run so far
are exactly those enqueued before the last drain, once each and in the order
they were enqueued, and the queue holds exactly those enqueued since; every
drain runs exactly the closures enqueued since the drain before it (so each
closure is run by the first drain that follows its enqueue), and the queue is
empty after every drain. -/
theorem deferred_queue_fifo (s : DevServer) (ops : List QueueOp)
    (hs : s.deferredCommand_ = [])
    (hops : ∀ a ∈ enqueuedActions ops, a.enqueues = []) :
    ∃ t, s.run ops = some t ∧
      t.executed = s.executed ++ (enqueuedActions (uptoLastDrain ops)).map Action.id ∧
      t.deferredCommand_ = enqueuedActions (afterLastDrain ops) ∧
      (∀ pre capacity post, ops = pre ++ QueueOp.drain capacity :: post →
        ∃ t1 t2, s.run pre = some t1 ∧ s.run (pre ++ [QueueOp.drain capacity]) = some t2 ∧
          t2.executed = t1.executed ++ (enqueuedActions (afterLastDrain pre)).map Action.id ∧
          t2.deferredCommand_ = []) := by
  have hs0 : ∀ a ∈ s.deferredCommand_, a.enqueues = [] := by
    intro a ha; rw [hs] at ha; simp at ha
  have key : ∀ l : List QueueOp, (∀ a ∈ enqueuedActions l, a.enqueues = []) →
      ∃ t, s.run l = some t ∧
        t.executed = s.executed ++ (enqueuedActions (uptoLastDrain l)).map Action.id ∧
        t.deferredCommand_ = enqueuedActions (afterLastDrain l) := by
    intro l hl
    obtain ⟨t, ht, he, hq⟩ := run_simple l s hs0 hl
    refine ⟨t, ht, ?_, ?_⟩
    · by_cases hd : l.any QueueOp.isDrain = true
      · rw [if_pos hd, hs, List.nil_append] at he
        exact he
      · rw [if_neg hd] at he
        rw [he, (uptoLastDrain_of_no_drain l hd).1]
        simp [enqueuedActions]
    · by_cases hd : l.any QueueOp.isDrain = true
      · rw [if_pos hd] at hq
        exact hq
      · rw [if_neg hd, hs, List.nil_append] at hq
        rw [hq, (uptoLastDrain_of_no_drain l hd).2]
  obtain ⟨t, ht, he, hq⟩ := key ops hops
  refine ⟨t, ht, he, hq, ?_⟩
  intro pre capacity post hsplit
  have hpre : ∀ a ∈ enqueuedActions pre, a.enqueues = [] := by
    intro a ha
    apply hops a
    rw [hsplit, enqueuedActions_append]
    exact List.mem_append_left _ ha
  obtain ⟨t1, ht1, -, hq1⟩ := key pre hpre
  have hall : ∀ a ∈ t1.deferredCommand_, a.enqueues = [] := by
    intro a ha
    rw [hq1] at ha
    exact hpre a (afterLastDrain_subset pre a ha)
  have hrun : s.run (pre ++ [QueueOp.drain capacity]) = t1.OnNewFrame capacity := by
    rw [run_append, ht1, Option.some_bind]
    show (t1.OnNewFrame capacity).bind (fun t => some t) = _
    cases t1.OnNewFrame capacity <;> rfl
  refine ⟨t1, _, ht1, by rw [hrun, OnNewFrame_simple capacity t1 hall], ?_, rfl⟩
  show t1.executed ++ t1.deferredCommand_.map Action.id = _
  rw [hq1]

/-- Instance of C3: closures 1 and 2 are enqueued, a drain runs them, closure 3
is enqueued and run by the second drain, closure 4 is still queued. -/
theorem deferred_queue_fifo_witness :
    DevServer.empty.deferredCommand_ = [] ∧
      (∀ a ∈ enqueuedActions sampleOps, a.enqueues = []) ∧
      (DevServer.empty.run sampleOps).map (fun t => (t.executed, t.deferredCommand_.map Action.id))
        = some ([1, 2, 3], [4]) := by
  have hops : ∀ a ∈ enqueuedActions sampleOps, a.enqueues = [] := by
    intro a ha
    simp only [sampleOps, enqueuedActions, List.mem_cons, List.mem_singleton, List.not_mem_nil,
      or_false] at ha
    rcases ha with ha | ha | ha | ha <;> rw [ha] <;> rfl
  obtain ⟨t, ht, he, hq, -⟩ := deferred_queue_fifo DevServer.empty sampleOps rfl hops
  refine ⟨rfl, hops, ?_⟩
  rw [ht, Option.map_some', he, hq]
  rfl

theorem handleGet_skip (webFile : Str → Str) (all : List DevServerHandler) (s : DevServer)
    (uriList : List Str) (pre rest : List DevServerHandler)
    (hpre : ∀ g ∈ pre, g.Handles s uriList = false) :
    DevServer.handleGet webFile all s uriList (pre ++ rest) =
      DevServer.handleGet webFile all s uriList rest := by
  induction pre with
  | nil => rfl
  | cons g pre ih =>
    have hg : g.Handles s uriList = false := hpre g (by simp)
    have hrest : ∀ g1 ∈ pre, g1.Handles s uriList = false := fun g1 h1 => hpre g1 (by simp [h1])
    rw [List.cons_append, DevServer.handleGet, hg, ih hrest]
    simp

theorem BeginRequest_get (webFile : Str → Str) (handlers : List DevServerHandler) (s : DevServer)
    (req : Request) (hget : req.request_method = lit "GET")
    (hroot : ¬ (req.uri.isEmpty ∨ req.uri = lit "/")) :
    DevServer.BeginRequest webFile handlers s req =
      (DevServer.handleGet webFile handlers s (Split req.uri slash) handlers).map
        (fun r => (s, r.1, r.2)) := by
  unfold DevServer.BeginRequest
  simp only [hget, if_true, hroot, if_false]

/-- C5: for every handler list and every GET request on a non-root path, if the
first handler in registration order whose `Handles` predicate is true is
HTML-emitting (and its `EmitHTML` returns `html`), then what is sent is exactly
the `200` / `text/html` header followed by `html`, whatever the later handlers
are, also when they report that they handle the path. -/
theorem BeginRequest_first_html (webFile : Str → Str) (pre post : List DevServerHandler)
    (h : DevServerHandler) (s : DevServer) (req : Request) (html : Str)
    (hget : req.request_method = lit "GET")
    (hroot : ¬ (req.uri.isEmpty ∨ req.uri = lit "/"))
    (hpre : ∀ g ∈ pre, g.Handles s (Split req.uri slash) = false)
    (hh : h.Handles s (Split req.uri slash) = true)
    (hkind : h.EmitData = none)
    (hemit : h.EmitHTML s (DevServer.FillTemplate webFile s (pre ++ h :: post))
      (Split req.uri slash) = some html) :
    DevServer.BeginRequest webFile (pre ++ h :: post) s req =
      some (s, some (lit "HTTP/1.1 200 OK\r\nContent-type: text/html\r\n\r\n" ++ html), 1) := by
  rw [BeginRequest_get webFile _ s req hget hroot, handleGet_skip _ _ _ _ _ _ hpre,
    DevServer.handleGet, hh]
  simp only [if_true, hkind, hemit]
  rfl

/-- Instance of C5: handlers A, B, C registered in this order, A and B both
handle `/x`; the response to `GET /x` is the page of A. -/
theorem BeginRequest_first_html_witness :
    sampleGet.request_method = lit "GET" ∧ ¬ (sampleGet.uri.isEmpty ∨ sampleGet.uri = lit "/") ∧
      (sampleHtmlHandler (lit "x") (lit "page of A")).Handles DevServer.empty
        (Split sampleGet.uri slash) = true ∧
      (sampleHtmlHandler (lit "x") (lit "page of B")).Handles DevServer.empty
        (Split sampleGet.uri slash) = true ∧
      DevServer.BeginRequest noWebFiles
          ([] ++ sampleHtmlHandler (lit "x") (lit "page of A") ::
            [sampleHtmlHandler (lit "x") (lit "page of B"),
             sampleHtmlHandler (lit "y") (lit "page of C")])
          DevServer.empty sampleGet =
        some (DevServer.empty,
          some (lit "HTTP/1.1 200 OK\r\nContent-type: text/html\r\n\r\n" ++ lit "page of A"), 1) :=
  ⟨by decide, by decide, by decide, by decide,
    BeginRequest_first_html noWebFiles [] _ (sampleHtmlHandler (lit "x") (lit "page of A"))
      DevServer.empty sampleGet (lit "page of A") (by decide) (by decide)
      (by intro g hg; simp at hg) (by decide) rfl rfl⟩

/-- C6 (amended): for every GET request on a non-root path, if the first
handler in registration order whose `Handles` predicate is true is a binary
(data) handler and its `EmitData` returns false, the search goes on: the
later handlers are tried in registration order exactly as if that handler did
not handle the path. -/
theorem BeginRequest_data_decline_continues (webFile : Str → Str)
    (pre post : List DevServerHandler) (h : DevServerHandler) (s : DevServer) (req : Request)
    (emitData : DevServer → List Str → Option (Option (Str × Str)))
    (hget : req.request_method = lit "GET")
    (hroot : ¬ (req.uri.isEmpty ∨ req.uri = lit "/"))
    (hpre : ∀ g ∈ pre, g.Handles s (Split req.uri slash) = false)
    (hh : h.Handles s (Split req.uri slash) = true)
    (hkind : h.EmitData = some emitData)
    (hfail : emitData s (Split req.uri slash) = some none) :
    DevServer.BeginRequest webFile (pre ++ h :: post) s req =
      (DevServer.handleGet webFile (pre ++ h :: post) s (Split req.uri slash) post).map
        (fun r => (s, r.1, r.2)) := by
  rw [BeginRequest_get webFile _ s req hget hroot, handleGet_skip _ _ _ _ _ _ hpre,
    DevServer.handleGet, hh]
  simp only [if_true, hkind, hfail]

/-- Instance of C6 (amended): a data handler that handles `/x` and declines,
followed by an HTML handler that handles `/x`. -/
theorem BeginRequest_data_decline_continues_witness :
    sampleGet.request_method = lit "GET" ∧ ¬ (sampleGet.uri.isEmpty ∨ sampleGet.uri = lit "/") ∧
      (sampleFailingDataHandler (lit "x")).Handles DevServer.empty (Split sampleGet.uri slash) = true ∧
      DevServer.BeginRequest noWebFiles
          ([] ++ sampleFailingDataHandler (lit "x") :: [sampleHtmlHandler (lit "x") (lit "page")])
          DevServer.empty sampleGet =
        (DevServer.handleGet noWebFiles
          ([] ++ sampleFailingDataHandler (lit "x") :: [sampleHtmlHandler (lit "x") (lit "page")])
          DevServer.empty (Split sampleGet.uri slash)
          [sampleHtmlHandler (lit "x") (lit "page")]).map (fun r => (DevServer.empty, r.1, r.2)) :=
  ⟨by decide, by decide, by decide,
    BeginRequest_data_decline_continues noWebFiles [] _ (sampleFailingDataHandler (lit "x"))
      DevServer.empty sampleGet (fun _ _ => some none) (by decide) (by decide)
      (by intro g hg; simp at hg) (by decide) rfl rfl⟩

/-- C6 as stated fails: the first handler that handles `/x` is a data handler
whose `EmitData` returns false, and yet the later HTML handler is consulted and
its page is the response. -/
theorem BeginRequest_data_decline_later_page :
    (sampleFailingDataHandler (lit "x")).Handles DevServer.empty (Split sampleGet.uri slash) = true ∧
      (sampleFailingDataHandler (lit "x")).EmitData.map
        (fun emitData => emitData DevServer.empty (Split sampleGet.uri slash)) = some (some none) ∧
      (DevServer.BeginRequest noWebFiles
          [sampleFailingDataHandler (lit "x"), sampleHtmlHandler (lit "x") (lit "page")]
          DevServer.empty sampleGet).map (fun r => r.2) =
        some (some (lit "HTTP/1.1 200 OK\r\nContent-type: text/html\r\n\r\n" ++ lit "page"), 1) := by
  decide

/-! ## Published items and commands -/

theorem splitFrom_no_sep (sep : Nat) (rest : Str) : ∀ cur : Str, sep ∉ cur →
    ∀ seg ∈ splitFrom sep rest cur, sep ∉ seg := by
  induction rest with
  | nil =>
    intro cur hcur seg hseg
    unfold splitFrom at hseg
    split at hseg
    · simp at hseg
    · rw [List.mem_singleton] at hseg
      rw [hseg]; exact hcur
  | cons c rest ih =>
    intro cur hcur seg hseg
    unfold splitFrom at hseg
    by_cases hc : c = sep
    · rw [if_pos hc] at hseg
      split at hseg
      · exact ih [] (by simp) seg hseg
      · rcases List.mem_cons.mp hseg with h | h
        · rw [h]; exact hcur
        · exact ih [] (by simp) seg h
    · rw [if_neg hc] at hseg
      refine ih (cur ++ [c]) ?_ seg hseg
      intro hmem
      rcases List.mem_append.mp hmem with h | h
      · exact hcur h
      · rw [List.mem_singleton] at h
        exact hc h.symm

/-- No segment of a split path contains the separator. -/
theorem Split_no_sep (u : Str) (sep : Nat) : ∀ seg ∈ Split u sep, sep ∉ seg :=
  splitFrom_no_sep sep u [] (by simp)

theorem toLowerByte_slash (c : Nat) (h : toLowerByte c = slash) : c = slash := by
  unfold toLowerByte slash at *
  split at h <;> omega

/-- A string that starts with `'/'` differs, also up to case, from every string without `'/'`. -/
theorem equalsNoCase_slash (t seg : Str) (h : slash ∉ seg) :
    equalsNoCase (slash :: t) seg = false := by
  unfold equalsNoCase
  cases seg with
  | nil => simp
  | cons c seg =>
    have hc : c ≠ slash := fun e => h (by simp [e])
    have hl : toLowerByte c ≠ slash := fun e => hc (toLowerByte_slash c e)
    have hs : toLowerByte slash = slash := by decide
    simp only [List.map_cons, hs]
    rw [beq_eq_false_iff_ne]
    intro e
    exact hl (List.cons.inj e).1.symm

theorem mapInsert_keys (m : List (Str × StaticItem)) (key : Str) (v : StaticItem) (P : Str → Prop)
    (hm : ∀ e ∈ m, P e.1) (hkey : P key) : ∀ e ∈ mapInsert m key v, P e.1 := by
  intro e he
  unfold mapInsert at he
  split at he
  · rw [List.mem_map] at he
    obtain ⟨e0, he0, rfl⟩ := he
    split
    · exact hkey
    · exact hm e0 he0
  · rcases List.mem_append.mp he with h | h
    · exact hm e h
    · rw [List.mem_singleton] at h
      rw [h]; exact hkey

/-- Every key of the published items starts with `'/'`. -/
theorem publishAll_keys (items : List (Str × Str × Str)) :
    ∀ e ∈ (publishAll items).simpleTexts_, ∃ t, e.1 = slash :: t := by
  have key : ∀ (l : List (Str × Str × Str)) (s : DevServer),
      (∀ e ∈ s.simpleTexts_, ∃ t, e.1 = slash :: t) →
      ∀ e ∈ (l.foldl (fun s item => s.Publish item.1 item.2.1 item.2.2) s).simpleTexts_,
        ∃ t, e.1 = slash :: t := by
    intro l
    induction l with
    | nil => intro s hs; exact hs
    | cons item l ih =>
      intro s hs
      apply ih
      intro e he
      exact mapInsert_keys s.simpleTexts_ _ _ (fun k => ∃ t, k = slash :: t) hs ⟨item.2.1, rfl⟩ e he
  exact key items DevServer.empty (by intro e he; simp [DevServer.empty] at he)

theorem mapFind_none (m : List (Str × StaticItem)) (key : Str) (h : ∀ e ∈ m, e.1 ≠ key) :
    mapFind m key = none := by
  unfold mapFind
  rw [List.find?_eq_none]
  intro e he
  simpa using h e he

/-- C7, the defect: `Publish` stores an item under `"/" + title`, while
`SimpleHandler::Handles` looks up the first path segment, which never contains
`'/'`.  After `Publish("My Report", "hello")` the handler handles neither
`/My_Report` nor `/My Report`, and after any calls of `Publish` it handles no
path at all. -/
theorem SimpleHandler_never_handles :
    DevServer.SimpleHandler.Handles
        (DevServer.empty.Publish (lit "12:00") (lit "My Report") (lit "hello"))
        (Split (lit "/My_Report") slash) = false ∧
      DevServer.SimpleHandler.Handles
        (DevServer.empty.Publish (lit "12:00") (lit "My Report") (lit "hello"))
        (Split (lit "/My Report") slash) = false ∧
      ∀ (items : List (Str × Str × Str)) (u : Str),
        DevServer.SimpleHandler.Handles (publishAll items) (Split u slash) = false := by
  refine ⟨by decide, by decide, ?_⟩
  intro items u
  have hseg := Split_no_sep u slash
  cases hsplit : Split u slash with
  | nil => rfl
  | cons uri0 rest =>
    have h0 : slash ∉ uri0 := hseg uri0 (by rw [hsplit]; simp)
    show (mapFind (publishAll items).simpleTexts_ uri0).isSome = false
    rw [mapFind_none]
    · rfl
    · intro e he heq
      obtain ⟨t, ht⟩ := publishAll_keys items e he
      rw [heq] at ht
      rw [ht] at h0
      exact h0 (by simp)

/-- Every `url_` of the registered commands starts with `'/'`. -/
theorem registerAll_urls (regs : List (Str × Str × Action)) :
    ∀ com ∈ (registerAll regs).commands_, ∃ t, com.url_ = slash :: t := by
  have key : ∀ (l : List (Str × Str × Action)) (s : DevServer),
      (∀ com ∈ s.commands_, ∃ t, com.url_ = slash :: t) →
      ∀ com ∈ (l.foldl (fun s reg => s.RegisterCommand reg.1 reg.2.1 reg.2.2) s).commands_,
        ∃ t, com.url_ = slash :: t := by
    intro l
    induction l with
    | nil => intro s hs; exact hs
    | cons reg l ih =>
      intro s hs
      apply ih
      intro com hcom
      simp only [DevServer.RegisterCommand, List.mem_append, List.mem_singleton] at hcom
      rcases hcom with h | h
      · exact hs com h
      · rw [h]
        exact ⟨ReplaceChar (List.drop 1 (lit "/Commands/") ++ reg.1) 32 95, rfl⟩
  exact key regs DevServer.empty (by intro e he; simp [DevServer.empty] at he)

theorem handlesPostLoop_never (uri : List Str) (huri : ∀ seg ∈ uri, slash ∉ seg)
    (coms : List CommandItem) (hc : ∀ com ∈ coms, ∃ t, com.url_ = slash :: t) :
    DevServer.CommandHandler.handlesPostLoop uri coms ≠ some true := by
  induction coms with
  | nil => simp [DevServer.CommandHandler.handlesPostLoop]
  | cons com coms ih =>
    unfold DevServer.CommandHandler.handlesPostLoop
    cases hget : uri.get? 1 with
    | none => simp
    | some uri1 =>
      obtain ⟨t, ht⟩ := hc com (by simp)
      have hmem : uri1 ∈ uri := List.get?_mem hget
      have hne : equalsNoCase com.url_ uri1 = false := by
        rw [ht]; exact equalsNoCase_slash t uri1 (huri uri1 hmem)
      simp only [hne]
      exact ih (fun c h => hc c (by simp [h]))

theorem doPostLoop_unchanged (server : DevServer) (uri : List Str)
    (huri : ∀ seg ∈ uri, slash ∉ seg)
    (coms : List CommandItem) (hc : ∀ com ∈ coms, ∃ t, com.url_ = slash :: t) :
    ∀ r, DevServer.CommandHandler.doPostLoop server uri coms = some r → r = server := by
  induction coms with
  | nil =>
    intro r hr
    simp only [DevServer.CommandHandler.doPostLoop, Option.some.injEq] at hr
    exact hr.symm
  | cons com coms ih =>
    intro r hr
    unfold DevServer.CommandHandler.doPostLoop at hr
    cases hget : uri.get? 0 with
    | none => rw [hget] at hr; simp at hr
    | some uri0 =>
      rw [hget] at hr
      obtain ⟨t, ht⟩ := hc com (by simp)
      have hmem : uri0 ∈ uri := List.get?_mem hget
      have hne : equalsNoCase com.url_ uri0 = false := by
        rw [ht]; exact equalsNoCase_slash t uri0 (huri uri0 hmem)
      simp only [hne] at hr
      exact ih (fun c h => hc c (by simp [h])) r hr

/-- C8, the defect: `RegisterCommand` stores the whole target path
`"/Commands/" + name` in `url_`, while `CommandHandler::HandlesPost` compares it
with the single segment `uri[1]` and `DoPost` with `uri[0]`.  After
`RegisterCommand("Dump Script Header", "", cmd)` a POST to
`/Commands/Dump_Script_Header` is not matched and `DoPost` appends nothing; after
any calls of `RegisterCommand`, `HandlesPost` is true for no path and `DoPost`
changes nothing. -/
theorem CommandHandler_never_matches :
    DevServer.CommandHandler.HandlesPost
        (DevServer.empty.RegisterCommand (lit "Dump Script Header") [] (Action.mk 1 []))
        (Split (lit "/Commands/Dump_Script_Header") slash) = some false ∧
      (DevServer.CommandHandler.DoPost
        (DevServer.empty.RegisterCommand (lit "Dump Script Header") [] (Action.mk 1 []))
        (Split (lit "/Commands/Dump_Script_Header") slash) []).map
          (fun r => r.deferredCommand_.length) = some 0 ∧
      ∀ (regs : List (Str × Str × Action)) (u postData : Str),
        DevServer.CommandHandler.HandlesPost (registerAll regs) (Split u slash) ≠ some true ∧
        ∀ r, DevServer.CommandHandler.DoPost (registerAll regs) (Split u slash) postData = some r →
          r = registerAll regs := by
  refine ⟨by decide, by decide, ?_⟩
  intro regs u postData
  exact ⟨handlesPostLoop_never _ (Split_no_sep u slash) _ (registerAll_urls regs),
    doPostLoop_unchanged _ _ (Split_no_sep u slash) _ (registerAll_urls regs)⟩

/-- Characters passed over after a replacement. -/
theorem replaceFrom_skip (tok val : Str) (rest : Str) : ∀ xs : Str,
    replaceFrom tok val xs.length (xs ++ rest) = replaceFrom tok val 0 rest := by
  intro xs
  induction xs with
  | nil => simp
  | cons x xs ih =>
    show replaceFrom tok val (xs.length + 1) (x :: (xs ++ rest)) = _
    rw [replaceFrom]
    exact ih

/-- A match at the head of the text is replaced and the scan resumes behind it. -/
theorem replaceFrom_match (tok val rest : Str) (htok : tok ≠ []) :
    replaceFrom tok val 0 (tok ++ rest) = val ++ replaceFrom tok val 0 rest := by
  cases tok with
  | nil => exact absurd rfl htok
  | cons t ts =>
    show replaceFrom (t :: ts) val 0 (t :: (ts ++ rest)) = _
    rw [replaceFrom]
    have hp : (t :: ts).isPrefixOf (t :: (ts ++ rest)) = true := by
      rw [List.isPrefixOf_iff_prefix]
      exact List.prefix_append (t :: ts) rest
    rw [if_pos hp]
    have hl : (t :: ts).length - 1 = ts.length := by simp
    rw [hl, replaceFrom_skip]

/-- The function `occursIn` decides whether the token is an infix of the text. -/
theorem occursIn_eq_true_iff (tok : Str) : ∀ s : Str, occursIn tok s = true ↔ tok <:+: s := by
  intro s
  induction s with
  | nil =>
    rw [occursIn, List.isPrefixOf_iff_prefix, List.prefix_nil, List.infix_nil]
  | cons c s ih =>
    rw [occursIn, Bool.or_eq_true, List.isPrefixOf_iff_prefix, ih, List.infix_cons_iff]

/-- No occurrence of a non-empty token begins in the empty text. -/
theorem inertFor_nil (t : Str) (ht : t ≠ []) : inertFor t [] = true := by
  cases t with
  | nil => exact absurd rfl ht
  | cons _ _ => rfl

/-- No occurrence begins in a text if none begins at its head nor behind it. -/
theorem inertFor_cons (t : Str) (c : Nat) (r : Str) :
    inertFor t (c :: r)
      = (!t.isPrefixOf (c :: r) && !(c :: r).isPrefixOf t && inertFor t r) := by
  simp only [inertFor, occursIn, endsInBeginningOf]
  cases t.isPrefixOf (c :: r) <;> cases (c :: r).isPrefixOf t <;> cases occursIn t r <;>
    cases endsInBeginningOf t r <;> rfl

/-- A token does not match at the head of a text in which no occurrence of it begins. -/
theorem isPrefixOf_inert (t : Str) (c : Nat) (r rest : Str) (h : inertFor t (c :: r) = true) :
    t.isPrefixOf (c :: (r ++ rest)) = false := by
  rw [inertFor_cons, Bool.and_eq_true, Bool.and_eq_true, Bool.not_eq_true', Bool.not_eq_true'] at h
  rw [Bool.eq_false_iff]
  intro hpre
  rw [List.isPrefixOf_iff_prefix] at hpre
  rcases List.prefix_or_prefix_of_prefix hpre (List.prefix_append (c :: r) rest) with h3 | h3
  · rw [← List.isPrefixOf_iff_prefix, h.1.1] at h3
    exact Bool.false_ne_true h3
  · rw [← List.isPrefixOf_iff_prefix, h.1.2] at h3
    exact Bool.false_ne_true h3

/-- A text in which no occurrence of the token begins is copied by the scan. -/
theorem replaceFrom_inert (t v rest : Str) : ∀ w : Str, inertFor t w = true →
    replaceFrom t v 0 (w ++ rest) = w ++ replaceFrom t v 0 rest := by
  intro w
  induction w with
  | nil => intro _; rfl
  | cons c w ih =>
    intro h
    have hp := isPrefixOf_inert t c w rest h
    rw [inertFor_cons, Bool.and_eq_true] at h
    show replaceFrom t v 0 (c :: (w ++ rest)) = _
    rw [replaceFrom, if_neg (by rw [hp]; exact Bool.false_ne_true), ih h.2]
    rfl

/-- Whether a token occurs in a text does not depend on a beginning of the text
in which no occurrence begins. -/
theorem occursIn_inert (t rest : Str) : ∀ w : Str, inertFor t w = true →
    occursIn t (w ++ rest) = occursIn t rest := by
  intro w
  induction w with
  | nil => intro _; rfl
  | cons c w ih =>
    intro h
    have hp := isPrefixOf_inert t c w rest h
    rw [inertFor_cons, Bool.and_eq_true] at h
    show occursIn t (c :: (w ++ rest)) = _
    rw [occursIn, hp, Bool.false_or, ih h.2]

/-- No occurrence of a token begins in two texts written one after the other if
none begins in either. -/
theorem inertFor_append (t b : Str) (hb : inertFor t b = true) : ∀ a : Str,
    inertFor t a = true → inertFor t (a ++ b) = true := by
  intro a
  induction a with
  | nil => intro _; exact hb
  | cons c a ih =>
    intro h
    have hp := isPrefixOf_inert t c a b h
    rw [inertFor_cons, Bool.and_eq_true, Bool.and_eq_true, Bool.not_eq_true',
      Bool.not_eq_true'] at h
    show inertFor t (c :: (a ++ b)) = true
    rw [inertFor_cons, Bool.and_eq_true, Bool.and_eq_true, Bool.not_eq_true', Bool.not_eq_true']
    refine ⟨⟨hp, ?_⟩, ih h.2⟩
    rw [Bool.eq_false_iff]
    intro hpre
    rw [List.isPrefixOf_iff_prefix] at hpre
    have h3 : (c :: a) <+: t := (List.prefix_append (c :: a) b).trans hpre
    rw [← List.isPrefixOf_iff_prefix, h.1.2] at h3
    exact Bool.false_ne_true h3

/-- A text without the token, followed by a text in which no occurrence begins
and whose first character is not one of the token: no occurrence begins in the
two together. -/
theorem inertFor_append_sep (t : Str) (c : Nat) (l : Str) (hc : c ∉ t)
    (hl : inertFor t (c :: l) = true) : ∀ v : Str, occursIn t v = false →
    inertFor t (v ++ c :: l) = true := by
  intro v
  induction v with
  | nil => intro _; exact hl
  | cons x v ih =>
    intro h
    rw [occursIn, Bool.or_eq_false_iff] at h
    show inertFor t (x :: (v ++ c :: l)) = true
    rw [inertFor_cons, Bool.and_eq_true, Bool.and_eq_true, Bool.not_eq_true', Bool.not_eq_true']
    refine ⟨⟨?_, ?_⟩, ih h.2⟩
    · rw [Bool.eq_false_iff]
      intro hpre
      rw [List.isPrefixOf_iff_prefix] at hpre
      rcases List.prefix_or_prefix_of_prefix hpre (List.prefix_append (x :: v) (c :: l))
        with h3 | h3
      · rw [← List.isPrefixOf_iff_prefix, h.1] at h3
        exact Bool.false_ne_true h3
      · obtain ⟨t2, rfl⟩ := h3
        have h4 : t2 <+: c :: l := (List.prefix_append_right_inj (x :: v)).1 hpre
        cases t2 with
        | nil =>
          rw [List.append_nil] at h
          have h5 : (x :: v).isPrefixOf (x :: v) = true := by
            rw [List.isPrefixOf_iff_prefix]
          rw [h5] at h
          exact Bool.noConfusion h.1
        | cons y t2 =>
          have h5 : y = c := by
            obtain ⟨r, hr⟩ := h4
            exact (List.cons.inj hr).1
          exact hc (by rw [← h5]; simp)
    · rw [Bool.eq_false_iff]
      intro hpre
      rw [List.isPrefixOf_iff_prefix] at hpre
      exact hc (hpre.subset (by simp))

/-- A text in which no occurrence of a non-empty token begins is not the token. -/
theorem ne_of_inertFor (t v : Str) (ht : t ≠ []) (h : inertFor t v = true) : v ≠ t := by
  intro e
  subst e
  cases v with
  | nil => exact ht rfl
  | cons c v =>
    rw [inertFor_cons, Bool.and_eq_true, Bool.and_eq_true, Bool.not_eq_true'] at h
    have h5 : (c :: v).isPrefixOf (c :: v) = true := by
      rw [List.isPrefixOf_iff_prefix]
    rw [h5] at h
    exact Bool.noConfusion h.1.1

/-- The engine's `Replace` on a text given by pieces each of which is the token
or a text in which no occurrence of the token begins: exactly the pieces that
are the token are replaced. -/
theorem Replace_concatAll (t v : Str) (ht : t ≠ []) : ∀ pieces : List Str,
    (∀ p ∈ pieces, p = t ∨ inertFor t p = true) →
    Replace (concatAll pieces) t v
      = concatAll (pieces.map (fun p => if p = t then v else p)) := by
  have hne : t.isEmpty = false := by
    cases t with
    | nil => exact absurd rfl ht
    | cons _ _ => rfl
  have key : ∀ pieces : List Str, (∀ p ∈ pieces, p = t ∨ inertFor t p = true) →
      replaceFrom t v 0 (concatAll pieces)
        = concatAll (pieces.map (fun p => if p = t then v else p)) := by
    intro pieces
    induction pieces with
    | nil => intro _; rfl
    | cons p rest ih =>
      intro h
      have hrest := ih (fun q hq => h q (List.mem_cons_of_mem _ hq))
      show replaceFrom t v 0 (p ++ concatAll rest) = _
      rw [List.map_cons, concatAll]
      by_cases hp : p = t
      · rw [if_pos hp, hp, replaceFrom_match t v _ ht, hrest]
      · rw [if_neg hp]
        rcases h p (List.mem_cons_self _ _) with h1 | h1
        · exact absurd h1 hp
        · rw [replaceFrom_inert t v _ p h1, hrest]
  intro pieces h
  rw [Replace, hne]
  exact key pieces h

/-- The substitution of an empty list leaves a piece as it is. -/
theorem substPiece_nil (p : Str) : substPiece [] p = p := rfl

/-- The substitution of a list whose first token is the piece. -/
theorem substPiece_cons_eq (t v : Str) (rest : List (Str × Str)) :
    substPiece ((t, v) :: rest) t = v := by
  simp [substPiece]

/-- The substitution of a list whose first token is not the piece. -/
theorem substPiece_cons_ne (t v : Str) (rest : List (Str × Str)) (p : Str) (hne : p ≠ t) :
    substPiece ((t, v) :: rest) p = substPiece rest p := by
  have h : ((t, v).1 == p) = false := by
    rw [beq_eq_false_iff_ne]
    exact fun e => hne e.symm
  simp only [substPiece, List.find?_cons, h]

/-- A text in which no occurrence of any token of a list begins is left as it
is by the substitution of the list. -/
theorem substPiece_inert : ∀ (items : List (Str × Str)) (v : Str),
    (∀ e ∈ items, e.1 ≠ [] ∧ inertFor e.1 v = true) → substPiece items v = v := by
  intro items
  induction items with
  | nil => intro v _; rfl
  | cons e rest ih =>
    intro v h
    obtain ⟨t, w⟩ := e
    have h1 := h (t, w) (List.mem_cons_self _ _)
    rw [substPiece_cons_ne t w rest v (ne_of_inertFor t v h1.1 h1.2)]
    exact ih v (fun e he => h e (List.mem_cons_of_mem _ he))

/-- Whether a piece fits a list of tokens depends on the members of the list only. -/
theorem fitsTokens_of_subset (toks1 toks2 : List Str) (h : ∀ t ∈ toks2, t ∈ toks1) (p : Str)
    (hp : fitsTokens toks1 p = true) : fitsTokens toks2 p = true := by
  simp only [fitsTokens, List.all_eq_true] at hp ⊢
  exact fun t ht => hp t (h t ht)

/-- A piece that fits a list of tokens is a given token of the list, or no
occurrence of that token begins in it. -/
theorem fitsTokens_mem (toks : List Str) (p t : Str) (hp : fitsTokens toks p = true)
    (ht : t ∈ toks) : p = t ∨ inertFor t p = true := by
  simp only [fitsTokens, List.all_eq_true, Bool.or_eq_true, beq_iff_eq] at hp
  exact hp t ht

/-- Substitutions applied one after the other to a text given by pieces that
fit their tokens, each value being a text in which no occurrence of a later
token begins: every piece that is a token is replaced by the value of the first
entry with that token, and nothing else changes. -/
theorem foldl_Replace_concatAll : ∀ (items : List (Str × Str)) (pieces : List Str),
    (∀ e ∈ items, e.1 ≠ []) →
    items.Pairwise (fun e e2 => inertFor e2.1 e.2 = true) →
    (∀ p ∈ pieces, fitsTokens (items.map Prod.fst) p = true) →
    items.foldl (fun t e => Replace t e.1 e.2) (concatAll pieces)
      = concatAll (pieces.map (substPiece items)) := by
  intro items
  induction items with
  | nil =>
    intro pieces _ _ _
    have : pieces.map (substPiece []) = pieces := by
      rw [List.map_congr_left (fun p _ => substPiece_nil p)]
      simp
    rw [this]
    rfl
  | cons e rest ih =>
    intro pieces hne hpw hfit
    obtain ⟨t, v⟩ := e
    rw [List.pairwise_cons] at hpw
    have ht : t ≠ [] := hne (t, v) (List.mem_cons_self _ _)
    have hrestne : ∀ e ∈ rest, e.1 ≠ [] := fun e he => hne e (List.mem_cons_of_mem _ he)
    have hv : ∀ e ∈ rest, e.1 ≠ [] ∧ inertFor e.1 v = true :=
      fun e he => ⟨hrestne e he, hpw.1 e he⟩
    rw [List.foldl_cons]
    show rest.foldl (fun t e => Replace t e.1 e.2) (Replace (concatAll pieces) t v) = _
    rw [Replace_concatAll t v ht pieces
      (fun p hp => fitsTokens_mem _ p t (hfit p hp) (List.mem_cons_self _ _))]
    rw [ih _ hrestne hpw.2, List.map_map]
    · congr 1
      apply List.map_congr_left
      intro p _
      show substPiece rest (if p = t then v else p) = substPiece ((t, v) :: rest) p
      by_cases hp : p = t
      · rw [if_pos hp, hp, substPiece_cons_eq, substPiece_inert rest v hv]
      · rw [if_neg hp, substPiece_cons_ne t v rest p hp]
    · intro q hq
      rw [List.mem_map] at hq
      obtain ⟨p, hp, rfl⟩ := hq
      by_cases hpt : p = t
      · rw [if_pos hpt]
        simp only [fitsTokens, List.all_eq_true, Bool.or_eq_true, beq_iff_eq]
        intro t2 ht2
        rw [List.mem_map] at ht2
        obtain ⟨e2, he2, rfl⟩ := ht2
        exact Or.inr (hpw.1 e2 he2)
      · rw [if_neg hpt]
        exact fitsTokens_of_subset _ _ (fun t2 ht2 => List.mem_cons_of_mem _ ht2) p (hfit p hp)

/-- The function `FillTemplate` is the list of substitutions headed by the one of the menu. -/
theorem FillTemplate_eq_foldl (webFile : Str → Str) (s : DevServer)
    (handlers : List DevServerHandler) (templateFile : Str) (items : List (Str × Str)) :
    DevServer.FillTemplate webFile s handlers templateFile items
      = ((lit "$\x7bMENU\x7d", s.GenerateNavigation handlers) :: items).foldl
          (fun t e => Replace t e.1 e.2) (webFile templateFile) := rfl

/-- The output of `FillTemplate` on a template given by pieces that fit the
tokens, for values applied in an order in which no occurrence of a later token
begins in an earlier value nor in the navigation. -/
theorem FillTemplate_concatAll (webFile : Str → Str) (s : DevServer)
    (handlers : List DevServerHandler) (templateFile : Str) (items : List (Str × Str))
    (pieces : List Str) (htpl : webFile templateFile = concatAll pieces)
    (hne : ∀ e ∈ items, e.1 ≠ [])
    (hnav : ∀ e ∈ items, inertFor e.1 (s.GenerateNavigation handlers) = true)
    (hpw : items.Pairwise (fun e e2 => inertFor e2.1 e.2 = true))
    (hpieces : ∀ p ∈ pieces, fitsTokens (lit "$\x7bMENU\x7d" :: items.map Prod.fst) p = true) :
    DevServer.FillTemplate webFile s handlers templateFile items
      = concatAll (pieces.map
          (substPiece ((lit "$\x7bMENU\x7d", s.GenerateNavigation handlers) :: items))) := by
  rw [FillTemplate_eq_foldl, htpl]
  apply foldl_Replace_concatAll
  · intro e he
    rcases List.mem_cons.1 he with h | h
    · rw [h]
      exact (by decide : lit "$\x7bMENU\x7d" ≠ [])
    · exact hne e h
  · rw [List.pairwise_cons]
    exact ⟨hnav, hpw⟩
  · exact hpieces

/-- The navigation of a server with one static link and no handlers. -/
theorem GenerateNavigation_one_link (s : DevServer) (title url : Str)
    (hlinks : s.staticLinks_ = [(title, url)]) :
    s.GenerateNavigation [] = navItem title url := by
  simp [DevServer.GenerateNavigation, hlinks]

/-- A token does not occur in a text given by pieces in none of which an
occurrence of it begins. -/
theorem occursIn_concatAll (t : Str) (ht : t ≠ []) : ∀ pieces : List Str,
    (∀ p ∈ pieces, inertFor t p = true) → occursIn t (concatAll pieces) = false := by
  intro pieces
  induction pieces with
  | nil =>
    intro _
    cases t with
    | nil => exact absurd rfl ht
    | cons _ _ => rfl
  | cons p rest ih =>
    intro h
    show occursIn t (p ++ concatAll rest) = false
    rw [occursIn_inert t _ p (h p (List.mem_cons_self _ _))]
    exact ih (fun q hq => h q (List.mem_cons_of_mem _ hq))

/-- A token that occurs in a text given by pieces that fit it is one of the pieces. -/
theorem mem_of_occursIn_concatAll (t : Str) (ht : t ≠ []) (pieces : List Str)
    (hfit : ∀ p ∈ pieces, p = t ∨ inertFor t p = true)
    (hocc : occursIn t (concatAll pieces) = true) : t ∈ pieces := by
  by_contra hmem
  have h := occursIn_concatAll t ht pieces (fun p hp => by
    rcases hfit p hp with h1 | h1
    · exact absurd (h1 ▸ hp) hmem
    · exact h1)
  rw [h] at hocc
  exact Bool.false_ne_true hocc

/-- A piece of a text is a part of the text. -/
theorem infix_concatAll (p : Str) (pieces : List Str) (hp : p ∈ pieces) :
    p <:+: concatAll pieces := by
  induction pieces with
  | nil => exact absurd hp (List.not_mem_nil _)
  | cons q rest ih =>
    rcases List.mem_cons.1 hp with h | h
    · rw [h]
      exact ⟨[], concatAll rest, by rw [List.nil_append]; rfl⟩
    · obtain ⟨a, b, hab⟩ := ih h
      exact ⟨q ++ a, b, by rw [concatAll, ← hab]; simp⟩

/-- No occurrence of a token begins in a navigation entry if the token occurs
neither in the title nor in the address, holds neither `'"'` nor `'<'`, and no
occurrence of it begins in the fixed parts of the entry. -/
theorem inertFor_navItem (t title url : Str) (hq : 34 ∉ t) (hlt : 60 ∉ t)
    (h1 : inertFor t (lit "<li class=\"nav-item\">") = true)
    (h2 : inertFor t (lit "<a class=\"nav-link\" href=\"") = true)
    (h3 : inertFor t (lit "\">") = true)
    (h4 : inertFor t (lit "</a>") = true)
    (h5 : inertFor t (lit "</li>") = true)
    (htitle : occursIn t title = false) (hurl : occursIn t url = false) :
    inertFor t (navItem title url) = true := by
  have e3 : lit "\">" = 34 :: [62] := by decide
  have e4 : lit "</a>" = 60 :: [47, 97, 62] := by decide
  have hnav : navItem title url
      = lit "<li class=\"nav-item\">" ++ (lit "<a class=\"nav-link\" href=\"" ++
          (url ++ (lit "\">" ++ (title ++ (lit "</a>" ++ lit "</li>"))))) := by
    simp only [navItem, List.append_assoc]
  rw [hnav]
  have a1 : inertFor t (lit "</a>" ++ lit "</li>") = true := inertFor_append t _ h5 _ h4
  have a2 : inertFor t (title ++ (lit "</a>" ++ lit "</li>")) = true := by
    rw [e4] at a1 ⊢
    exact inertFor_append_sep t 60 _ hlt a1 title htitle
  have a3 : inertFor t (lit "\">" ++ (title ++ (lit "</a>" ++ lit "</li>"))) = true :=
    inertFor_append t _ a2 _ h3
  have a4 : inertFor t (url ++ (lit "\">" ++ (title ++ (lit "</a>" ++ lit "</li>")))) = true := by
    rw [e3] at a3 ⊢
    exact inertFor_append_sep t 34 _ hq a3 url hurl
  exact inertFor_append t _ (inertFor_append t _ a4 _ h2) _ h1

/-- C14 (amended).  Let the template contain `${MENU}` and `${BODY}`, the
server have no handlers and the one static link `(title, url)`, and let
`title`, `url` and the body text contain neither token.  Let moreover the
template be a sequence of pieces each of which is `${MENU}`, or `${BODY}`, or a
text in which no occurrence of either begins, and let the body text not end in
a non-empty beginning of either token.  Then the output of `FillTemplate`
contains the anchor tag of the link and the body text, and no occurrence of
either token. -/
theorem FillTemplate_menu_and_body (webFile : Str → Str) (s : DevServer) (templateFile : Str)
    (title url body : Str) (pieces : List Str)
    (hlinks : s.staticLinks_ = [(title, url)])
    (hmenu : lit "$\x7bMENU\x7d" <:+: webFile templateFile)
    (hbody : lit "$\x7bBODY\x7d" <:+: webFile templateFile)
    (hclean : ∀ t ∈ [lit "$\x7bMENU\x7d", lit "$\x7bBODY\x7d"],
      ∀ v ∈ [title, url, body], ¬ t <:+: v)
    (htpl : webFile templateFile = concatAll pieces)
    (hpieces : ∀ p ∈ pieces, fitsTokens [lit "$\x7bMENU\x7d", lit "$\x7bBODY\x7d"] p = true)
    (hends : ∀ t ∈ [lit "$\x7bMENU\x7d", lit "$\x7bBODY\x7d"],
      endsInBeginningOf t body = false) :
    (lit "<a class=\"nav-link\" href=\"" ++ url ++ lit "\">" ++ title ++ lit "</a>")
      <:+: DevServer.FillTemplate webFile s [] templateFile [(lit "$\x7bBODY\x7d", body)] ∧
    body <:+: DevServer.FillTemplate webFile s [] templateFile [(lit "$\x7bBODY\x7d", body)] ∧
    ¬ (lit "$\x7bMENU\x7d"
      <:+: DevServer.FillTemplate webFile s [] templateFile [(lit "$\x7bBODY\x7d", body)]) ∧
    ¬ (lit "$\x7bBODY\x7d"
      <:+: DevServer.FillTemplate webFile s [] templateFile [(lit "$\x7bBODY\x7d", body)]) := by
  have hnav := GenerateNavigation_one_link s title url hlinks
  have hocc : ∀ t ∈ [lit "$\x7bMENU\x7d", lit "$\x7bBODY\x7d"], ∀ v ∈ [title, url, body],
      occursIn t v = false := by
    intro t ht v hv
    rw [← Bool.not_eq_true, occursIn_eq_true_iff]
    exact hclean t ht v hv
  have hM : lit "$\x7bMENU\x7d" ∈ [lit "$\x7bMENU\x7d", lit "$\x7bBODY\x7d"] :=
    List.mem_cons_self _ _
  have hB : lit "$\x7bBODY\x7d" ∈ [lit "$\x7bMENU\x7d", lit "$\x7bBODY\x7d"] :=
    List.mem_cons_of_mem _ (List.mem_cons_self _ _)
  have hnavM : inertFor (lit "$\x7bMENU\x7d") (navItem title url) = true :=
    inertFor_navItem _ title url (by decide) (by decide) (by decide) (by decide) (by decide)
      (by decide) (by decide) (hocc _ hM title (by simp)) (hocc _ hM url (by simp))
  have hnavB : inertFor (lit "$\x7bBODY\x7d") (navItem title url) = true :=
    inertFor_navItem _ title url (by decide) (by decide) (by decide) (by decide) (by decide)
      (by decide) (by decide) (hocc _ hB title (by simp)) (hocc _ hB url (by simp))
  have hbodyI : ∀ t ∈ [lit "$\x7bMENU\x7d", lit "$\x7bBODY\x7d"], inertFor t body = true := by
    intro t ht
    rw [inertFor, hocc t ht body (by simp), hends t ht]
    rfl
  have hout := FillTemplate_concatAll webFile s [] templateFile [(lit "$\x7bBODY\x7d", body)]
    pieces htpl
    (by
      intro e he
      rw [List.mem_singleton] at he
      rw [he]
      exact (by decide : lit "$\x7bBODY\x7d" ≠ []))
    (by
      intro e he
      rw [List.mem_singleton] at he
      rw [he, hnav]
      exact hnavB)
    (List.pairwise_singleton _ _)
    hpieces
  rw [hout, hnav]
  have hfit : ∀ t ∈ [lit "$\x7bMENU\x7d", lit "$\x7bBODY\x7d"], ∀ p ∈ pieces,
      p = t ∨ inertFor t p = true :=
    fun t ht p hp => fitsTokens_mem _ p t (hpieces p hp) ht
  have hmemM : lit "$\x7bMENU\x7d" ∈ pieces :=
    mem_of_occursIn_concatAll _ (by decide) pieces (hfit _ hM)
      (by rw [occursIn_eq_true_iff, ← htpl]; exact hmenu)
  have hmemB : lit "$\x7bBODY\x7d" ∈ pieces :=
    mem_of_occursIn_concatAll _ (by decide) pieces (hfit _ hB)
      (by rw [occursIn_eq_true_iff, ← htpl]; exact hbody)
  have hsM : substPiece [(lit "$\x7bMENU\x7d", navItem title url), (lit "$\x7bBODY\x7d", body)]
      (lit "$\x7bMENU\x7d") = navItem title url := substPiece_cons_eq _ _ _
  have hsB : substPiece [(lit "$\x7bMENU\x7d", navItem title url), (lit "$\x7bBODY\x7d", body)]
      (lit "$\x7bBODY\x7d") = body := by
    rw [substPiece_cons_ne _ _ _ _ (by decide)]
    exact substPiece_cons_eq _ _ _
  have hclear : ∀ t ∈ [lit "$\x7bMENU\x7d", lit "$\x7bBODY\x7d"],
      ∀ q ∈ pieces.map (substPiece
        [(lit "$\x7bMENU\x7d", navItem title url), (lit "$\x7bBODY\x7d", body)]),
      inertFor t q = true := by
    intro t ht q hq
    rw [List.mem_map] at hq
    obtain ⟨p, hp, rfl⟩ := hq
    by_cases h1 : p = lit "$\x7bMENU\x7d"
    · rw [h1, hsM]
      rcases List.mem_cons.1 ht with h | h
      · rw [h]; exact hnavM
      · rw [List.mem_singleton] at h
        rw [h]; exact hnavB
    · by_cases h2 : p = lit "$\x7bBODY\x7d"
      · rw [h2, hsB]
        exact hbodyI t ht
      · rw [substPiece_cons_ne _ _ _ _ h1, substPiece_cons_ne _ _ _ _ h2, substPiece_nil]
        rcases hfit t ht p hp with h | h
        · rcases List.mem_cons.1 ht with h3 | h3
          · exact absurd (h.trans h3) h1
          · rw [List.mem_singleton] at h3
            exact absurd (h.trans h3) h2
        · exact h
  refine ⟨?_, ?_, ?_, ?_⟩
  · have h := infix_concatAll _ _ (List.mem_map_of_mem (substPiece
      [(lit "$\x7bMENU\x7d", navItem title url), (lit "$\x7bBODY\x7d", body)]) hmemM)
    rw [hsM] at h
    refine List.IsInfix.trans ?_ h
    exact ⟨lit "<li class=\"nav-item\">", lit "</li>", rfl⟩
  · have h := infix_concatAll _ _ (List.mem_map_of_mem (substPiece
      [(lit "$\x7bMENU\x7d", navItem title url), (lit "$\x7bBODY\x7d", body)]) hmemB)
    rw [hsB] at h
    exact h
  · rw [← occursIn_eq_true_iff, Bool.not_eq_true]
    exact occursIn_concatAll _ (by decide) _ (hclear _ hM)
  · rw [← occursIn_eq_true_iff, Bool.not_eq_true]
    exact occursIn_concatAll _ (by decide) _ (hclear _ hB)

/-- C14, witness: a page with a title, the menu and a body; the body holds
`$.post(` and the title of the link holds `'$'`. -/
theorem FillTemplate_menu_and_body_witness :
    (DevServer.empty.AddStaticLink (lit "Costs in $") (lit "/costs")).staticLinks_
      = [(lit "Costs in $", lit "/costs")] ∧
    lit "<h1>$\x7bTITLE\x7d</h1>$\x7bMENU\x7d<p>$\x7bBODY\x7d</p>"
      = concatAll [lit "<h1>$\x7bTITLE\x7d</h1>", lit "$\x7bMENU\x7d", lit "<p>",
          lit "$\x7bBODY\x7d", lit "</p>"] ∧
    ((lit "<a class=\"nav-link\" href=\"" ++ lit "/costs" ++ lit "\">" ++ lit "Costs in $"
        ++ lit "</a>")
      <:+: DevServer.FillTemplate
        (fun _ => lit "<h1>$\x7bTITLE\x7d</h1>$\x7bMENU\x7d<p>$\x7bBODY\x7d</p>")
        (DevServer.empty.AddStaticLink (lit "Costs in $") (lit "/costs")) [] (lit "page.html")
        [(lit "$\x7bBODY\x7d", lit "<button onclick=\"$.post('/cmd');\">Run</button>")] ∧
    (lit "<button onclick=\"$.post('/cmd');\">Run</button>")
      <:+: DevServer.FillTemplate
        (fun _ => lit "<h1>$\x7bTITLE\x7d</h1>$\x7bMENU\x7d<p>$\x7bBODY\x7d</p>")
        (DevServer.empty.AddStaticLink (lit "Costs in $") (lit "/costs")) [] (lit "page.html")
        [(lit "$\x7bBODY\x7d", lit "<button onclick=\"$.post('/cmd');\">Run</button>")] ∧
    ¬ (lit "$\x7bMENU\x7d" <:+: DevServer.FillTemplate
        (fun _ => lit "<h1>$\x7bTITLE\x7d</h1>$\x7bMENU\x7d<p>$\x7bBODY\x7d</p>")
        (DevServer.empty.AddStaticLink (lit "Costs in $") (lit "/costs")) [] (lit "page.html")
        [(lit "$\x7bBODY\x7d", lit "<button onclick=\"$.post('/cmd');\">Run</button>")]) ∧
    ¬ (lit "$\x7bBODY\x7d" <:+: DevServer.FillTemplate
        (fun _ => lit "<h1>$\x7bTITLE\x7d</h1>$\x7bMENU\x7d<p>$\x7bBODY\x7d</p>")
        (DevServer.empty.AddStaticLink (lit "Costs in $") (lit "/costs")) [] (lit "page.html")
        [(lit "$\x7bBODY\x7d", lit "<button onclick=\"$.post('/cmd');\">Run</button>")])) :=
  ⟨rfl, by decide,
   FillTemplate_menu_and_body
    (fun _ => lit "<h1>$\x7bTITLE\x7d</h1>$\x7bMENU\x7d<p>$\x7bBODY\x7d</p>")
    (DevServer.empty.AddStaticLink (lit "Costs in $") (lit "/costs")) (lit "page.html")
    (lit "Costs in $") (lit "/costs") (lit "<button onclick=\"$.post('/cmd');\">Run</button>")
    [lit "<h1>$\x7bTITLE\x7d</h1>", lit "$\x7bMENU\x7d", lit "<p>", lit "$\x7bBODY\x7d", lit "</p>"]
    rfl ((occursIn_eq_true_iff _ _).1 (by decide)) ((occursIn_eq_true_iff _ _).1 (by decide))
    (fun t ht v hv => by
      rw [← occursIn_eq_true_iff, Bool.not_eq_true]
      revert v
      revert t
      decide)
    (by decide) (by decide) (by decide)⟩

/-- C14, counterexample.  The template `${MENU}$${BODY}` contains both
tokens, and neither the link `(Help, /help)` nor the body text `{BODY}`
contains a token; the output is the navigation followed by `$` and the body
text, which together read `${BODY}`.  Likewise the template
`${BODY}{MENU}${MENU}` with the body text `$` gives an output that begins with
`${MENU}`. -/
theorem FillTemplate_body_token_remains :
    ((lit "$\x7bMENU\x7d" <:+: lit "$\x7bMENU\x7d$$\x7bBODY\x7d" ∧
        lit "$\x7bBODY\x7d" <:+: lit "$\x7bMENU\x7d$$\x7bBODY\x7d") ∧
      (∀ t ∈ [lit "$\x7bMENU\x7d", lit "$\x7bBODY\x7d"],
        ∀ v ∈ [lit "Help", lit "/help", lit "\x7bBODY\x7d"], ¬ t <:+: v) ∧
      DevServer.FillTemplate (fun _ => lit "$\x7bMENU\x7d$$\x7bBODY\x7d")
          (DevServer.empty.AddStaticLink (lit "Help") (lit "/help")) [] (lit "page.html")
          [(lit "$\x7bBODY\x7d", lit "\x7bBODY\x7d")]
        = navItem (lit "Help") (lit "/help") ++ lit "$\x7bBODY\x7d" ∧
      lit "$\x7bBODY\x7d" <:+: DevServer.FillTemplate (fun _ => lit "$\x7bMENU\x7d$$\x7bBODY\x7d")
          (DevServer.empty.AddStaticLink (lit "Help") (lit "/help")) [] (lit "page.html")
          [(lit "$\x7bBODY\x7d", lit "\x7bBODY\x7d")]) ∧
    ((lit "$\x7bMENU\x7d" <:+: lit "$\x7bBODY\x7d\x7bMENU\x7d$\x7bMENU\x7d" ∧
        lit "$\x7bBODY\x7d" <:+: lit "$\x7bBODY\x7d\x7bMENU\x7d$\x7bMENU\x7d") ∧
      (∀ t ∈ [lit "$\x7bMENU\x7d", lit "$\x7bBODY\x7d"],
        ∀ v ∈ [lit "Help", lit "/help", lit "$"], ¬ t <:+: v) ∧
      DevServer.FillTemplate (fun _ => lit "$\x7bBODY\x7d\x7bMENU\x7d$\x7bMENU\x7d")
          (DevServer.empty.AddStaticLink (lit "Help") (lit "/help")) [] (lit "page.html")
          [(lit "$\x7bBODY\x7d", lit "$")]
        = lit "$\x7bMENU\x7d" ++ navItem (lit "Help") (lit "/help") ∧
      lit "$\x7bMENU\x7d"
        <:+: DevServer.FillTemplate (fun _ => lit "$\x7bBODY\x7d\x7bMENU\x7d$\x7bMENU\x7d")
          (DevServer.empty.AddStaticLink (lit "Help") (lit "/help")) [] (lit "page.html")
          [(lit "$\x7bBODY\x7d", lit "$")]) := by
  have hout : DevServer.FillTemplate (fun _ => lit "$\x7bMENU\x7d$$\x7bBODY\x7d")
        (DevServer.empty.AddStaticLink (lit "Help") (lit "/help")) [] (lit "page.html")
        [(lit "$\x7bBODY\x7d", lit "\x7bBODY\x7d")]
      = navItem (lit "Help") (lit "/help") ++ lit "$\x7bBODY\x7d" := by decide
  have hout2 : DevServer.FillTemplate (fun _ => lit "$\x7bBODY\x7d\x7bMENU\x7d$\x7bMENU\x7d")
        (DevServer.empty.AddStaticLink (lit "Help") (lit "/help")) [] (lit "page.html")
        [(lit "$\x7bBODY\x7d", lit "$")]
      = lit "$\x7bMENU\x7d" ++ navItem (lit "Help") (lit "/help") := by decide
  refine ⟨⟨⟨(occursIn_eq_true_iff _ _).1 (by decide), (occursIn_eq_true_iff _ _).1 (by decide)⟩,
      ?_, hout, ?_⟩,
    ⟨⟨(occursIn_eq_true_iff _ _).1 (by decide), (occursIn_eq_true_iff _ _).1 (by decide)⟩,
      ?_, hout2, ?_⟩⟩
  · intro t ht v hv
    rw [← occursIn_eq_true_iff, Bool.not_eq_true]
    revert v
    revert t
    decide
  · rw [hout]
    exact ⟨navItem (lit "Help") (lit "/help"), [], by rw [List.append_nil]⟩
  · intro t ht v hv
    rw [← occursIn_eq_true_iff, Bool.not_eq_true]
    revert v
    revert t
    decide
  · rw [hout2]
    exact ⟨[], navItem (lit "Help") (lit "/help"), by rw [List.nil_append]⟩

/-- Handlers whose `HandlesPost` is false are passed over by the loop of the other branch. -/
theorem handlePost_skip (s : DevServer) (uriList : List Str) (buffText : Str)
    (pre rest : List DevServerHandler)
    (hpre : ∀ g ∈ pre, g.HandlesPost s uriList = some false) :
    DevServer.handlePost s uriList buffText (pre ++ rest) =
      DevServer.handlePost s uriList buffText rest := by
  induction pre with
  | nil => rfl
  | cons g pre ih =>
    have hg : g.HandlesPost s uriList = some false := hpre g (List.mem_cons_self _ _)
    have hrest : ∀ g1 ∈ pre, g1.HandlesPost s uriList = some false :=
      fun g1 h1 => hpre g1 (List.mem_cons_of_mem _ h1)
    rw [List.cons_append, DevServer.handlePost, hg, ih hrest]

/-- A request whose method is not `GET` goes to the loop over `HandlesPost`,
with at most 32768 bytes of its body. -/
theorem BeginRequest_not_get (webFile : Str → Str) (handlers : List DevServerHandler)
    (s : DevServer) (req : Request) (hm : req.request_method ≠ lit "GET") :
    DevServer.BeginRequest webFile handlers s req =
      DevServer.handlePost s (Split req.uri slash) (req.body.take 32768) handlers := by
  unfold DevServer.BeginRequest
  simp only [hm, if_false]

/-- C16 (amended).  For every POST request, the handler selected is the first
in registration order whose `HandlesPost` predicate is true: the handlers
before it, which return false (as does every handler that does not override
`HandlesPost`), are passed over, and the handlers behind it are not consulted.
Its `DoPost` is invoked once, with the first 32768 bytes of the request body
(the whole body when it is not longer), and the response is the `200` /
`text/html` header followed by `Success`. -/
theorem BeginRequest_post_first (webFile : Str → Str) (pre post : List DevServerHandler)
    (h : DevServerHandler) (s : DevServer) (req : Request)
    (hm : req.request_method = lit "POST")
    (hpre : ∀ g ∈ pre, g.HandlesPost s (Split req.uri slash) = some false)
    (hh : h.HandlesPost s (Split req.uri slash) = some true) :
    DevServer.BeginRequest webFile (pre ++ h :: post) s req =
      (h.DoPost s (Split req.uri slash) (req.body.take 32768)).map
        (fun s1 => (s1, some (lit "HTTP/1.1 200 OK\r\nContent-type: text/html\r\n\r\nSuccess"),
          (1 : Int))) := by
  have hne : req.request_method ≠ lit "GET" := by
    rw [hm]
    decide
  rw [BeginRequest_not_get webFile _ s req hne, handlePost_skip s _ _ pre _ hpre,
    DevServer.handlePost, hh]
  have hs : SendHTMLResponse (lit "Success")
      = lit "HTTP/1.1 200 OK\r\nContent-type: text/html\r\n\r\nSuccess" := by decide
  cases hd : h.DoPost s (Split req.uri slash) (req.body.take 32768) with
  | none => rfl
  | some s1 => simp [hs]

/-- C16, witness: a handler with the default `HandlesPost`, the recording
handler, and a second recording handler; the first recording handler gets the
body, once. -/
theorem BeginRequest_post_first_witness :
    (DevServer.BeginRequest noWebFiles
        ([sampleHtmlHandler (lit "x") (lit "page")] ++ samplePostRecorder :: [samplePostRecorder])
        DevServer.empty
        { request_method := lit "POST", uri := lit "/x/y", body := lit "data" }).map
      (fun r => (r.1.log_, r.2))
      = some ([lit "data"],
          some (lit "HTTP/1.1 200 OK\r\nContent-type: text/html\r\n\r\nSuccess"), 1) := by
  rw [BeginRequest_post_first noWebFiles [sampleHtmlHandler (lit "x") (lit "page")]
    [samplePostRecorder] samplePostRecorder DevServer.empty
    { request_method := lit "POST", uri := lit "/x/y", body := lit "data" } rfl
    (by intro g hg; rw [List.mem_singleton] at hg; rw [hg]; rfl) rfl]
  rfl

/-- C16, counterexample.  Of a request body of 32769 bytes the selected
handler receives the first 32768 only. -/
theorem BeginRequest_post_truncates_body :
    (DevServer.BeginRequest noWebFiles [samplePostRecorder] DevServer.empty
        { request_method := lit "POST", uri := lit "/x", body := List.replicate 32769 65 }).map
      (fun r => r.1.log_) = some [List.replicate 32768 65] ∧
    List.replicate 32768 65 ≠ List.replicate 32769 65 := by
  constructor
  · rw [BeginRequest_not_get noWebFiles _ _ _ (by decide)]
    show Option.map (fun r => r.1.log_)
      (some ({ DevServer.empty with
          log_ := DevServer.empty.log_ ++ [(List.replicate 32769 65).take 32768] },
        some (SendHTMLResponse (lit "Success")), 1)) = _
    rw [List.take_replicate]
    rfl
  · intro h
    have := congrArg List.length h
    rw [List.length_replicate, List.length_replicate] at this
    exact absurd this (by decide)

/-- C17 (amended).  For every GET request whose path is empty or `/`, no
handler is consulted: whatever the `Handles` predicates are, the response is
the landing page, `template_page.html` filled with the title `DebugServer is
Live` and the body `<h3>Use the navigation above!</h3>`, sent as `text/html`. -/
theorem BeginRequest_root_landing (webFile : Str → Str) (handlers : List DevServerHandler)
    (s : DevServer) (req : Request) (hget : req.request_method = lit "GET")
    (hroot : req.uri = [] ∨ req.uri = lit "/") :
    DevServer.BeginRequest webFile handlers s req =
      some (s, some (SendDataResponse (lit "text/html")
        (DevServer.FillTemplate webFile s handlers (lit "template_page.html")
          [(lit "$\x7bTITLE\x7d", lit "DebugServer is Live"),
           (lit "$\x7bBODY\x7d", lit "<h3>Use the navigation above!</h3>")])), 1) := by
  have hr : req.uri.isEmpty = true ∨ req.uri = lit "/" := by
    rcases hroot with h | h
    · left; rw [h]; rfl
    · right; exact h
  unfold DevServer.BeginRequest
  simp only [hget, if_true, hr]

/-- C17, witness: the request `GET /` with a handler that handles every path. -/
theorem BeginRequest_root_landing_witness :
    DevServer.BeginRequest (fun _ => lit "<h1>$\x7bTITLE\x7d</h1>$\x7bBODY\x7d")
        [sampleCatchAll (lit "mine")] DevServer.empty
        { request_method := lit "GET", uri := lit "/", body := [] } =
      some (DevServer.empty, some (SendDataResponse (lit "text/html")
        (DevServer.FillTemplate (fun _ => lit "<h1>$\x7bTITLE\x7d</h1>$\x7bBODY\x7d") DevServer.empty
          [sampleCatchAll (lit "mine")] (lit "template_page.html")
          [(lit "$\x7bTITLE\x7d", lit "DebugServer is Live"),
           (lit "$\x7bBODY\x7d", lit "<h3>Use the navigation above!</h3>")])), 1) :=
  BeginRequest_root_landing _ _ _ _ rfl (Or.inr rfl)

/-- C17, counterexample.  A registered handler handles the empty segment list
and renders `mine`; the request `GET /` is answered with the landing page all
the same (here an empty one, as there are no files under `web/`). -/
theorem BeginRequest_root_ignores_handlers :
    (sampleCatchAll (lit "mine")).Handles DevServer.empty (Split (lit "/") slash) = true ∧
    (DevServer.BeginRequest noWebFiles [sampleCatchAll (lit "mine")] DevServer.empty
        { request_method := lit "GET", uri := lit "/", body := [] }).map (fun r => r.2)
      = some (some (lit "HTTP/1.1 200 OK\r\nContent-type: text/html\r\nContent-length: 0\r\n\r\n"),
          1) ∧
    lit "HTTP/1.1 200 OK\r\nContent-type: text/html\r\nContent-length: 0\r\n\r\n"
      ≠ SendHTMLResponse (lit "mine") := by
  refine ⟨rfl, ?_, by decide⟩
  rw [BeginRequest_root_landing noWebFiles _ _ _ rfl (Or.inr rfl)]
  decide

/-- C18 (amended).  Only `GET` is recognised by name: a request with any other
method (`POST`, `PUT`, `DELETE`, `HEAD`, ...) is handled exactly as the `POST`
request with the same path and body, so that the first handler whose
`HandlesPost` is true has its `DoPost` invoked and `Success` is sent. -/
theorem BeginRequest_other_method_as_post (webFile : Str → Str)
    (handlers : List DevServerHandler) (s : DevServer) (req : Request)
    (hm : req.request_method ≠ lit "GET") :
    DevServer.BeginRequest webFile handlers s req =
      DevServer.BeginRequest webFile handlers s { req with request_method := lit "POST" } := by
  rw [BeginRequest_not_get webFile handlers s req hm,
    BeginRequest_not_get webFile handlers s { req with request_method := lit "POST" }
      (show lit "POST" ≠ lit "GET" by decide)]

/-- C18, witness: a `DELETE` request. -/
theorem BeginRequest_other_method_as_post_witness :
    lit "DELETE" ≠ lit "GET" ∧
    DevServer.BeginRequest noWebFiles [samplePostRecorder] DevServer.empty
        { request_method := lit "DELETE", uri := lit "/x", body := lit "data" } =
      DevServer.BeginRequest noWebFiles [samplePostRecorder] DevServer.empty
        { request_method := lit "POST", uri := lit "/x", body := lit "data" } :=
  ⟨by decide, BeginRequest_other_method_as_post noWebFiles [samplePostRecorder] DevServer.empty
    { request_method := lit "DELETE", uri := lit "/x", body := lit "data" } (by decide)⟩

/-- C18, counterexample.  A `PUT` request selects the handler whose
`HandlesPost` is true: its `DoPost` is invoked with the body and `Success` is sent. -/
theorem BeginRequest_put_is_handled :
    lit "PUT" ≠ lit "GET" ∧ lit "PUT" ≠ lit "POST" ∧
    (DevServer.BeginRequest noWebFiles [samplePostRecorder] DevServer.empty
        { request_method := lit "PUT", uri := lit "/x", body := lit "data" }).map
      (fun r => (r.1.log_, r.2))
      = some ([lit "data"],
          some (lit "HTTP/1.1 200 OK\r\nContent-type: text/html\r\n\r\nSuccess"), 1) := by
  refine ⟨by decide, by decide, ?_⟩
  rw [BeginRequest_not_get noWebFiles _ _ _ (by decide)]
  rfl

/-- The loop over the attributes changes at most the queue, by one closure at its end. -/
theorem attrLoop_frame (server : DevServer) (component : Bool) (id : Nat) (attrName data : Str)
    (attrs : List AttributeInfo) :
    ∃ added : List Action, added.length ≤ 1 ∧
      SceneContent.attrLoop server component id attrName data attrs
        = { server with deferredCommand_ := server.deferredCommand_ ++ added } := by
  induction attrs with
  | nil => exact ⟨[], by simp, by simp [SceneContent.attrLoop]⟩
  | cons attr rest ih =>
    rw [SceneContent.attrLoop]
    by_cases h : attr.name_ = attrName
    · rw [if_pos h]
      exact ⟨[setAttributeClosure component id attrName attr.type_ data], by simp, rfl⟩
    · rw [if_neg h]
      exact ih

/-- The handling of one node or component changes at most the queue. -/
theorem postObject_frame (server : DevServer) (component : Bool) (obj : SceneObject)
    (attrName data : Str) :
    ∃ added : List Action, added.length ≤ 1 ∧
      SceneContent.postObject server component obj attrName data
        = { server with deferredCommand_ := server.deferredCommand_ ++ added } := by
  rw [SceneContent.postObject]
  by_cases h : equalsNoCase attrName (lit "delete") = true
  · rw [if_pos h]
    exact ⟨[removeClosure component obj.id], by simp, rfl⟩
  · rw [if_neg h]
    exact attrLoop_frame server component obj.id attrName data obj.attributes

/-- The loop over the scenes changes at most the queue. -/
theorem sceneLoop_frame (server : DevServer) (term nodeName attrName data : Str) (nodeID : Nat)
    (scenes : List Scene) :
    ∃ added : List Action, added.length ≤ 1 ∧
      SceneContent.sceneLoop server term nodeName attrName data nodeID scenes
        = { server with deferredCommand_ := server.deferredCommand_ ++ added } := by
  have hsame : ∃ added : List Action, added.length ≤ 1 ∧
      server = { server with deferredCommand_ := server.deferredCommand_ ++ added } :=
    ⟨[], by simp, by simp⟩
  induction scenes with
  | nil => exact hsame
  | cons scene rest ih =>
    rw [SceneContent.sceneLoop]
    repeat' split
    all_goals first
      | exact ih
      | exact hsame
      | exact postObject_frame _ _ _ _ _

/-- The function `SceneContent::DoPost` changes at most the queue. -/
theorem SceneContent_DoPost_frame (fromString : Str → Nat) (scenes_ : List Scene)
    (server s1 : DevServer) (uri : List Str) (data : Str)
    (h : SceneContent.DoPost fromString scenes_ server uri data = some s1) :
    ∃ added : List Action, added.length ≤ 1 ∧
      s1 = { server with deferredCommand_ := server.deferredCommand_ ++ added } := by
  rw [SceneContent.DoPost] at h
  by_cases hl : uri.length < 4
  · rw [if_pos hl] at h
    exact ⟨[], by simp, by rw [← Option.some.inj h]; simp⟩
  · rw [if_neg hl] at h
    cases h4 : uri.get? 4 with
    | none => rw [h4] at h; exact absurd h (by simp)
    | some uri4 =>
      rw [h4] at h
      simp only [Option.some.injEq] at h
      rw [← h]
      exact sceneLoop_frame _ _ _ _ _ _ _

/-- The loop of `CommandHandler::DoPost` changes at most the queue. -/
theorem doPostLoop_frame (server s1 : DevServer) (uri : List Str) (cmds : List CommandItem)
    (h : DevServer.CommandHandler.doPostLoop server uri cmds = some s1) :
    ∃ added : List Action, added.length ≤ 1 ∧
      s1 = { server with deferredCommand_ := server.deferredCommand_ ++ added } := by
  induction cmds with
  | nil =>
    rw [DevServer.CommandHandler.doPostLoop] at h
    exact ⟨[], by simp, by rw [← Option.some.inj h]; simp⟩
  | cons com rest ih =>
    rw [DevServer.CommandHandler.doPostLoop] at h
    cases h0 : uri.get? 0 with
    | none => rw [h0] at h; exact absurd h (by simp)
    | some uri0 =>
      rw [h0] at h
      simp only [] at h
      by_cases hc : equalsNoCase com.url_ uri0 = true
      · rw [if_pos hc] at h
        exact ⟨[com.command_], by simp, by rw [← Option.some.inj h]; rfl⟩
      · rw [if_neg hc] at h
        exact ih h

/-- The loop over `HandlesPost` with built-in handlers changes at most the queue. -/
theorem handlePost_frame (fromString : Str → Nat) (scenes_ : List Scene) (s : DevServer)
    (uriList : List Str) (buffText : Str) (handlers : List DevServerHandler)
    (hh : ∀ h ∈ handlers, postSideBuiltin fromString scenes_ h)
    (s1 : DevServer) (resp : Option Str) (ret : Int)
    (hres : DevServer.handlePost s uriList buffText handlers = some (s1, resp, ret)) :
    ∃ added : List Action, added.length ≤ 1 ∧
      s1 = { s with deferredCommand_ := s.deferredCommand_ ++ added } := by
  induction handlers with
  | nil =>
    rw [DevServer.handlePost] at hres
    simp only [Option.some.injEq, Prod.mk.injEq] at hres
    exact ⟨[], by simp, by rw [← hres.1]; simp⟩
  | cons h rest ih =>
    have hb := hh h (List.mem_cons_self _ _)
    have hrest := ih (fun g hg => hh g (List.mem_cons_of_mem _ hg))
    rw [DevServer.handlePost] at hres
    cases hp : h.HandlesPost s uriList with
    | none => rw [hp] at hres; exact absurd hres (by simp)
    | some b =>
      rw [hp] at hres
      cases b with
      | false => exact hrest hres
      | true =>
        simp only [] at hres
        cases hd : h.DoPost s uriList buffText with
        | none => rw [hd] at hres; exact absurd hres (by simp)
        | some s2 =>
          rw [hd] at hres
          simp only [Option.some.injEq, Prod.mk.injEq] at hres
          rw [← hres.1]
          rcases hb with hb | hb | hb
          · rw [hb] at hp
            exact absurd hp (by simp)
          · rw [hb.2] at hd
            exact SceneContent_DoPost_frame _ _ _ _ _ _ hd
          · rw [hb.2] at hd
            exact doPostLoop_frame _ _ _ _ hd

/-- The loop of `CommandHandler::HandlesPost` is defined on a path of two segments or more. -/
theorem handlesPostLoop_isSome (uri : List Str) (hlen : 2 ≤ uri.length) (cmds : List CommandItem) :
    (DevServer.CommandHandler.handlesPostLoop uri cmds).isSome = true := by
  induction cmds with
  | nil => rfl
  | cons com rest ih =>
    rw [DevServer.CommandHandler.handlesPostLoop]
    have h1 : uri.get? 1 = some (uri.get ⟨1, by omega⟩) := List.get?_eq_get _
    rw [h1]
    simp only []
    split
    · rfl
    · exact ih

/-- The loop of `CommandHandler::DoPost` is defined on a path of one segment or more. -/
theorem doPostLoop_isSome (server : DevServer) (uri : List Str) (hlen : 1 ≤ uri.length)
    (cmds : List CommandItem) :
    (DevServer.CommandHandler.doPostLoop server uri cmds).isSome = true := by
  induction cmds with
  | nil => rfl
  | cons com rest ih =>
    rw [DevServer.CommandHandler.doPostLoop]
    have h0 : uri.get? 0 = some (uri.get ⟨0, by omega⟩) := List.get?_eq_get _
    rw [h0]
    simp only []
    split
    · rfl
    · exact ih

/-- The loop over `HandlesPost` with built-in handlers is defined on a path of five segments or more. -/
theorem handlePost_isSome (fromString : Str → Nat) (scenes_ : List Scene) (s : DevServer)
    (uriList : List Str) (hlen : 5 ≤ uriList.length) (buffText : Str)
    (handlers : List DevServerHandler)
    (hh : ∀ h ∈ handlers, postSideBuiltin fromString scenes_ h) :
    (DevServer.handlePost s uriList buffText handlers).isSome = true := by
  induction handlers with
  | nil => rfl
  | cons h rest ih =>
    have hb := hh h (List.mem_cons_self _ _)
    have hrest := ih (fun g hg => hh g (List.mem_cons_of_mem _ hg))
    rw [DevServer.handlePost]
    rcases hb with hb | hb | hb
    · rw [hb]
      exact hrest
    · rw [hb.1, hb.2, SceneContent.HandlesPost]
      cases SceneContent.Handles s uriList with
      | false => exact hrest
      | true =>
        simp only []
        have h4 : uriList.get? 4 = some (uriList.get ⟨4, by omega⟩) := List.get?_eq_get _
        rw [SceneContent.DoPost, if_neg (by omega), h4]
        rfl
    · rw [hb.1, hb.2, DevServer.CommandHandler.HandlesPost, DevServer.CommandHandler.DoPost]
      have h1 := handlesPostLoop_isSome uriList (by omega) s.commands_
      cases hp : DevServer.CommandHandler.handlesPostLoop uriList s.commands_ with
      | none => rw [hp] at h1; exact absurd h1 (by simp)
      | some b =>
        cases b with
        | false => exact hrest
        | true =>
          simp only []
          have h2 := doPostLoop_isSome s uriList (by omega) s.commands_
          cases hd : DevServer.CommandHandler.doPostLoop s uriList s.commands_ with
          | none => rw [hd] at h2; exact absurd h2 (by simp)
          | some s2 => rfl

/-- The drain that follows, when it has a result, has run every closure of the queue. -/
theorem OnNewFrame_runs_queue (capacity : Nat) (s t : DevServer)
    (ht : s.OnNewFrame capacity = some t) :
    ∃ later : List Action,
      t.executed = s.executed ++ (s.deferredCommand_ ++ later).map Action.id := by
  rw [DevServer.OnNewFrame] at ht
  cases hd : DevServer.drainLoop capacity 0 s with
  | none => rw [hd] at ht; exact Option.noConfusion ht
  | some u =>
    rw [hd, Option.map_some'] at ht
    obtain ⟨ext, hq, he, _⟩ := drainLoop_spec capacity 0 s u hd
    refine ⟨ext, ?_⟩
    rw [← Option.some.inj ht]
    show u.executed = _
    rw [he, hq, List.drop_zero]

/-- C15.  For every POST request handled by the built-in handlers, request
handling applies no mutation.  When `BeginRequest` returns, the server differs
from the one before at most in the deferred queue, to which at most one closure
has been appended: no closure and no registered command has been run (the log
`executed` is unchanged).  The closures of the queue are run by the drain that
follows: a drain that has a result has run them all, and when no closure of
the queue enqueues, as none of those that `SceneContent` makes does, the drain has
a result whatever the capacity of the vector is and has run exactly them.  On
a path of five segments or more `BeginRequest` does return. -/
theorem BeginRequest_post_only_enqueues (webFile : Str → Str) (fromString : Str → Nat)
    (scenes_ : List Scene) (handlers : List DevServerHandler) (s : DevServer) (req : Request)
    (hm : req.request_method = lit "POST")
    (hh : ∀ h ∈ handlers, postSideBuiltin fromString scenes_ h) :
    (∀ (s1 : DevServer) (resp : Option Str) (ret : Int),
      DevServer.BeginRequest webFile handlers s req = some (s1, resp, ret) →
      ∃ added : List Action, added.length ≤ 1 ∧
        s1 = { s with deferredCommand_ := s.deferredCommand_ ++ added } ∧
        s1.executed = s.executed ∧
        (∀ (capacity : Nat) (t : DevServer), s1.OnNewFrame capacity = some t →
          ∃ later : List Action, t.executed
            = s.executed ++ (s.deferredCommand_ ++ added ++ later).map Action.id) ∧
        ((∀ a ∈ s.deferredCommand_ ++ added, a.enqueues = []) → ∀ capacity : Nat,
          s1.OnNewFrame capacity =
            some { s with deferredCommand_ := [],
                          executed := s.executed ++ (s.deferredCommand_ ++ added).map Action.id })) ∧
    (5 ≤ (Split req.uri slash).length →
      (DevServer.BeginRequest webFile handlers s req).isSome = true) := by
  have hne : req.request_method ≠ lit "GET" := by
    rw [hm]
    decide
  rw [BeginRequest_not_get webFile handlers s req hne]
  constructor
  · intro s1 resp ret hres
    obtain ⟨added, hlen, hs1⟩ := handlePost_frame fromString scenes_ s _ _ handlers hh s1 resp ret hres
    refine ⟨added, hlen, hs1, by rw [hs1], ?_, ?_⟩
    · intro capacity t ht
      obtain ⟨later, hlater⟩ := OnNewFrame_runs_queue capacity s1 t ht
      refine ⟨later, ?_⟩
      rw [hlater, hs1]
    · intro hsimple capacity
      rw [OnNewFrame_simple capacity s1 (by rw [hs1]; exact hsimple), hs1]
  · intro hlen
    exact handlePost_isSome fromString scenes_ s _ hlen _ handlers hh

/-- C15, witness: with the handlers in the order of registration, the request
`POST /Scenes/Main/Node/5/Name` with the body `foo` enqueues the closure that
sets the attribute and runs nothing; the drain that follows runs it. -/
theorem BeginRequest_post_only_enqueues_witness :
    DevServer.BeginRequest noWebFiles
        [sampleHtmlHandler (lit "Log") (lit "page"), sampleScenePost (fun _ => 5) [sampleScene],
         sampleCommandPost]
        (DevServer.empty.RegisterCommand (lit "Reload") [] (Action.mk 1 []))
        { request_method := lit "POST", uri := lit "/Scenes/Main/Node/5/Name", body := lit "foo" }
      = some ({ DevServer.empty.RegisterCommand (lit "Reload") [] (Action.mk 1 []) with
                deferredCommand_ := [setAttributeClosure false 5 (lit "Name") 10 (lit "foo")] },
              some (SendHTMLResponse (lit "Success")), 1) ∧
    (({ DevServer.empty.RegisterCommand (lit "Reload") [] (Action.mk 1 []) with
          deferredCommand_ := [setAttributeClosure false 5 (lit "Name") 10 (lit "foo")] }
        : DevServer).OnNewFrame 1).map (fun t => (t.executed, t.deferredCommand_.map Action.id))
      = some ([22], []) ∧
    ∃ added : List Action, added.length ≤ 1 ∧
      ({ DevServer.empty.RegisterCommand (lit "Reload") [] (Action.mk 1 []) with
          deferredCommand_ := [setAttributeClosure false 5 (lit "Name") 10 (lit "foo")] }
        : DevServer)
        = { DevServer.empty.RegisterCommand (lit "Reload") [] (Action.mk 1 []) with
            deferredCommand_ :=
              (DevServer.empty.RegisterCommand (lit "Reload") [] (Action.mk 1 [])).deferredCommand_
                ++ added } ∧
      ({ DevServer.empty.RegisterCommand (lit "Reload") [] (Action.mk 1 []) with
          deferredCommand_ := [setAttributeClosure false 5 (lit "Name") 10 (lit "foo")] }
        : DevServer).executed
        = (DevServer.empty.RegisterCommand (lit "Reload") [] (Action.mk 1 [])).executed :=
  ⟨rfl,
   by
    rw [OnNewFrame_simple 1 _ (by
      intro a ha
      rw [List.mem_singleton.1 ha]
      rfl)]
    rfl,
   (BeginRequest_post_only_enqueues noWebFiles (fun _ => 5) [sampleScene]
      [sampleHtmlHandler (lit "Log") (lit "page"), sampleScenePost (fun _ => 5) [sampleScene],
       sampleCommandPost]
      (DevServer.empty.RegisterCommand (lit "Reload") [] (Action.mk 1 []))
      { request_method := lit "POST", uri := lit "/Scenes/Main/Node/5/Name", body := lit "foo" }
      rfl
      (by
        intro h hmem
        simp only [List.mem_cons, List.mem_singleton, List.not_mem_nil, or_false] at hmem
        rcases hmem with rfl | rfl | rfl
        · exact Or.inl rfl
        · exact Or.inr (Or.inl ⟨rfl, rfl⟩)
        · exact Or.inr (Or.inr ⟨rfl, rfl⟩))).1 _ _ _ rfl |>.imp
      fun _ h => ⟨h.1, h.2.1, h.2.2.1⟩⟩

/-- The function `SceneContent::DoPost` reads past the end of `uri` exactly on
a path of four segments. -/
theorem SceneContent_DoPost_none (fromString : Str → Nat) (scenes_ : List Scene)
    (server : DevServer) (uri : List Str) (data : Str) :
    SceneContent.DoPost fromString scenes_ server uri data = none ↔ uri.length = 4 := by
  rw [SceneContent.DoPost]
  by_cases hl : uri.length < 4
  · rw [if_pos hl]
    constructor
    · intro h; exact absurd h (by simp)
    · intro h; omega
  · rw [if_neg hl]
    cases h4 : uri.get? 4 with
    | none =>
      rw [List.get?_eq_none] at h4
      constructor
      · intro _; omega
      · intro _; rfl
    | some uri4 =>
      have hlt : 4 < uri.length := by
        by_contra hc
        have : uri.get? 4 = none := List.get?_eq_none.2 (by omega)
        rw [this] at h4
        exact Option.noConfusion h4
      constructor
      · intro h; exact absurd h (by simp)
      · intro h; omega

/-- The loop of `CommandHandler::HandlesPost` reads past the end of `uri`
exactly when there is a command and the path has fewer than two segments. -/
theorem handlesPostLoop_none (uri : List Str) (cmds : List CommandItem) :
    DevServer.CommandHandler.handlesPostLoop uri cmds = none ↔ cmds ≠ [] ∧ uri.length < 2 := by
  induction cmds with
  | nil =>
    rw [DevServer.CommandHandler.handlesPostLoop]
    constructor
    · intro h; exact absurd h (by simp)
    · intro h; exact absurd rfl h.1
  | cons com rest ih =>
    rw [DevServer.CommandHandler.handlesPostLoop]
    cases h1 : uri.get? 1 with
    | none =>
      rw [List.get?_eq_none] at h1
      constructor
      · intro _; exact ⟨List.cons_ne_nil _ _, by omega⟩
      · intro _; rfl
    | some uri1 =>
      have hlt : 1 < uri.length := by
        by_contra hc
        have : uri.get? 1 = none := List.get?_eq_none.2 (by omega)
        rw [this] at h1
        exact Option.noConfusion h1
      simp only []
      by_cases hc : equalsNoCase com.url_ uri1 = true
      · rw [if_pos hc]
        constructor
        · intro h; exact absurd h (by simp)
        · intro h; omega
      · rw [if_neg hc, ih]
        constructor
        · intro h; omega
        · intro h; omega

/-- C21 (code defect).  The built-in handlers read path segments at indices
that are not below the segment count.  `SceneContent::DoPost` returns early
for fewer than four segments and then reads `uri[4]`: on a path of exactly four
segments the read is past the end.  `CommandHandler::HandlesPost` reads `uri[1]`
for every registered command, whatever the number of segments.  Both reads are
reached from `BeginRequest`: by `POST /Scenes/Main/Node/5` on any server, and
by `POST /x` on any server with a registered command. -/
theorem post_handlers_read_past_end (fromString : Str → Nat) (scenes_ : List Scene)
    (nodeBody : Scene → SceneObject → List Str → Str → Str) (treeBody : Scene → Str → Str)
    (server : DevServer) (uri : List Str) (data name tip : Str) (cmd : Action) :
    (SceneContent.DoPost fromString scenes_ server uri data = none ↔ uri.length = 4) ∧
    (DevServer.CommandHandler.HandlesPost server uri = none ↔
      server.commands_ ≠ [] ∧ uri.length < 2) ∧
    DevServer.BeginRequest noWebFiles
        [SceneContent.handler fromString scenes_ nodeBody treeBody, sampleCommandPost] server
        { request_method := lit "POST", uri := lit "/Scenes/Main/Node/5", body := data } = none ∧
    DevServer.BeginRequest noWebFiles
        [SceneContent.handler fromString scenes_ nodeBody treeBody, sampleCommandPost]
        (server.RegisterCommand name tip cmd)
        { request_method := lit "POST", uri := lit "/x", body := data } = none := by
  refine ⟨SceneContent_DoPost_none _ _ _ _ _, handlesPostLoop_none _ _, ?_, ?_⟩
  · rw [BeginRequest_not_get _ _ _ _ (show lit "POST" ≠ lit "GET" by decide)]
    have hs : Split (lit "/Scenes/Main/Node/5") slash
        = [lit "Scenes", lit "Main", lit "Node", lit "5"] := by decide
    show DevServer.handlePost server (Split (lit "/Scenes/Main/Node/5") slash) _ _ = none
    rw [hs, DevServer.handlePost]
    have h1 : (SceneContent.handler fromString scenes_ nodeBody treeBody).HandlesPost server
        [lit "Scenes", lit "Main", lit "Node", lit "5"] = some true := rfl
    have h2 : (SceneContent.handler fromString scenes_ nodeBody treeBody).DoPost server
        [lit "Scenes", lit "Main", lit "Node", lit "5"] (data.take 32768) = none :=
      (SceneContent_DoPost_none fromString scenes_ server
        [lit "Scenes", lit "Main", lit "Node", lit "5"] (data.take 32768)).2 rfl
    rw [h1]
    simp only []
    rw [h2]
  · rw [BeginRequest_not_get _ _ _ _ (show lit "POST" ≠ lit "GET" by decide)]
    have hs : Split (lit "/x") slash = [lit "x"] := by decide
    show DevServer.handlePost _ (Split (lit "/x") slash) _ _ = none
    rw [hs, DevServer.handlePost]
    have h1 : (SceneContent.handler fromString scenes_ nodeBody treeBody).HandlesPost
        (server.RegisterCommand name tip cmd) [lit "x"] = some false := rfl
    rw [h1]
    simp only []
    rw [DevServer.handlePost]
    have h2 : sampleCommandPost.HandlesPost (server.RegisterCommand name tip cmd) [lit "x"]
        = none := by
      show DevServer.CommandHandler.handlesPostLoop [lit "x"]
        (server.RegisterCommand name tip cmd).commands_ = none
      rw [handlesPostLoop_none]
      refine ⟨?_, by decide⟩
      show server.commands_ ++ [_] ≠ []
      simp
    rw [h2]

/-- The function `ResourceCacheProvider::EmitData` reads past the end of `uri`
exactly on a path of fewer than two segments. -/
theorem ResourceCacheProvider_EmitData_none (cache : Option ResourceCache) (server : DevServer)
    (uri : List Str) :
    ResourceCacheProvider.EmitData cache server uri = none ↔ uri.length < 2 := by
  rw [ResourceCacheProvider.EmitData]
  cases h1 : uri.get? 1 with
  | none =>
    rw [List.get?_eq_none] at h1
    constructor
    · intro _; omega
    · intro _; rfl
  | some trimmed =>
    have hlt : 1 < uri.length := by
      by_contra hc
      have : uri.get? 1 = none := List.get?_eq_none.2 (by omega)
      rw [this] at h1
      exact Option.noConfusion h1
    constructor
    · intro h
      exfalso
      revert h
      simp only []
      cases cache with
      | none => simp
      | some c =>
        simp only []
        cases c.image trimmed with
        | some png => simp
        | none =>
          simp only []
          cases c.xmlFile trimmed with
          | some xml => simp
          | none => simp
    · intro h; omega

/-- The function `SimpleHandler::EmitHTML` dereferences `End()` exactly on the
paths that `SimpleHandler::Handles` does not accept. -/
theorem SimpleHandler_EmitHTML_none (server : DevServer)
    (fillTemplate : Str → List (Str × Str) → Str) (uri : List Str) :
    DevServer.SimpleHandler.EmitHTML server fillTemplate uri = none ↔
      DevServer.SimpleHandler.Handles server uri = false := by
  cases uri with
  | nil =>
    constructor
    · intro _; rfl
    · intro _; rfl
  | cons uri0 rest =>
    rw [DevServer.SimpleHandler.EmitHTML, DevServer.SimpleHandler.Handles]
    show (match mapFind server.simpleTexts_ uri0 with
      | none => none
      | some found => _) = none ↔ _
    cases hf : mapFind server.simpleTexts_ uri0 with
    | none =>
      constructor
      · intro _; rfl
      · intro _; rfl
    | some found =>
      constructor
      · intro h; exact absurd h (by simp)
      · intro h; exact absurd h (by simp)

/-- The loop of `SceneContent::EmitHTML` on a path of two segments or more: it
reads past the end of `uri` exactly when the path has three segments and the
second one names a registered scene. -/
theorem emitLoop_none (fromString : Str → Nat)
    (nodeBody : Scene → SceneObject → List Str → Str → Str) (treeBody : Scene → Str → Str)
    (uri : List Str) (hlen : 2 ≤ uri.length) (scenes : List Scene) :
    SceneContent.emitLoop fromString nodeBody treeBody uri scenes = none ↔
      uri.length = 3 ∧ ∃ scene ∈ scenes, equalsNoCase (sceneUrlName scene) (uri.getD 1 []) = true := by
  have h1 : uri.get? 1 = some (uri.getD 1 []) := by
    rw [List.get?_eq_get (by omega), List.getD_eq_getElem?_getD, List.getElem?_eq_getElem (by omega)]
    rfl
  induction scenes with
  | nil =>
    rw [SceneContent.emitLoop]
    constructor
    · intro h; exact absurd h (by simp)
    · intro h
      obtain ⟨_, scene, hm, _⟩ := h
      exact absurd hm (List.not_mem_nil _)
  | cons scene rest ih =>
    rw [SceneContent.emitLoop, h1]
    show (if equalsNoCase (sceneUrlName scene) (uri.getD 1 []) = true then _ else _) = none ↔ _
    by_cases hm : equalsNoCase (sceneUrlName scene) (uri.getD 1 []) = true
    · rw [if_pos hm]
      by_cases h2 : 2 < uri.length
      · rw [if_pos h2]
        cases h3 : uri.get? 3 with
        | none =>
          rw [List.get?_eq_none] at h3
          constructor
          · intro _; exact ⟨by omega, scene, List.mem_cons_self _ _, hm⟩
          · intro _; rfl
        | some uri3 =>
          have hlt : 3 < uri.length := by
            by_contra hc
            have : uri.get? 3 = none := List.get?_eq_none.2 (by omega)
            rw [this] at h3
            exact Option.noConfusion h3
          constructor
          · intro h
            exfalso
            revert h
            simp only []
            cases scene.nodes.find? (fun n => n.id == fromString uri3) <;> simp
          · intro h; omega
      · rw [if_neg h2]
        constructor
        · intro h; exact absurd h (by simp)
        · intro h; omega
    · rw [if_neg hm]
      constructor
      · intro h
        obtain ⟨hl, sc, hsc, hmm⟩ := ih.1 h
        exact ⟨hl, sc, List.mem_cons_of_mem _ hsc, hmm⟩
      · intro h
        obtain ⟨hl, sc, hsc, hmm⟩ := h
        rcases List.mem_cons.1 hsc with he | he
        · rw [he] at hmm; exact absurd hmm hm
        · exact ih.2 ⟨hl, sc, he, hmm⟩

/-- The loop of the GET branch has no result when the data handler it selects reads
past the end of `uri`. -/
theorem handleGet_data_undefined (webFile : Str → Str) (all : List DevServerHandler)
    (s : DevServer) (uriList : List Str) (handler : DevServerHandler)
    (rest : List DevServerHandler)
    (emitData : DevServer → List Str → Option (Option (Str × Str)))
    (h1 : handler.Handles s uriList = true) (hd : handler.EmitData = some emitData)
    (h2 : emitData s uriList = none) :
    DevServer.handleGet webFile all s uriList (handler :: rest) = none := by
  rw [DevServer.handleGet, if_pos h1, hd]
  simp only []
  rw [h2]

/-- The loop of the GET branch has no result when the HTML handler it selects reads
past the end of `uri`. -/
theorem handleGet_html_undefined (webFile : Str → Str) (all : List DevServerHandler)
    (s : DevServer) (uriList : List Str) (handler : DevServerHandler)
    (rest : List DevServerHandler)
    (h1 : handler.Handles s uriList = true) (hd : handler.EmitData = none)
    (h2 : handler.EmitHTML s (DevServer.FillTemplate webFile s all) uriList = none) :
    DevServer.handleGet webFile all s uriList (handler :: rest) = none := by
  rw [DevServer.handleGet, if_pos h1, hd]
  simp only []
  rw [h2]

/-- C22 (code defect).  Two built-in handlers read path segments at indices
that are not below the segment count while rendering a path they accept.
`ResourceCacheProvider::Handles` accepts the path `/ResourceCache` of one
segment, and `EmitData` reads `uri[1]` on every path.  `SceneContent::EmitHTML`
reads `uri[3]` when the path has more than two segments: on an accepted path of
three segments whose second segment names a registered scene the read is past
the end.  Both reads are reached from `BeginRequest`, by `GET /ResourceCache`
and by `GET /Scenes/Main/Node` with the scene `Main` registered.
`SimpleHandler::EmitHTML` dereferences an item that exists on every path that
`SimpleHandler::Handles` accepts. -/
theorem get_handlers_read_past_end (cache : Option ResourceCache) (fromString : Str → Nat)
    (scenes_ : List Scene) (nodeBody : Scene → SceneObject → List Str → Str → Str)
    (treeBody : Scene → Str → Str) (server : DevServer)
    (fillTemplate : Str → List (Str × Str) → Str) (uri : List Str) :
    (ResourceCacheProvider.Handles server [lit "ResourceCache"] = true ∧
      (ResourceCacheProvider.EmitData cache server uri = none ↔ uri.length < 2)) ∧
    ((SceneContent.Handles server uri = true ∧
        SceneContent.EmitHTML fromString scenes_ nodeBody treeBody server fillTemplate uri = none) ↔
      (uri.length = 3 ∧ equalsNoCase (uri.getD 0 []) (lit "Scenes") = true ∧
        ∃ scene ∈ scenes_, equalsNoCase (sceneUrlName scene) (uri.getD 1 []) = true)) ∧
    (DevServer.SimpleHandler.EmitHTML server fillTemplate uri = none ↔
      DevServer.SimpleHandler.Handles server uri = false) ∧
    DevServer.BeginRequest noWebFiles [ResourceCacheProvider.handler cache] server
        { request_method := lit "GET", uri := lit "/ResourceCache", body := [] } = none ∧
    DevServer.BeginRequest noWebFiles
        [SceneContent.handler fromString (sampleScene :: scenes_) nodeBody treeBody] server
        { request_method := lit "GET", uri := lit "/Scenes/Main/Node", body := [] } = none := by
  refine ⟨⟨rfl, ResourceCacheProvider_EmitData_none _ _ _⟩, ?_,
    SimpleHandler_EmitHTML_none _ _ _, ?_, ?_⟩
  · rw [SceneContent.EmitHTML, Option.map_eq_none', SceneContent.Handles, Bool.and_eq_true,
      decide_eq_true_eq]
    constructor
    · intro h
      obtain ⟨⟨hl, hs⟩, hn⟩ := h
      obtain ⟨h3, hsc⟩ := (emitLoop_none fromString nodeBody treeBody uri (by omega) scenes_).1 hn
      exact ⟨h3, hs, hsc⟩
    · intro h
      obtain ⟨h3, hs, hsc⟩ := h
      exact ⟨⟨by omega, hs⟩,
        (emitLoop_none fromString nodeBody treeBody uri (by omega) scenes_).2 ⟨h3, hsc⟩⟩
  · rw [BeginRequest_get _ _ _ _ rfl (by decide)]
    have hs : Split (lit "/ResourceCache") slash = [lit "ResourceCache"] := by decide
    show Option.map _ (DevServer.handleGet _ _ server (Split (lit "/ResourceCache") slash) _) = none
    rw [hs, handleGet_data_undefined _ _ server [lit "ResourceCache"]
      (ResourceCacheProvider.handler cache) [] (ResourceCacheProvider.EmitData cache) rfl rfl
      ((ResourceCacheProvider_EmitData_none cache server [lit "ResourceCache"]).2 (by decide))]
    rfl
  · rw [BeginRequest_get _ _ _ _ rfl (by decide)]
    have hs : Split (lit "/Scenes/Main/Node") slash = [lit "Scenes", lit "Main", lit "Node"] := by
      decide
    have h2 : SceneContent.emitLoop fromString nodeBody treeBody
        [lit "Scenes", lit "Main", lit "Node"] (sampleScene :: scenes_) = none :=
      (emitLoop_none fromString nodeBody treeBody [lit "Scenes", lit "Main", lit "Node"]
        (by decide) (sampleScene :: scenes_)).2
        ⟨rfl, sampleScene, List.mem_cons_self _ _, by decide⟩
    have h3 : ∀ fill : Str → List (Str × Str) → Str,
        SceneContent.EmitHTML fromString (sampleScene :: scenes_) nodeBody treeBody server fill
          [lit "Scenes", lit "Main", lit "Node"] = none := by
      intro fill
      rw [SceneContent.EmitHTML, h2]
      rfl
    show Option.map _
      (DevServer.handleGet _ _ server (Split (lit "/Scenes/Main/Node") slash) _) = none
    rw [hs, handleGet_html_undefined noWebFiles
      [SceneContent.handler fromString (sampleScene :: scenes_) nodeBody treeBody] server
      [lit "Scenes", lit "Main", lit "Node"]
      (SceneContent.handler fromString (sampleScene :: scenes_) nodeBody treeBody) [] rfl rfl
      (h3 (DevServer.FillTemplate noWebFiles server
        [SceneContent.handler fromString (sampleScene :: scenes_) nodeBody treeBody]))]
    rfl

end Urho3D
